import Mathlib

/-!
Verification of the tree-diff algorithm in `diff_k8s_manifests.py`.

The Python program compares two parsed YAML documents (nested dictionaries,
lists and scalars) and reports removed, added and changed entries at
dot/bracket paths.  This file embeds the comparison functions
`compare_state_dicts`, `compare_state_lists` and `check_mismatches` as pure
Lean functions over an inductive document-tree type and proves properties of
them.

Modelling notes:
* Python values are modelled by `Value`; dictionaries are association lists
  of string keys in insertion order (Python dictionaries preserve insertion
  order and have unique keys).
* Python `==` is modelled by `pyEq`; it is structural, compares dictionaries
  by key lookup (order-insensitively) and identifies `True`/`False` with the
  integers `1`/`0`, as Python does.
* Python exceptions raised inside the comparison (for example `KeyError` or
  `TypeError` while building the identity-key dictionaries in
  `compare_state_lists`) are modelled by the result `Res.err`; the public
  wrappers collapse them to `none`.
* The mutually recursive comparison functions are defined with an explicit
  fuel parameter so that they are structurally recursive and computable by
  the kernel; the lemma `noTimeout` shows that the fuel chosen by the public
  wrappers is always sufficient, so the fuel is invisible in the wrappers'
  behaviour.
-/

/-- A parsed YAML document value: scalar, mapping or sequence. -/
inductive Value where
  | str (s : String)
  | int (n : Int)
  | bool (b : Bool)
  | null
  | dict (entries : List (String × Value))
  | list (elems : List Value)

/- Structural size of a value, counting constructors but not string
contents.  Used only to compute a sufficient fuel bound. -/
mutual
def sizeVal : Value → Nat
  | .dict e => 1 + sizeEnt e
  | .list l => 1 + sizeElems l
  | _ => 1
def sizeEnt : List (String × Value) → Nat
  | [] => 1
  | (_, v) :: r => 2 + sizeVal v + sizeEnt r
def sizeElems : List Value → Nat
  | [] => 1
  | v :: r => 1 + sizeVal v + sizeElems r
end

theorem sizeVal_pos (v : Value) : 1 ≤ sizeVal v := by
  cases v <;> simp [sizeVal]

theorem sizeEnt_pos (e : List (String × Value)) : 1 ≤ sizeEnt e := by
  cases e with
  | nil => simp [sizeEnt]
  | cons p r => obtain ⟨k, v⟩ := p; simp [sizeEnt]; omega

theorem sizeElems_pos (l : List Value) : 1 ≤ sizeElems l := by
  cases l with
  | nil => simp [sizeElems]
  | cons v r => simp [sizeElems]; omega

/-- `d[key]` lookup in a Python dictionary with string keys: the first
binding of the key (keys are unique in a real dictionary). -/
def lookupStr : List (String × Value) → String → Option Value
  | [], _ => none
  | (k, v) :: rest, key => if key == k then some v else lookupStr rest key

/-- `key in d` for a Python dictionary with string keys. -/
def containsStr (e : List (String × Value)) (key : String) : Bool :=
  (lookupStr e key).isSome

theorem lookupStr_sizeVal {l : List (String × Value)} {k : String} {v : Value}
    (h : lookupStr l k = some v) : sizeVal v + 2 ≤ sizeEnt l := by
  induction l with
  | nil => simp [lookupStr] at h
  | cons p rest ih =>
    obtain ⟨k0, v0⟩ := p
    simp only [lookupStr] at h
    by_cases hk : (k == k0)
    · simp [hk] at h
      subst h
      simp [sizeEnt]
      omega
    · simp [hk] at h
      have := ih h
      have := sizeVal_pos v0
      simp [sizeEnt]
      omega

theorem lookupStr_mem {l : List (String × Value)} {k : String} {v : Value}
    (h : lookupStr l k = some v) : (k, v) ∈ l := by
  induction l with
  | nil => simp [lookupStr] at h
  | cons p rest ih =>
    obtain ⟨k0, v0⟩ := p
    simp only [lookupStr] at h
    by_cases hk : (k == k0)
    · simp [hk] at h
      subst h
      have : k = k0 := by simpa using hk
      subst this
      exact List.mem_cons_self _ _
    · simp [hk] at h
      exact List.mem_cons_of_mem _ (ih h)

theorem containsStr_of_mem {l : List (String × Value)} {k : String} {v : Value}
    (h : (k, v) ∈ l) : containsStr l k = true := by
  induction l with
  | nil => simp at h
  | cons p rest ih =>
    obtain ⟨k0, v0⟩ := p
    rcases List.mem_cons.mp h with h1 | h2
    · obtain ⟨hk, hv⟩ := Prod.mk.injEq .. ▸ h1
      subst hk
      simp [containsStr, lookupStr]
    · by_cases hk : (k == k0)
      · simp [containsStr, lookupStr, hk]
      · simpa [containsStr, lookupStr, hk] using ih h2

/-- Python `==` on document values, with explicit fuel so that the
definition is structurally recursive.  Dictionaries compare equal when they
have the same number of keys and every key of the left one maps to an equal
value in the right one (this is how CPython compares dictionaries; with
unique keys it is order-insensitive).  Python identifies booleans with the
integers 0 and 1. -/
def pyEqF : Nat → Value → Value → Bool
  | 0, _, _ => false
  | _ + 1, .str a, .str b => a == b
  | _ + 1, .int a, .int b => a == b
  | _ + 1, .bool a, .bool b => a == b
  | _ + 1, .null, .null => true
  | _ + 1, .int a, .bool b => a == (if b then 1 else 0)
  | _ + 1, .bool a, .int b => (if a then (1 : Int) else 0) == b
  | fuel + 1, .list xs, .list ys =>
      xs.length == ys.length && (List.zip xs ys).all (fun p => pyEqF fuel p.1 p.2)
  | fuel + 1, .dict a, .dict b =>
      a.length == b.length && a.all (fun p =>
        match lookupStr b p.1 with
        | some w => pyEqF fuel p.2 w
        | none => false)
  | _ + 1, _, _ => false

/-- Python `==` on document values (fuel instantiated with a sufficient
bound; `pyEqF_fuel_irrelevant` below shows the bound does not matter). -/
def pyEq (x y : Value) : Bool := pyEqF (sizeVal x + sizeVal y) x y

theorem list_all_congr {α : Type} {l : List α} {f g : α → Bool}
    (h : ∀ a ∈ l, f a = g a) : l.all f = l.all g := by
  induction l with
  | nil => rfl
  | cons x rest ih =>
    simp only [List.all_cons]
    rw [h x (List.mem_cons_self _ _), ih (fun a ha => h a (List.mem_cons_of_mem _ ha))]

theorem sizeElems_of_mem {l : List Value} {v : Value} (h : v ∈ l) :
    sizeVal v + 1 ≤ sizeElems l := by
  induction l with
  | nil => simp at h
  | cons x rest ih =>
    rcases List.mem_cons.mp h with h1 | h2
    · subst h1; simp [sizeElems]; omega
    · have := ih h2
      have := sizeVal_pos x
      simp [sizeElems]; omega

theorem sizeEnt_of_mem {l : List (String × Value)} {p : String × Value} (h : p ∈ l) :
    sizeVal p.2 + 2 ≤ sizeEnt l := by
  induction l with
  | nil => simp at h
  | cons x rest ih =>
    obtain ⟨k0, v0⟩ := x
    rcases List.mem_cons.mp h with h1 | h2
    · subst h1; simp [sizeEnt]; omega
    · have := ih h2
      have := sizeVal_pos v0
      simp [sizeEnt]; omega

/-- The result of `pyEqF` does not depend on the fuel, provided the fuel is
at least the combined size of the two values. -/
theorem pyEqF_fuel_irrelevant :
    ∀ fuel fuel' x y, sizeVal x + sizeVal y ≤ fuel → sizeVal x + sizeVal y ≤ fuel' →
      pyEqF fuel x y = pyEqF fuel' x y := by
  intro fuel
  induction fuel with
  | zero =>
    intro fuel' x y h _
    have := sizeVal_pos x
    have := sizeVal_pos y
    omega
  | succ fuel ih =>
    intro fuel' x y h h'
    cases fuel' with
    | zero =>
      have := sizeVal_pos x
      have := sizeVal_pos y
      omega
    | succ fuel' =>
      cases x <;> cases y <;> simp only [pyEqF]
      case list.list =>
        rename_i xs ys
        have harg : ∀ p ∈ List.zip xs ys, pyEqF fuel p.1 p.2 = pyEqF fuel' p.1 p.2 := by
          intro p hp
          have hx := List.of_mem_zip hp
          have h1 := sizeElems_of_mem hx.1
          have h2 := sizeElems_of_mem hx.2
          have hsx : sizeVal (Value.list xs) = 1 + sizeElems xs := rfl
          have hsy : sizeVal (Value.list ys) = 1 + sizeElems ys := rfl
          exact ih fuel' p.1 p.2 (by omega) (by omega)
        rw [list_all_congr harg]
      case dict.dict =>
        rename_i a b
        have harg : ∀ p ∈ a,
            (match lookupStr b p.1 with
             | some w => pyEqF fuel p.2 w
             | none => false) =
            (match lookupStr b p.1 with
             | some w => pyEqF fuel' p.2 w
             | none => false) := by
          intro p hp
          cases hw : lookupStr b p.1 with
          | none => rfl
          | some w =>
            have h1 := sizeEnt_of_mem hp
            have h2 := lookupStr_sizeVal hw
            have hsx : sizeVal (Value.dict a) = 1 + sizeEnt a := rfl
            have hsy : sizeVal (Value.dict b) = 1 + sizeEnt b := rfl
            exact ih fuel' p.2 w (by omega) (by omega)
        rw [list_all_congr harg]

/-- Evaluating `pyEqF` at any sufficient fuel computes `pyEq`. -/
theorem pyEqF_eq_pyEq {fuel : Nat} {x y : Value} (h : sizeVal x + sizeVal y ≤ fuel) :
    pyEqF fuel x y = pyEq x y :=
  pyEqF_fuel_irrelevant fuel (sizeVal x + sizeVal y) x y h (Nat.le_refl _)

/-- Key uniqueness for one dictionary level (Python dictionaries cannot
contain duplicate keys). -/
def nodupKeys : List (String × Value) → Bool
  | [] => true
  | (k, _) :: rest => !(containsStr rest k) && nodupKeys rest

/- Well-formedness of a document tree: every dictionary, at every depth, has
unique keys.  Every value parsed from a real YAML document satisfies this. -/
mutual
def wfV : Value → Bool
  | .dict e => nodupKeys e && wfE e
  | .list l => wfL l
  | _ => true
def wfE : List (String × Value) → Bool
  | [] => true
  | (_, v) :: r => wfV v && wfE r
def wfL : List Value → Bool
  | [] => true
  | v :: r => wfV v && wfL r
end

theorem wfE_of_mem {e : List (String × Value)} {p : String × Value}
    (hwf : wfE e = true) (h : p ∈ e) : wfV p.2 = true := by
  induction e with
  | nil => simp at h
  | cons q rest ih =>
    obtain ⟨k0, v0⟩ := q
    simp only [wfE, Bool.and_eq_true] at hwf
    rcases List.mem_cons.mp h with h1 | h2
    · subst h1; exact hwf.1
    · exact ih hwf.2 h2

theorem wfL_of_mem {l : List Value} {v : Value}
    (hwf : wfL l = true) (h : v ∈ l) : wfV v = true := by
  induction l with
  | nil => simp at h
  | cons x rest ih =>
    simp only [wfL, Bool.and_eq_true] at hwf
    rcases List.mem_cons.mp h with h1 | h2
    · subst h1; exact hwf.1
    · exact ih hwf.2 h2

theorem nodupKeys_lookup {e : List (String × Value)} {k : String} {v : Value}
    (hnd : nodupKeys e = true) (h : (k, v) ∈ e) : lookupStr e k = some v := by
  induction e with
  | nil => simp at h
  | cons q rest ih =>
    obtain ⟨k0, v0⟩ := q
    simp only [nodupKeys, Bool.and_eq_true] at hnd
    rcases List.mem_cons.mp h with h1 | h2
    · obtain ⟨hk, hv⟩ := Prod.mk.injEq .. ▸ h1
      subst hk; subst hv
      simp [lookupStr]
    · have hk : (k == k0) = false := by
        by_contra hne
        have hkk : k = k0 := by
          cases hkk2 : (k == k0)
          · exact absurd hkk2 hne
          · simpa using hkk2
        subst hkk
        have := containsStr_of_mem h2
        simp [this] at hnd
      simp [lookupStr, hk]
      exact ih hnd.2 h2

theorem mem_zip_same {α : Type} {l : List α} {p : α × α} (h : p ∈ List.zip l l) :
    p.1 = p.2 := by
  induction l with
  | nil => simp [List.zip] at h
  | cons x rest ih =>
    rcases List.mem_cons.mp h with h1 | h2
    · rw [h1]
    · exact ih h2

/-- Python equality is reflexive on well-formed values. -/
theorem pyEq_refl : ∀ fuel v, wfV v = true → 2 * sizeVal v ≤ fuel →
    pyEqF fuel v v = true := by
  intro fuel
  induction fuel with
  | zero =>
    intro v _ hsz
    have := sizeVal_pos v
    omega
  | succ fuel ih =>
    intro v hwf hsz
    cases v <;> simp only [pyEqF]
    case str => simp
    case int => simp
    case bool => simp
    case list =>
      rename_i xs
      rw [Bool.and_eq_true]
      refine ⟨by simp, ?_⟩
      rw [List.all_eq_true]
      intro p hp
      have hpp := mem_zip_same hp
      have hmem := (List.of_mem_zip hp).1
      have hsub := sizeElems_of_mem hmem
      have hwfp : wfV p.1 = true := wfL_of_mem (by simpa [wfV] using hwf) hmem
      have hs : sizeVal (Value.list xs) = 1 + sizeElems xs := rfl
      rw [← hpp]
      exact ih p.1 hwfp (by omega)
    case dict =>
      rename_i a
      simp only [wfV, Bool.and_eq_true] at hwf
      rw [Bool.and_eq_true]
      refine ⟨by simp, ?_⟩
      rw [List.all_eq_true]
      intro p hp
      have hlk : lookupStr a p.1 = some p.2 := nodupKeys_lookup hwf.1 hp
      rw [hlk]
      have hsub := sizeEnt_of_mem hp
      have hwfp : wfV p.2 = true := wfE_of_mem hwf.2 hp
      have hs : sizeVal (Value.dict a) = 1 + sizeEnt a := rfl
      exact ih p.2 hwfp (by omega)

/-- `pyEq` is reflexive on well-formed values. -/
theorem pyEq_refl_wf {v : Value} (hwf : wfV v = true) : pyEq v v = true :=
  pyEq_refl (sizeVal v + sizeVal v) v hwf (by omega)

/-- One change record, as the Python code builds it: a dictionary with a
`path` and, depending on the record, an `old_value`, a `new_value` or a
descriptive `message`. -/
structure DiffItem where
  path : String
  old_value : Option Value
  new_value : Option Value
  message : Option String

/-- The diff result: the `removed`, `added` and `changed` lists. -/
structure Diff where
  removed : List DiffItem
  added : List DiffItem
  changed : List DiffItem

def emptyDiff : Diff := ⟨[], [], []⟩

/-- Concatenating two diffs, as the Python `extend` calls do. -/
def Diff.app (a b : Diff) : Diff :=
  ⟨a.removed ++ b.removed, a.added ++ b.added, a.changed ++ b.changed⟩

/-- Result of a fuelled comparison: `out` when the fuel ran out (a model
artifact, ruled out by `noTimeout`), `err` when the Python code would raise
an exception, `ok d` when it returns the diff `d`. -/
inductive Res where
  | out
  | err
  | ok (d : Diff)

/-- Sequencing two comparison steps: errors and fuel exhaustion propagate,
two successful results are concatenated. -/
def Res.merge : Res → Res → Res
  | .out, _ => .out
  | .err, _ => .err
  | .ok _, .out => .out
  | .ok _, .err => .err
  | .ok a, .ok b => .ok (a.app b)

/-- `f"{path}.{key}" if path else key` -/
def childPath (path key : String) : String :=
  if path == "" then key else path ++ "." ++ key

/-- Python `str()` of a scalar value, as used by the f-string
`f"{path}[{key}]"`.  Identity-key values are always hashable scalars when
the comparison succeeds, so the dictionary and list cases are unreachable
there; they are given a placeholder rendering. -/
def pyStr : Value → String
  | .str s => s
  | .int n => toString n
  | .bool true => "True"
  | .bool false => "False"
  | .null => "None"
  | .dict _ => "<dict>"
  | .list _ => "<list>"

/-- `f"{path}[{key}]"` -/
def bracketPath (path : String) (key : Value) : String :=
  path ++ "[" ++ pyStr key ++ "]"

/-- The identity key chosen by `compare_state_lists`:
`"name" if "name" in current_state[0] else list(current_state[0].keys())[0]`.
`none` models the exceptions Python raises when the first element is not a
dictionary, or is an empty dictionary without a `"name"` key. -/
def uniqueKey : Value → Option String
  | .dict e =>
      if containsStr e "name" then some "name"
      else
        match e with
        | [] => none
        | (k, _) :: _ => some k
  | _ => none

/-- Whether a value can be used as a Python dictionary key (scalars can;
dictionaries and lists raise `TypeError: unhashable type`). -/
def hashable : Value → Bool
  | .dict _ => false
  | .list _ => false
  | _ => true

/-- Lookup in a Python dictionary whose keys are scalar values, by Python
equality. -/
def pyLookup {α : Type} : List (Value × α) → Value → Option α
  | [], _ => none
  | (k, v) :: rest, key => if pyEq key k then some v else pyLookup rest key

def pyContains {α : Type} (d : List (Value × α)) (key : Value) : Bool :=
  (pyLookup d key).isSome

/-- Insertion into a Python dictionary: if an equal key is present its value
is replaced (the originally stored key object is kept, as in Python),
otherwise the binding is appended. -/
def pyDictInsert {α : Type} : List (Value × α) → Value → α → List (Value × α)
  | [], k, v => [(k, v)]
  | (k0, v0) :: rest, k, v =>
      if pyEq k k0 then (k0, v) :: rest else (k0, v0) :: pyDictInsert rest k v

/-- The dictionary comprehension
`{item[unique_key]: item for item in items}`: items are processed in order,
each must be a dictionary containing the identity key, the key value must be
hashable, and a repeated key value overwrites the earlier binding.  `none`
models the `TypeError`/`KeyError` Python raises otherwise. -/
def buildStateDictAux : List Value → String →
    List (Value × List (String × Value)) → Option (List (Value × List (String × Value)))
  | [], _, acc => some acc
  | item :: rest, unique_key, acc =>
      match item with
      | .dict e =>
          match lookupStr e unique_key with
          | some kv =>
              if hashable kv then buildStateDictAux rest unique_key (pyDictInsert acc kv e)
              else none
          | none => none
      | _ => none

def buildStateDict (items : List Value) (unique_key : String) :
    Option (List (Value × List (String × Value))) :=
  buildStateDictAux items unique_key []

/-- The records emitted by the removed-pass of `compare_state_lists`: one
whole-element record for each identity value of the current list absent
from the desired list. -/
def removedRecs (cs ds : List (Value × List (String × Value))) (path : String) :
    List DiffItem :=
  cs.filterMap fun p =>
    if pyContains ds p.1 then none
    else some ⟨bracketPath path p.1, some (.dict p.2), none, none⟩

/-- The records emitted by the added-pass of `compare_state_lists`: one
whole-element record for each identity value of the desired list absent
from the current list. -/
def addedRecs (ds cs : List (Value × List (String × Value))) (path : String) :
    List DiffItem :=
  ds.filterMap fun p =>
    if pyContains cs p.1 then none
    else some ⟨bracketPath path p.1, none, some (.dict p.2), none⟩

/- The comparison functions of `diff_k8s_manifests.py`, with fuel.

`csdF` is `compare_state_dicts`: `csdLoop1` is its first loop (over the
keys of the current state, with `csdHead` the body for one key and
`csdMatched` the `elif` chain used when the key is present in both states)
and `csdLoop2` its second loop (over the keys of the desired state, with
`csdAddHead`/`csdAddValue` the body for one key, collecting only added
records).  `cslF` is `compare_state_lists`: `cslKeyed` picks the identity
key, `cslBuilt` receives the two identity-value dictionaries (or `none` for
a raised exception), and `cslPairs`/`cslPairHead` form its third loop over
matched identity values.  Every call decrements the fuel once so that the
whole block is structurally recursive in the fuel; `noTimeout` below shows
the initial fuel chosen by the wrappers is sufficient. -/
mutual
def csdF : Nat → List (String × Value) → List (String × Value) → String → Res
  | 0, _, _, _ => .out
  | fuel + 1, current_state, desired_state, path =>
      Res.merge (csdLoop1 fuel current_state desired_state path)
                (csdLoop2 fuel desired_state current_state path)

def csdLoop1 : Nat → List (String × Value) → List (String × Value) → String → Res
  | 0, _, _, _ => .out
  | _ + 1, [], _, _ => .ok emptyDiff
  | fuel + 1, (key, v) :: rest, desired_state, path =>
      Res.merge (csdHead fuel key v desired_state path)
                (csdLoop1 fuel rest desired_state path)

def csdHead : Nat → String → Value → List (String × Value) → String → Res
  | 0, _, _, _, _ => .out
  | fuel + 1, key, v, desired_state, path =>
      match lookupStr desired_state key with
      | none => .ok ⟨[⟨childPath path key, some v, none, none⟩], [], []⟩
      | some w => csdMatched fuel (childPath path key) v w

def csdMatched : Nat → String → Value → Value → Res
  | 0, _, _, _ => .out
  | fuel + 1, key_path, .dict ce, .dict de => csdF fuel ce de key_path
  | fuel + 1, key_path, .list cl, .list dl => cslF fuel cl dl key_path
  | _ + 1, key_path, v, w =>
      if pyEq v w then .ok emptyDiff
      else .ok ⟨[], [], [⟨key_path, some v, some w, none⟩]⟩

def csdLoop2 : Nat → List (String × Value) → List (String × Value) → String → Res
  | 0, _, _, _ => .out
  | _ + 1, [], _, _ => .ok emptyDiff
  | fuel + 1, (key, v) :: rest, current_state, path =>
      Res.merge (csdAddHead fuel key v current_state path)
                (csdLoop2 fuel rest current_state path)

def csdAddHead : Nat → String → Value → List (String × Value) → String → Res
  | 0, _, _, _, _ => .out
  | fuel + 1, key, v, current_state, path =>
      if containsStr current_state key then .ok emptyDiff
      else csdAddValue fuel (childPath path key) v

def csdAddValue : Nat → String → Value → Res
  | 0, _, _ => .out
  | fuel + 1, key_path, .dict de =>
      match csdF fuel [] de key_path with
      | .ok sub => .ok ⟨[], sub.added, []⟩
      | r => r
  | _ + 1, key_path, v => .ok ⟨[], [⟨key_path, none, some v, none⟩], []⟩

def cslF : Nat → List Value → List Value → String → Res
  | 0, _, _, _ => .out
  | fuel + 1, current_state, desired_state, path =>
      match current_state with
      | [] => .ok ⟨[⟨path, none, none, some "Current state list is empty"⟩], [], []⟩
      | first :: _ =>
        if desired_state.isEmpty then
          .ok ⟨[], [⟨path, none, none, some "Desired state list is empty"⟩], []⟩
        else cslKeyed fuel current_state desired_state first path

def cslKeyed : Nat → List Value → List Value → Value → String → Res
  | 0, _, _, _, _ => .out
  | fuel + 1, current_state, desired_state, first, path =>
      match uniqueKey first with
      | none => .err
      | some unique_key =>
          cslBuilt fuel (buildStateDict current_state unique_key)
            (buildStateDict desired_state unique_key) path

def cslBuilt : Nat → Option (List (Value × List (String × Value))) →
    Option (List (Value × List (String × Value))) → String → Res
  | 0, _, _, _ => .out
  | fuel + 1, some cs, some ds, path =>
      Res.merge (.ok ⟨removedRecs cs ds path, addedRecs ds cs path, []⟩)
                (cslPairs fuel cs ds path)
  | _ + 1, _, _, _ => .err

def cslPairs : Nat → List (Value × List (String × Value)) →
    List (Value × List (String × Value)) → String → Res
  | 0, _, _, _ => .out
  | _ + 1, [], _, _ => .ok emptyDiff
  | fuel + 1, (key, ce) :: rest, ds, path =>
      Res.merge (cslPairHead fuel key ce ds path) (cslPairs fuel rest ds path)

def cslPairHead : Nat → Value → List (String × Value) →
    List (Value × List (String × Value)) → String → Res
  | 0, _, _, _, _ => .out
  | fuel + 1, key, ce, ds, path =>
      match pyLookup ds key with
      | some de =>
          if pyEq (.dict ce) (.dict de) then .ok emptyDiff
          else csdF fuel ce de (bracketPath path key)
      | none => .ok emptyDiff
end

/-- Fuel sufficient for comparing structures of the given sizes
(`noTimeout` below proves sufficiency). -/
def diffFuel (a b : Nat) : Nat := 3 * (a + b) + 3

/-- `compare_state_dicts(current_state, desired_state, path)`.  `none`
models an uncaught Python exception. -/
def compare_state_dicts (current_state desired_state : List (String × Value))
    (path : String) : Option Diff :=
  match csdF (diffFuel (sizeEnt current_state) (sizeEnt desired_state))
      current_state desired_state path with
  | .ok d => some d
  | _ => none

/-- `compare_state_lists(current_state, desired_state, path)`.  `none`
models an uncaught Python exception. -/
def compare_state_lists (current_state desired_state : List Value)
    (path : String) : Option Diff :=
  match cslF (diffFuel (sizeElems current_state) (sizeElems desired_state))
      current_state desired_state path with
  | .ok d => some d
  | _ => none

/-- Insertion into the Python dictionary of mismatch booleans. -/
def insertBool : List (String × Bool) → String → Bool → List (String × Bool)
  | [], k, b => [(k, b)]
  | (k0, b0) :: rest, k, b =>
      if k == k0 then (k0, b) :: rest else (k0, b0) :: insertBool rest k b

/-- `d.get(field)`: Python returns `None` when the key is missing, which is
the same object as an explicit YAML `null` value. -/
def dictGet (d : List (String × Value)) (field : String) : Value :=
  match lookupStr d field with
  | some v => v
  | none => .null

def checkMismatchesAux : List String → List (String × Value) → List (String × Value) →
    List (String × Bool) → List (String × Bool)
  | [], _, _, acc => acc
  | field :: rest, current_state, desired_state, acc =>
      checkMismatchesAux rest current_state desired_state
        (insertBool acc field
          (!(pyEq (dictGet current_state field) (dictGet desired_state field))))

/-- `check_mismatches(current_state, desired_state, fields_to_check)`. -/
def check_mismatches (current_state desired_state : List (String × Value))
    (fields_to_check : List String) : List (String × Bool) :=
  checkMismatchesAux fields_to_check current_state desired_state []

def lookupBool : List (String × Bool) → String → Option Bool
  | [], _ => none
  | (k, v) :: rest, key => if key == k then some v else lookupBool rest key

theorem Res.merge_ok_iff {a b : Res} {d : Diff} :
    Res.merge a b = .ok d ↔ ∃ x y, a = .ok x ∧ b = .ok y ∧ d = x.app y := by
  cases a <;> cases b <;> first
    | (simp [Res.merge]; tauto)
    | simp [Res.merge]

theorem Res.merge_ne_out {a b : Res} (ha : a ≠ .out) (hb : b ≠ .out) :
    Res.merge a b ≠ .out := by
  cases a <;> cases b <;> simp_all [Res.merge]

theorem Res.merge_ne_err {a b : Res} (ha : a ≠ .err) (hb : b ≠ .err) :
    Res.merge a b ≠ .err := by
  cases a <;> cases b <;> simp_all [Res.merge]

/-- Total size of the element dictionaries stored in an identity-key
dictionary. -/
def entriesSizes : List (Value × List (String × Value)) → Nat
  | [] => 0
  | p :: rest => sizeEnt p.2 + entriesSizes rest

theorem entriesSizes_of_mem {l : List (Value × List (String × Value))}
    {p : Value × List (String × Value)} (h : p ∈ l) : sizeEnt p.2 ≤ entriesSizes l := by
  induction l with
  | nil => simp at h
  | cons q rest ih =>
    rcases List.mem_cons.mp h with h1 | h2
    · subst h1; simp [entriesSizes]
    · have := ih h2
      simp [entriesSizes]
      omega

theorem pyLookup_entriesSizes {ds : List (Value × List (String × Value))}
    {key : Value} {de : List (String × Value)} (h : pyLookup ds key = some de) :
    sizeEnt de ≤ entriesSizes ds := by
  induction ds with
  | nil => simp [pyLookup] at h
  | cons q rest ih =>
    obtain ⟨k0, e0⟩ := q
    simp only [pyLookup] at h
    by_cases hk : pyEq key k0
    · simp [hk] at h
      subst h
      simp [entriesSizes]
    · simp [hk] at h
      have := ih h
      simp [entriesSizes]
      omega

theorem pyLookup_mem {α : Type} {ds : List (Value × α)} {key : Value} {de : α}
    (h : pyLookup ds key = some de) : ∃ k, (k, de) ∈ ds := by
  induction ds with
  | nil => simp [pyLookup] at h
  | cons q rest ih =>
    obtain ⟨k0, e0⟩ := q
    simp only [pyLookup] at h
    by_cases hk : pyEq key k0
    · simp [hk] at h
      subst h
      exact ⟨k0, List.mem_cons_self _ _⟩
    · simp [hk] at h
      obtain ⟨k, hkm⟩ := ih h
      exact ⟨k, List.mem_cons_of_mem _ hkm⟩

theorem pyDictInsert_length {α : Type} (acc : List (Value × α)) (k : Value) (v : α) :
    (pyDictInsert acc k v).length ≤ acc.length + 1 := by
  induction acc with
  | nil => simp [pyDictInsert]
  | cons q rest ih =>
    obtain ⟨k0, v0⟩ := q
    simp only [pyDictInsert]
    by_cases hk : pyEq k k0
    · simp [hk]
    · simp [hk]
      omega

theorem pyDictInsert_entriesSizes (acc : List (Value × List (String × Value)))
    (k : Value) (e : List (String × Value)) :
    entriesSizes (pyDictInsert acc k e) ≤ entriesSizes acc + sizeEnt e := by
  induction acc with
  | nil => simp [pyDictInsert, entriesSizes]
  | cons q rest ih =>
    obtain ⟨k0, e0⟩ := q
    simp only [pyDictInsert]
    by_cases hk : pyEq k k0
    · simp [hk, entriesSizes]
      have := sizeEnt_pos e0
      omega
    · simp [hk, entriesSizes]
      omega

theorem pyDictInsert_mem {α : Type} {acc : List (Value × α)} {k : Value} {v : α}
    {p : Value × α} (h : p ∈ pyDictInsert acc k v) : p ∈ acc ∨ p.2 = v := by
  induction acc with
  | nil =>
    simp [pyDictInsert] at h
    subst h
    right; rfl
  | cons q rest ih =>
    obtain ⟨k0, v0⟩ := q
    simp only [pyDictInsert] at h
    by_cases hk : pyEq k k0
    · simp [hk] at h
      rcases h with h1 | h2
      · subst h1; right; rfl
      · left; exact List.mem_cons_of_mem _ h2
    · simp [hk] at h
      rcases h with h1 | h2
      · subst h1; left; exact List.mem_cons_self _ _
      · rcases ih h2 with ha | hb
        · left; exact List.mem_cons_of_mem _ ha
        · right; exact hb

theorem buildStateDictAux_bound :
    ∀ (items : List Value) (uk : String) (acc cs : List (Value × List (String × Value))),
      buildStateDictAux items uk acc = some cs →
      cs.length + entriesSizes cs + 1 ≤ acc.length + entriesSizes acc + sizeElems items := by
  intro items
  induction items with
  | nil =>
    intro uk acc cs h
    simp [buildStateDictAux] at h
    subst h
    simp [sizeElems]
  | cons item rest ih =>
    intro uk acc cs h
    simp only [buildStateDictAux] at h
    cases item <;> simp at h
    rename_i e
    cases hlk : lookupStr e uk with
    | none => simp [hlk] at h
    | some kv =>
      simp only [hlk] at h
      by_cases hh : hashable kv
      · simp [hh] at h
        have hins1 := pyDictInsert_length acc kv e
        have hins2 := pyDictInsert_entriesSizes acc kv e
        have := ih uk (pyDictInsert acc kv e) cs h
        have hs : sizeElems (Value.dict e :: rest) = 1 + (1 + sizeEnt e) + sizeElems rest := rfl
        omega
      · simp [hh] at h

theorem buildStateDict_bound {items : List Value} {uk : String}
    {cs : List (Value × List (String × Value))} (h : buildStateDict items uk = some cs) :
    cs.length + entriesSizes cs + 1 ≤ sizeElems items := by
  have := buildStateDictAux_bound items uk [] cs h
  simpa [entriesSizes] using this

theorem buildStateDictAux_prov :
    ∀ (items : List Value) (uk : String) (acc cs : List (Value × List (String × Value))),
      buildStateDictAux items uk acc = some cs →
      ∀ p ∈ cs, p ∈ acc ∨ Value.dict p.2 ∈ items := by
  intro items
  induction items with
  | nil =>
    intro uk acc cs h p hp
    simp [buildStateDictAux] at h
    subst h
    left; exact hp
  | cons item rest ih =>
    intro uk acc cs h p hp
    simp only [buildStateDictAux] at h
    cases item <;> simp at h
    rename_i e
    cases hlk : lookupStr e uk with
    | none => simp [hlk] at h
    | some kv =>
      simp only [hlk] at h
      by_cases hh : hashable kv
      · simp [hh] at h
        rcases ih uk _ cs h p hp with ha | hb
        · rcases pyDictInsert_mem ha with h1 | h2
          · left; exact h1
          · right
            rw [h2]
            exact List.mem_cons_self _ _
        · right; exact List.mem_cons_of_mem _ hb
      · simp [hh] at h

theorem buildStateDict_prov {items : List Value} {uk : String}
    {cs : List (Value × List (String × Value))} (h : buildStateDict items uk = some cs) :
    ∀ p ∈ cs, Value.dict p.2 ∈ items := by
  intro p hp
  rcases buildStateDictAux_prov items uk [] cs h p hp with ha | hb
  · simp at ha
  · exact hb

/-- The fuel bounds used by the public wrappers are sufficient: with enough
fuel, no comparison function reports fuel exhaustion. -/
theorem noTimeout : ∀ fuel,
    (∀ cur des path, 3 * (sizeEnt cur + sizeEnt des) ≤ fuel →
      csdF fuel cur des path ≠ .out) ∧
    (∀ cur des path, 3 * (sizeEnt cur + sizeEnt des) ≤ fuel + 1 →
      csdLoop1 fuel cur des path ≠ .out) ∧
    (∀ key v des path, 3 * (sizeVal v + sizeEnt des) ≤ fuel →
      csdHead fuel key v des path ≠ .out) ∧
    (∀ kp v w, 3 * (sizeVal v + sizeVal w) ≤ fuel →
      csdMatched fuel kp v w ≠ .out) ∧
    (∀ des cur path, 3 * (sizeEnt des + sizeEnt cur) ≤ fuel + 1 →
      csdLoop2 fuel des cur path ≠ .out) ∧
    (∀ key v cur path, 3 * (sizeVal v + sizeEnt cur) ≤ fuel →
      csdAddHead fuel key v cur path ≠ .out) ∧
    (∀ kp v, 3 * sizeVal v + 1 ≤ fuel → csdAddValue fuel kp v ≠ .out) ∧
    (∀ cur des path, 3 * (sizeElems cur + sizeElems des) ≤ fuel →
      cslF fuel cur des path ≠ .out) ∧
    (∀ cur des first path, 3 * (sizeElems cur + sizeElems des) ≤ fuel + 1 →
      cslKeyed fuel cur des first path ≠ .out) ∧
    (∀ ocs ods path, 1 ≤ fuel →
      (∀ cs ds, ocs = some cs → ods = some ds →
        cs.length + 3 * entriesSizes cs + ds.length + 3 * entriesSizes ds + 2 ≤ fuel) →
      cslBuilt fuel ocs ods path ≠ .out) ∧
    (∀ cs ds path,
      cs.length + 3 * entriesSizes cs + ds.length + 3 * entriesSizes ds + 1 ≤ fuel →
      cslPairs fuel cs ds path ≠ .out) ∧
    (∀ key ce ds path, 3 * sizeEnt ce + 3 * entriesSizes ds + 1 ≤ fuel →
      cslPairHead fuel key ce ds path ≠ .out) := by
  intro fuel
  induction fuel with
  | zero =>
    refine ⟨?_, ?_, ?_, ?_, ?_, ?_, ?_, ?_, ?_, ?_, ?_, ?_⟩
    · intro cur des path h
      have := sizeEnt_pos cur; have := sizeEnt_pos des; omega
    · intro cur des path h
      have := sizeEnt_pos cur; have := sizeEnt_pos des; omega
    · intro key v des path h
      have := sizeVal_pos v; have := sizeEnt_pos des; omega
    · intro kp v w h
      have := sizeVal_pos v; have := sizeVal_pos w; omega
    · intro des cur path h
      have := sizeEnt_pos cur; have := sizeEnt_pos des; omega
    · intro key v cur path h
      have := sizeVal_pos v; have := sizeEnt_pos cur; omega
    · intro kp v h
      have := sizeVal_pos v; omega
    · intro cur des path h
      have := sizeElems_pos cur; have := sizeElems_pos des; omega
    · intro cur des first path h
      have := sizeElems_pos cur; have := sizeElems_pos des; omega
    · intro ocs ods path hfuel h
      omega
    · intro cs ds path h
      omega
    · intro key ce ds path h
      omega
  | succ fuel ih =>
    obtain ⟨ih1, ih2, ih3, ih4, ih5, ih6, ih7, ih8, ih9, ih10, ih11, ih12⟩ := ih
    refine ⟨?_, ?_, ?_, ?_, ?_, ?_, ?_, ?_, ?_, ?_, ?_, ?_⟩
    · -- csdF
      intro cur des path h
      simp only [csdF]
      exact Res.merge_ne_out (ih2 cur des path (by omega)) (ih5 des cur path (by omega))
    · -- csdLoop1
      intro cur des path h
      match cur with
      | [] => simp [csdLoop1]
      | (key, v) :: rest =>
        have hsz : sizeEnt ((key, v) :: rest) = 2 + sizeVal v + sizeEnt rest := rfl
        have hrest : 1 ≤ sizeEnt rest := sizeEnt_pos rest
        have hv : 1 ≤ sizeVal v := sizeVal_pos v
        simp only [csdLoop1]
        exact Res.merge_ne_out (ih3 key v des path (by omega))
          (ih2 rest des path (by omega))
    · -- csdHead
      intro key v des path h
      simp only [csdHead]
      cases hlk : lookupStr des key with
      | none => simp
      | some w =>
        have hw := lookupStr_sizeVal hlk
        exact ih4 (childPath path key) v w (by omega)
    · -- csdMatched
      intro kp v w h
      have hv : 1 ≤ sizeVal v := sizeVal_pos v
      have hw : 1 ≤ sizeVal w := sizeVal_pos w
      cases v <;> cases w <;> simp only [csdMatched] <;>
        try (split <;> simp)
      · rename_i ce de
        have hce : sizeVal (Value.dict ce) = 1 + sizeEnt ce := rfl
        have hde : sizeVal (Value.dict de) = 1 + sizeEnt de := rfl
        rw [hce, hde] at h
        exact ih1 ce de _ (by omega)
      · rename_i cl dl
        have hcl : sizeVal (Value.list cl) = 1 + sizeElems cl := rfl
        have hdl : sizeVal (Value.list dl) = 1 + sizeElems dl := rfl
        rw [hcl, hdl] at h
        exact ih8 cl dl _ (by omega)
    · -- csdLoop2
      intro des cur path h
      match des with
      | [] => simp [csdLoop2]
      | (key, v) :: rest =>
        have hsz : sizeEnt ((key, v) :: rest) = 2 + sizeVal v + sizeEnt rest := rfl
        have hrest : 1 ≤ sizeEnt rest := sizeEnt_pos rest
        have hv : 1 ≤ sizeVal v := sizeVal_pos v
        simp only [csdLoop2]
        exact Res.merge_ne_out (ih6 key v cur path (by omega))
          (ih5 rest cur path (by omega))
    · -- csdAddHead
      intro key v cur path h
      have hv : 1 ≤ sizeVal v := sizeVal_pos v
      have hcur : 1 ≤ sizeEnt cur := sizeEnt_pos cur
      simp only [csdAddHead]
      split
      · simp
      · exact ih7 (childPath path key) v (by omega)
    · -- csdAddValue
      intro kp v h
      have hv : 1 ≤ sizeVal v := sizeVal_pos v
      cases v <;> simp only [csdAddValue] <;> try simp
      rename_i de
      have hde : sizeVal (Value.dict de) = 1 + sizeEnt de := rfl
      have hnil : sizeEnt ([] : List (String × Value)) = 1 := rfl
      rw [hde] at h
      have hsub := ih1 [] de kp (by rw [hnil]; omega)
      cases hres : csdF fuel [] de kp with
      | out => exact absurd hres hsub
      | err => simp [hres]
      | ok sub => simp [hres]
    · -- cslF
      intro cur des path h
      match cur with
      | [] => simp [cslF]
      | first :: tail =>
        simp only [cslF]
        split
        · simp
        · exact ih9 (first :: tail) des first path (by omega)
    · -- cslKeyed
      intro cur des first path h
      have hc : 1 ≤ sizeElems cur := sizeElems_pos cur
      have hd : 1 ≤ sizeElems des := sizeElems_pos des
      simp only [cslKeyed]
      cases huk : uniqueKey first with
      | none => simp
      | some uk =>
        apply ih10 _ _ path (by omega)
        intro cs ds hcs hds
        have hb1 := buildStateDict_bound hcs
        have hb2 := buildStateDict_bound hds
        omega
    · -- cslBuilt
      intro ocs ods path hfuel h
      cases ocs with
      | none => simp [cslBuilt]
      | some cs =>
        cases ods with
        | none => simp [cslBuilt]
        | some ds =>
          have hb := h cs ds rfl rfl
          simp only [cslBuilt]
          apply Res.merge_ne_out
          · simp
          · exact ih11 cs ds path (by omega)
    · -- cslPairs
      intro cs ds path h
      match cs with
      | [] => simp [cslPairs]
      | (key, ce) :: rest =>
        have hsz : entriesSizes ((key, ce) :: rest) = sizeEnt ce + entriesSizes rest := rfl
        have hlen : ((key, ce) :: rest).length = rest.length + 1 := rfl
        have hce : 1 ≤ sizeEnt ce := sizeEnt_pos ce
        simp only [cslPairs]
        exact Res.merge_ne_out (ih12 key ce ds path (by omega))
          (ih11 rest ds path (by omega))
    · -- cslPairHead
      intro key ce ds path h
      simp only [cslPairHead]
      cases hlk : pyLookup ds key with
      | none => simp
      | some de =>
        have hde := pyLookup_entriesSizes hlk
        by_cases hpe : pyEq (.dict ce) (.dict de) = true
        · show ¬(if pyEq (Value.dict ce) (Value.dict de) = true then Res.ok emptyDiff
              else csdF fuel ce de (bracketPath path key)) = Res.out
          rw [if_pos hpe]
          simp
        · show ¬(if pyEq (Value.dict ce) (Value.dict de) = true then Res.ok emptyDiff
              else csdF fuel ce de (bracketPath path key)) = Res.out
          rw [if_neg hpe]
          exact ih1 ce de _ (by omega)

theorem Res.merge_ne_out_inv {a b : Res} (h : Res.merge a b ≠ .out) :
    a ≠ .out ∧ (a = .err ∨ b ≠ .out) := by
  cases a <;> cases b <;> simp_all [Res.merge]

/-- Increasing the fuel does not change a result that was not a timeout. -/
theorem fuelMono : ∀ fuel,
    (∀ cur des path, csdF fuel cur des path ≠ .out →
      csdF (fuel + 1) cur des path = csdF fuel cur des path) ∧
    (∀ cur des path, csdLoop1 fuel cur des path ≠ .out →
      csdLoop1 (fuel + 1) cur des path = csdLoop1 fuel cur des path) ∧
    (∀ key v des path, csdHead fuel key v des path ≠ .out →
      csdHead (fuel + 1) key v des path = csdHead fuel key v des path) ∧
    (∀ kp v w, csdMatched fuel kp v w ≠ .out →
      csdMatched (fuel + 1) kp v w = csdMatched fuel kp v w) ∧
    (∀ des cur path, csdLoop2 fuel des cur path ≠ .out →
      csdLoop2 (fuel + 1) des cur path = csdLoop2 fuel des cur path) ∧
    (∀ key v cur path, csdAddHead fuel key v cur path ≠ .out →
      csdAddHead (fuel + 1) key v cur path = csdAddHead fuel key v cur path) ∧
    (∀ kp v, csdAddValue fuel kp v ≠ .out →
      csdAddValue (fuel + 1) kp v = csdAddValue fuel kp v) ∧
    (∀ cur des path, cslF fuel cur des path ≠ .out →
      cslF (fuel + 1) cur des path = cslF fuel cur des path) ∧
    (∀ cur des first path, cslKeyed fuel cur des first path ≠ .out →
      cslKeyed (fuel + 1) cur des first path = cslKeyed fuel cur des first path) ∧
    (∀ ocs ods path, cslBuilt fuel ocs ods path ≠ .out →
      cslBuilt (fuel + 1) ocs ods path = cslBuilt fuel ocs ods path) ∧
    (∀ cs ds path, cslPairs fuel cs ds path ≠ .out →
      cslPairs (fuel + 1) cs ds path = cslPairs fuel cs ds path) ∧
    (∀ key ce ds path, cslPairHead fuel key ce ds path ≠ .out →
      cslPairHead (fuel + 1) key ce ds path = cslPairHead fuel key ce ds path) := by
  intro fuel
  induction fuel with
  | zero =>
    refine ⟨?_, ?_, ?_, ?_, ?_, ?_, ?_, ?_, ?_, ?_, ?_, ?_⟩ <;>
      (intros; simp_all [csdF, csdLoop1, csdHead, csdMatched, csdLoop2,
        csdAddHead, csdAddValue, cslF, cslKeyed, cslBuilt, cslPairs, cslPairHead])
  | succ fuel ih =>
    obtain ⟨ih1, ih2, ih3, ih4, ih5, ih6, ih7, ih8, ih9, ih10, ih11, ih12⟩ := ih
    refine ⟨?_, ?_, ?_, ?_, ?_, ?_, ?_, ?_, ?_, ?_, ?_, ?_⟩
    · -- csdF
      intro cur des path h
      simp only [csdF] at h ⊢
      obtain ⟨h1, h2⟩ := Res.merge_ne_out_inv h
      rcases h2 with h2 | h2
      · rw [ih2 cur des path h1, h2]
        cases csdLoop2 fuel des cur path <;> cases csdLoop2 (fuel + 1) des cur path <;>
          simp [Res.merge]
      · rw [ih2 cur des path h1, ih5 des cur path h2]
    · -- csdLoop1
      intro cur des path h
      match cur with
      | [] => simp [csdLoop1]
      | (key, v) :: rest =>
        simp only [csdLoop1] at h ⊢
        obtain ⟨h1, h2⟩ := Res.merge_ne_out_inv h
        rcases h2 with h2 | h2
        · rw [ih3 key v des path h1, h2]
          cases csdLoop1 fuel rest des path <;> cases csdLoop1 (fuel + 1) rest des path <;>
            simp [Res.merge]
        · rw [ih3 key v des path h1, ih2 rest des path h2]
    · -- csdHead
      intro key v des path h
      simp only [csdHead] at h ⊢
      cases hlk : lookupStr des key with
      | none => rfl
      | some w =>
        rw [hlk] at h
        exact ih4 (childPath path key) v w h
    · -- csdMatched
      intro kp v w h
      cases v <;> cases w <;> simp only [csdMatched] at h ⊢
      case dict.dict ce de => exact ih1 ce de kp h
      case list.list cl dl => exact ih8 cl dl kp h
    · -- csdLoop2
      intro des cur path h
      match des with
      | [] => simp [csdLoop2]
      | (key, v) :: rest =>
        simp only [csdLoop2] at h ⊢
        obtain ⟨h1, h2⟩ := Res.merge_ne_out_inv h
        rcases h2 with h2 | h2
        · rw [ih6 key v cur path h1, h2]
          cases csdLoop2 fuel rest cur path <;> cases csdLoop2 (fuel + 1) rest cur path <;>
            simp [Res.merge]
        · rw [ih6 key v cur path h1, ih5 rest cur path h2]
    · -- csdAddHead
      intro key v cur path h
      simp only [csdAddHead] at h ⊢
      split
      · rfl
      · rename_i hc
        rw [if_neg hc] at h
        exact ih7 (childPath path key) v h
    · -- csdAddValue
      intro kp v h
      cases v <;> simp only [csdAddValue] at h ⊢
      case dict de =>
        have hne : csdF fuel [] de kp ≠ .out := by
          intro hcon
          rw [hcon] at h
          simp at h
        rw [ih1 [] de kp hne]
    · -- cslF
      intro cur des path h
      match cur with
      | [] => simp [cslF]
      | first :: tail =>
        simp only [cslF] at h ⊢
        split
        · rfl
        · rename_i hde
          rw [if_neg hde] at h
          exact ih9 (first :: tail) des first path h
    · -- cslKeyed
      intro cur des first path h
      simp only [cslKeyed] at h ⊢
      cases huk : uniqueKey first with
      | none => rfl
      | some uk =>
        rw [huk] at h
        exact ih10 _ _ path h
    · -- cslBuilt
      intro ocs ods path h
      cases ocs with
      | none => simp [cslBuilt]
      | some cs =>
        cases ods with
        | none => simp [cslBuilt]
        | some ds =>
          simp only [cslBuilt] at h ⊢
          obtain ⟨h1, h2⟩ := Res.merge_ne_out_inv h
          rcases h2 with h2 | h2
          · simp at h2
          · rw [ih11 cs ds path h2]
    · -- cslPairs
      intro cs ds path h
      match cs with
      | [] => simp [cslPairs]
      | (key, ce) :: rest =>
        simp only [cslPairs] at h ⊢
        obtain ⟨h1, h2⟩ := Res.merge_ne_out_inv h
        rcases h2 with h2 | h2
        · rw [ih12 key ce ds path h1, h2]
          cases cslPairs fuel rest ds path <;> cases cslPairs (fuel + 1) rest ds path <;>
            simp [Res.merge]
        · rw [ih12 key ce ds path h1, ih11 rest ds path h2]
    · -- cslPairHead
      intro key ce ds path h
      simp only [cslPairHead] at h ⊢
      cases hlk : pyLookup ds key with
      | none => rfl
      | some de =>
        rw [hlk] at h
        have h' : (if pyEq (Value.dict ce) (Value.dict de) = true then Res.ok emptyDiff
            else csdF fuel ce de (bracketPath path key)) ≠ Res.out := h
        show (if pyEq (Value.dict ce) (Value.dict de) = true then Res.ok emptyDiff
            else csdF (fuel + 1) ce de (bracketPath path key)) =
          (if pyEq (Value.dict ce) (Value.dict de) = true then Res.ok emptyDiff
            else csdF fuel ce de (bracketPath path key))
        by_cases hpe : pyEq (Value.dict ce) (Value.dict de) = true
        · rw [if_pos hpe]
          rw [if_pos hpe]
        · rw [if_neg hpe] at h' ⊢
          rw [if_neg hpe]
          exact ih1 ce de _ h'

theorem csdF_mono_le {fuel fuel' : Nat} (hle : fuel ≤ fuel')
    {cur des : List (String × Value)} {path : String}
    (hne : csdF fuel cur des path ≠ .out) :
    csdF fuel' cur des path = csdF fuel cur des path := by
  induction fuel', hle using Nat.le_induction with
  | base => rfl
  | succ fuel' hle ih =>
    rw [← ih]
    exact (fuelMono fuel').1 cur des path (by rw [ih]; exact hne)

theorem cslF_mono_le {fuel fuel' : Nat} (hle : fuel ≤ fuel')
    {cur des : List Value} {path : String}
    (hne : cslF fuel cur des path ≠ .out) :
    cslF fuel' cur des path = cslF fuel cur des path := by
  induction fuel', hle using Nat.le_induction with
  | base => rfl
  | succ fuel' hle ih =>
    rw [← ih]
    exact (fuelMono fuel').2.2.2.2.2.2.2.1 cur des path (by rw [ih]; exact hne)

/-- `compare_state_dicts` computes `csdF` at any sufficient fuel. -/
theorem compare_state_dicts_eq_csdF {cur des : List (String × Value)} {path : String}
    {fuel : Nat} (hfuel : 3 * (sizeEnt cur + sizeEnt des) ≤ fuel) :
    compare_state_dicts cur des path =
      (match csdF fuel cur des path with
       | .ok d => some d
       | _ => none) := by
  have hF : 3 * (sizeEnt cur + sizeEnt des) ≤ diffFuel (sizeEnt cur) (sizeEnt des) := by
    unfold diffFuel; omega
  have h1 : csdF (diffFuel (sizeEnt cur) (sizeEnt des)) cur des path ≠ .out :=
    (noTimeout _).1 cur des path hF
  have h2 : csdF fuel cur des path ≠ .out :=
    (noTimeout _).1 cur des path hfuel
  have e1 := csdF_mono_le (Nat.le_max_left (diffFuel (sizeEnt cur) (sizeEnt des)) fuel) h1
  have e2 := csdF_mono_le (Nat.le_max_right (diffFuel (sizeEnt cur) (sizeEnt des)) fuel) h2
  unfold compare_state_dicts
  rw [← e1, e2]

/-- `compare_state_lists` computes `cslF` at any sufficient fuel. -/
theorem compare_state_lists_eq_cslF {cur des : List Value} {path : String}
    {fuel : Nat} (hfuel : 3 * (sizeElems cur + sizeElems des) ≤ fuel) :
    compare_state_lists cur des path =
      (match cslF fuel cur des path with
       | .ok d => some d
       | _ => none) := by
  have hF : 3 * (sizeElems cur + sizeElems des) ≤ diffFuel (sizeElems cur) (sizeElems des) := by
    unfold diffFuel; omega
  have h1 : cslF (diffFuel (sizeElems cur) (sizeElems des)) cur des path ≠ .out :=
    (noTimeout _).2.2.2.2.2.2.2.1 cur des path hF
  have h2 : cslF fuel cur des path ≠ .out :=
    (noTimeout _).2.2.2.2.2.2.2.1 cur des path hfuel
  have e1 := cslF_mono_le (Nat.le_max_left (diffFuel (sizeElems cur) (sizeElems des)) fuel) h1
  have e2 := cslF_mono_le (Nat.le_max_right (diffFuel (sizeElems cur) (sizeElems des)) fuel) h2
  unfold compare_state_lists
  rw [← e1, e2]

theorem containsStr_false_lookup {l : List (String × Value)} {k : String}
    (h : containsStr l k = false) : lookupStr l k = none := by
  unfold containsStr at h
  cases hl : lookupStr l k with
  | none => rfl
  | some v => rw [hl] at h; simp at h

theorem cslF_current_nil (fuel : Nat) (des : List Value) (path : String) :
    cslF (fuel + 1) [] des path =
      .ok ⟨[⟨path, none, none, some "Current state list is empty"⟩], [], []⟩ := rfl

theorem cslF_desired_nil (fuel : Nat) (first : Value) (tail : List Value) (path : String) :
    cslF (fuel + 1) (first :: tail) [] path =
      .ok ⟨[], [⟨path, none, none, some "Desired state list is empty"⟩], []⟩ := rfl

/-- C6: when the current sequence is empty, `compare_state_lists` returns
exactly one Removed record `{path, message := "Current state list is empty"}`
with empty added and changed lists, without any per-element diffing; when the
current sequence is non-empty and the desired sequence is empty, it returns
exactly one Added record `{path, message := "Desired state list is empty"}`
with empty removed and changed lists. -/
theorem C6_empty_list_sentinels (cur des : List Value) (path : String) :
    (cur = [] → compare_state_lists cur des path =
      some ⟨[⟨path, none, none, some "Current state list is empty"⟩], [], []⟩) ∧
    (cur ≠ [] → des = [] → compare_state_lists cur des path =
      some ⟨[], [⟨path, none, none, some "Desired state list is empty"⟩], []⟩) := by
  constructor
  · intro hcur
    subst hcur
    rw [@compare_state_lists_eq_cslF [] des path
      (3 * (sizeElems [] + sizeElems des) + 1) (by omega)]
    rw [cslF_current_nil]
  · intro hcur hdes
    subst hdes
    match cur, hcur with
    | first :: tail, _ =>
      rw [@compare_state_lists_eq_cslF (first :: tail) [] path
        (3 * (sizeElems (first :: tail) + sizeElems []) + 1) (by omega)]
      rw [cslF_desired_nil]

/-- Witness for C6 at concrete inputs. -/
theorem C6_empty_list_sentinels_witness :
    compare_state_lists [] [Value.int 1] "p" =
      some ⟨[⟨"p", none, none, some "Current state list is empty"⟩], [], []⟩ ∧
    compare_state_lists [Value.int 1] [] "q" =
      some ⟨[], [⟨"q", none, none, some "Desired state list is empty"⟩], []⟩ :=
  ⟨(C6_empty_list_sentinels [] [Value.int 1] "p").1 rfl,
   (C6_empty_list_sentinels [Value.int 1] [] "q").2 (by simp) rfl⟩

/-- C7: the identity key is `"name"` when the first element of the current
sequence has a `"name"` key, and otherwise the first key of that element (in
iteration order); matching by that key, current `[{name: nginx, image: v1}]`
against desired `[{name: nginx, image: v2}]` yields no added or removed
records and exactly one Changed record at `P[nginx].image`. -/
theorem C7_identity_key (e e' : List (String × Value)) (k : String) (v : Value) :
    (containsStr e "name" = true → uniqueKey (Value.dict e) = some "name") ∧
    (containsStr ((k, v) :: e') "name" = false →
      uniqueKey (Value.dict ((k, v) :: e')) = some k) ∧
    compare_state_lists [Value.dict [("name", Value.str "nginx"), ("image", Value.str "v1")]]
      [Value.dict [("name", Value.str "nginx"), ("image", Value.str "v2")]] "P" =
      some ⟨[], [],
        [⟨"P[nginx].image", some (Value.str "v1"), some (Value.str "v2"), none⟩]⟩ := by
  refine ⟨?_, ?_, rfl⟩
  · intro h
    simp [uniqueKey, h]
  · intro h
    simp [uniqueKey, h]

/-- Witness for C7 at concrete inputs. -/
theorem C7_identity_key_witness :
    uniqueKey (Value.dict [("name", Value.null)]) = some "name" ∧
    uniqueKey (Value.dict [("a", Value.null)]) = some "a" :=
  ⟨(C7_identity_key [("name", Value.null)] [] "a" Value.null).1 rfl,
   (C7_identity_key [("name", Value.null)] [] "a" Value.null).2.1 rfl⟩

theorem csdLoop1_mono_le {fuel fuel' : Nat} (hle : fuel ≤ fuel')
    {cur des : List (String × Value)} {path : String}
    (hne : csdLoop1 fuel cur des path ≠ .out) :
    csdLoop1 fuel' cur des path = csdLoop1 fuel cur des path := by
  induction fuel', hle using Nat.le_induction with
  | base => rfl
  | succ fuel' hle ih =>
    rw [← ih]
    exact (fuelMono fuel').2.1 cur des path (by rw [ih]; exact hne)

theorem csdLoop2_mono_le {fuel fuel' : Nat} (hle : fuel ≤ fuel')
    {des cur : List (String × Value)} {path : String}
    (hne : csdLoop2 fuel des cur path ≠ .out) :
    csdLoop2 fuel' des cur path = csdLoop2 fuel des cur path := by
  induction fuel', hle using Nat.le_induction with
  | base => rfl
  | succ fuel' hle ih =>
    rw [← ih]
    exact (fuelMono fuel').2.2.2.2.1 des cur path (by rw [ih]; exact hne)

/-- The desired-state loop inspects the current state only through key
membership. -/
theorem csdAddHead_congr (fuel : Nat) (key : String) (v : Value)
    {cur cur' : List (String × Value)} (path : String)
    (h : containsStr cur key = containsStr cur' key) :
    csdAddHead fuel key v cur path = csdAddHead fuel key v cur' path := by
  cases fuel with
  | zero => rfl
  | succ fuel => simp only [csdAddHead, h]

theorem csdLoop2_congr : ∀ (des : List (String × Value)) (fuel : Nat)
    {cur cur' : List (String × Value)} (path : String),
    (∀ p ∈ des, containsStr cur p.1 = containsStr cur' p.1) →
    csdLoop2 fuel des cur path = csdLoop2 fuel des cur' path := by
  intro des
  induction des with
  | nil => intro fuel cur cur' path h; cases fuel <;> rfl
  | cons p rest ih =>
    intro fuel cur cur' path h
    obtain ⟨key, v⟩ := p
    cases fuel with
    | zero => rfl
    | succ fuel =>
      simp only [csdLoop2]
      rw [csdAddHead_congr fuel key v path (h (key, v) (List.mem_cons_self _ _)),
        ih fuel path (fun q hq => h q (List.mem_cons_of_mem _ hq))]

theorem Res.merge_assoc (a b c : Res) :
    Res.merge (Res.merge a b) c = Res.merge a (Res.merge b c) := by
  cases a <;> cases b <;> cases c <;> simp [Res.merge, Diff.app, List.append_assoc]

/-- Processing one current-state key that is absent from the desired state:
the key contributes exactly one whole-subtree Removed record before the rest
of the comparison. -/
theorem csdF_cons_removed (fuel : Nat) (k : String) (v : Value) (C' D : List (String × Value))
    (path : String) (hD : containsStr D k = false) :
    csdF (fuel + 3) ((k, v) :: C') D path =
      Res.merge (.ok ⟨[⟨childPath path k, some v, none, none⟩], [], []⟩)
        (Res.merge (csdLoop1 (fuel + 1) C' D path)
          (csdLoop2 (fuel + 2) D ((k, v) :: C') path)) := by
  have hlk := containsStr_false_lookup hD
  have hhead : csdHead (fuel + 1) k v D path =
      .ok ⟨[⟨childPath path k, some v, none, none⟩], [], []⟩ := by
    simp only [csdHead, hlk]
  show Res.merge (Res.merge (csdHead (fuel + 1) k v D path)
      (csdLoop1 (fuel + 1) C' D path))
      (csdLoop2 (fuel + 2) D ((k, v) :: C') path) = _
  rw [hhead, Res.merge_assoc]

/-- C5: for a key `k` of the current state that is absent from the desired
state and whose value is a (non-empty) mapping, `compare_state_dicts` emits
exactly one Removed record for `k`: its path is the child path of `k` and its
old value is the entire subtree, not decomposed, and nothing else in the
result changes. -/
theorem C5_removed_mapping_whole_subtree
    (C' D : List (String × Value)) (path k : String) (e : List (String × Value))
    (hD : containsStr D k = false) (hne : e ≠ []) :
    compare_state_dicts ((k, Value.dict e) :: C') D path =
      Option.map (fun d =>
        ⟨⟨childPath path k, some (Value.dict e), none, none⟩ :: d.removed,
          d.added, d.changed⟩)
        (compare_state_dicts C' D path) := by
  have hszC : sizeEnt ((k, Value.dict e) :: C') = 2 + (1 + sizeEnt e) + sizeEnt C' := rfl
  have hposE := sizeEnt_pos e
  have hposC := sizeEnt_pos C'
  have hposD := sizeEnt_pos D
  rw [@compare_state_dicts_eq_csdF ((k, Value.dict e) :: C') D path
    (3 * (sizeEnt ((k, Value.dict e) :: C') + sizeEnt D) + 3) (by omega)]
  rw [@compare_state_dicts_eq_csdF C' D path
    (3 * (sizeEnt ((k, Value.dict e) :: C') + sizeEnt D) + 2) (by omega)]
  rw [csdF_cons_removed (3 * (sizeEnt ((k, Value.dict e) :: C') + sizeEnt D)) k
    (Value.dict e) C' D path hD]
  have hkey : ∀ p ∈ D, containsStr ((k, Value.dict e) :: C') p.1 = containsStr C' p.1 := by
    intro p hp
    by_cases hpk : (p.1 == k)
    · exfalso
      have hk : p.1 = k := by simpa using hpk
      have hmem : (p.1, p.2) ∈ D := hp
      have := containsStr_of_mem hmem
      rw [hk] at this
      rw [this] at hD
      simp at hD
    · simp [containsStr, lookupStr, hpk]
  have hl2ne : csdLoop2 (3 * (sizeEnt ((k, Value.dict e) :: C') + sizeEnt D) + 1)
      D C' path ≠ .out :=
    (noTimeout _).2.2.2.2.1 D C' path (by omega)
  rw [csdLoop2_congr D _ path hkey,
    csdLoop2_mono_le (by omega : 3 * (sizeEnt ((k, Value.dict e) :: C') + sizeEnt D) + 1 ≤
      3 * (sizeEnt ((k, Value.dict e) :: C') + sizeEnt D) + 2) hl2ne]
  show _ = Option.map _
    (match Res.merge (csdLoop1 (3 * (sizeEnt ((k, Value.dict e) :: C') + sizeEnt D) + 1) C' D path)
      (csdLoop2 (3 * (sizeEnt ((k, Value.dict e) :: C') + sizeEnt D) + 1) D C' path) with
     | .ok d => some d
     | _ => none)
  cases hm : Res.merge (csdLoop1 (3 * (sizeEnt ((k, Value.dict e) :: C') + sizeEnt D) + 1) C' D path)
      (csdLoop2 (3 * (sizeEnt ((k, Value.dict e) :: C') + sizeEnt D) + 1) D C' path) with
  | out =>
    exfalso
    have hl1ne : csdLoop1 (3 * (sizeEnt ((k, Value.dict e) :: C') + sizeEnt D) + 1) C' D path ≠ .out :=
      (noTimeout _).2.1 C' D path (by omega)
    exact Res.merge_ne_out hl1ne hl2ne hm
  | err => simp [Res.merge]
  | ok d => simp [Res.merge, Diff.app]

/-- Witness for C5 at a concrete input. -/
theorem C5_removed_mapping_whole_subtree_witness :
    compare_state_dicts [("x", Value.dict [("a", Value.int 1)])] [] "" =
      Option.map (fun d =>
        ⟨⟨childPath "" "x", some (Value.dict [("a", Value.int 1)]), none, none⟩ :: d.removed,
          d.added, d.changed⟩)
        (compare_state_dicts [] [] "") :=
  C5_removed_mapping_whole_subtree [] [] "" "x" [("a", Value.int 1)] rfl
    (List.cons_ne_nil _ _)

/- Following the specification's words for the desired-only decomposition:
"this naturally decomposes a wholly new nested mapping into per-leaf Added
records, recursively"; a scalar or sequence leaf yields a single Added
record at its path, and a nested mapping contributes the records of its
fields at the corresponding child paths. -/
mutual
def addedLeavesVal : String → Value → List DiffItem
  | p, .dict e => addedLeavesEnt p e
  | p, v => [⟨p, none, some v, none⟩]
def addedLeavesEnt : String → List (String × Value) → List DiffItem
  | _, [] => []
  | p, (k, v) :: rest => addedLeavesVal (childPath p k) v ++ addedLeavesEnt p rest
end

/-- Comparing an empty current state against a desired mapping produces only
the per-leaf Added records of that mapping (or runs out of fuel). -/
theorem csdF_empty_current : ∀ fuel,
    (∀ e path, csdF fuel [] e path = .out ∨
      csdF fuel [] e path = .ok ⟨[], addedLeavesEnt path e, []⟩) ∧
    (∀ e path, csdLoop2 fuel e [] path = .out ∨
      csdLoop2 fuel e [] path = .ok ⟨[], addedLeavesEnt path e, []⟩) ∧
    (∀ k v path, csdAddHead fuel k v [] path = .out ∨
      csdAddHead fuel k v [] path = .ok ⟨[], addedLeavesVal (childPath path k) v, []⟩) ∧
    (∀ kp v, csdAddValue fuel kp v = .out ∨
      csdAddValue fuel kp v = .ok ⟨[], addedLeavesVal kp v, []⟩) := by
  intro fuel
  induction fuel with
  | zero =>
    refine ⟨?_, ?_, ?_, ?_⟩ <;> (intros; left; rfl)
  | succ fuel ih =>
    obtain ⟨ihA, ihB, ihC, ihD⟩ := ih
    refine ⟨?_, ?_, ?_, ?_⟩
    · intro e path
      cases fuel with
      | zero => left; rfl
      | succ fuel' =>
        simp only [csdF]
        have hl1 : csdLoop1 (fuel' + 1) [] e path = .ok emptyDiff := rfl
        rw [hl1]
        rcases ihB e path with hB | hB
        · rw [hB]; left; rfl
        · rw [hB]; right
          simp [Res.merge, Diff.app, emptyDiff]
    · intro e path
      match e with
      | [] => right; rfl
      | (k, v) :: rest =>
        simp only [csdLoop2]
        rcases ihC k v path with hC | hC
        · rw [hC]; left; rfl
        · rw [hC]
          rcases ihB rest path with hB | hB
          · rw [hB]; left; rfl
          · rw [hB]; right
            simp [Res.merge, Diff.app, addedLeavesEnt]
    · intro k v path
      simp only [csdAddHead, containsStr, lookupStr, Option.isSome]
      exact ihD (childPath path k) v
    · intro kp v
      cases v
      case dict de =>
        simp only [csdAddValue]
        rcases ihA de kp with hA | hA
        · rw [hA]; left; rfl
        · rw [hA]; right; rfl
      all_goals (right; rfl)

/-- C4: a desired-state key absent from the current state is decomposed by
recursing with an empty current mapping and keeping only added records, so a
wholly new mapping contributes exactly its per-leaf Added records, while a
scalar or sequence value contributes a single Added record; in particular
diffing current `{kind: Deployment}` against desired
`{kind: Deployment, spec: {replicas: 3}}` yields exactly one Added record at
`spec.replicas` with value `3`. -/
theorem C4_added_decomposition :
    (∀ e path, compare_state_dicts [] e path = some ⟨[], addedLeavesEnt path e, []⟩) ∧
    (∀ fuel kp v, csdAddValue fuel kp v = .out ∨
      csdAddValue fuel kp v = .ok ⟨[], addedLeavesVal kp v, []⟩) ∧
    (∀ fuel kp v, (∀ e, v ≠ Value.dict e) →
      csdAddValue (fuel + 1) kp v = .ok ⟨[], [⟨kp, none, some v, none⟩], []⟩) ∧
    compare_state_dicts [("kind", Value.str "Deployment")]
      [("kind", Value.str "Deployment"), ("spec", Value.dict [("replicas", Value.int 3)])] "" =
      some ⟨[], [⟨"spec.replicas", none, some (Value.int 3), none⟩], []⟩ := by
  refine ⟨?_, ?_, ?_, rfl⟩
  · intro e path
    have hb : 3 * (sizeEnt ([] : List (String × Value)) + sizeEnt e) ≤
        3 * (sizeEnt ([] : List (String × Value)) + sizeEnt e) := Nat.le_refl _
    rw [@compare_state_dicts_eq_csdF [] e path _ hb]
    have hne := (noTimeout _).1 [] e path hb
    rcases (csdF_empty_current _).1 e path with h | h
    · exact absurd h hne
    · rw [h]
  · intro fuel kp v
    exact (csdF_empty_current fuel).2.2.2 kp v
  · intro fuel kp v hv
    cases v
    case dict de => exact absurd rfl (hv de)
    all_goals rfl

/-- Witness for C4 at concrete inputs. -/
theorem C4_added_decomposition_witness :
    csdAddValue 1 "p" (Value.int 5) =
      .ok ⟨[], [⟨"p", none, some (Value.int 5), none⟩], []⟩ :=
  C4_added_decomposition.2.2.1 0 "p" (Value.int 5) (fun e h => Value.noConfusion h)

theorem pyEq_refl_scalar {v : Value} (h : hashable v = true) : pyEq v v = true := by
  cases v <;> simp_all [hashable, pyEq, pyEqF, sizeVal]

/-- Inserting a binding makes it the one found by lookup: a later element
with the same identity value replaces an earlier one. -/
theorem pyLookup_insert_self {α : Type} (acc : List (Value × α)) (k : Value) (v : α)
    (hk : hashable k = true) : pyLookup (pyDictInsert acc k v) k = some v := by
  induction acc with
  | nil => simp [pyDictInsert, pyLookup, pyEq_refl_scalar hk]
  | cons q rest ih =>
    obtain ⟨k0, v0⟩ := q
    simp only [pyDictInsert]
    by_cases hkk : pyEq k k0 = true
    · simp [pyLookup, hkk]
    · simp only [hkk]
      simp only [Bool.false_eq_true, if_false]
      simp [pyLookup, hkk]
      exact ih

theorem buildStateDictAux_append (xs ys : List Value) (uk : String)
    (acc : List (Value × List (String × Value))) :
    buildStateDictAux (xs ++ ys) uk acc =
      (buildStateDictAux xs uk acc).bind (fun a => buildStateDictAux ys uk a) := by
  induction xs generalizing acc with
  | nil => simp [buildStateDictAux]
  | cons item rest ih =>
    cases item <;> simp only [List.cons_append, buildStateDictAux] <;> try simp
    rename_i e
    cases hlk : lookupStr e uk with
    | none => simp
    | some kv =>
      by_cases hh : hashable kv = true
      · simp [hh, ih]
      · simp [hh]

/-- C10: when several sequence elements share the same identity value, only
the last one is kept when the identity-value dictionary is built, so earlier
duplicates take no part in the comparison; concretely, with current
`[{name: a, v: 1}, {name: a, v: 2}]` and desired `[{name: a, v: 3}]` the
only record is one Changed record at `P[a].v` with old value `2` (the last
duplicate) — the element with `v: 1` produces no record. -/
theorem C10_duplicate_identity_last_wins :
    (∀ (l1 : List Value) (e : List (String × Value)) (uk : String) (kv : Value)
      (cs : List (Value × List (String × Value))),
      lookupStr e uk = some kv → hashable kv = true →
      buildStateDict (l1 ++ [Value.dict e]) uk = some cs →
      pyLookup cs kv = some e) ∧
    compare_state_lists
      [Value.dict [("name", Value.str "a"), ("v", Value.int 1)],
       Value.dict [("name", Value.str "a"), ("v", Value.int 2)]]
      [Value.dict [("name", Value.str "a"), ("v", Value.int 3)]] "P" =
      some ⟨[], [], [⟨"P[a].v", some (Value.int 2), some (Value.int 3), none⟩]⟩ := by
  refine ⟨?_, rfl⟩
  intro l1 e uk kv cs hlk hh hbuild
  unfold buildStateDict at hbuild
  rw [buildStateDictAux_append] at hbuild
  cases hl1 : buildStateDictAux l1 uk [] with
  | none => rw [hl1] at hbuild; simp at hbuild
  | some acc =>
    rw [hl1] at hbuild
    simp only [Option.bind_some, buildStateDictAux, hlk, hh, if_true] at hbuild
    obtain rfl : pyDictInsert acc kv e = cs := by
      simpa [buildStateDictAux] using hbuild
    exact pyLookup_insert_self acc kv e hh

/-- Witness for C10 at a concrete input. -/
theorem C10_duplicate_identity_last_wins_witness :
    pyLookup [((Value.int 1), [("name", Value.int 1)])] (Value.int 1) =
      some [("name", Value.int 1)] :=
  C10_duplicate_identity_last_wins.1
    [Value.dict [("name", Value.int 1), ("z", Value.int 9)]]
    [("name", Value.int 1)] "name" (Value.int 1)
    [((Value.int 1), [("name", Value.int 1)])] rfl rfl rfl

/-- Following the specification's words for C8: a field mismatches when its
values in the two documents differ, "including the case where one side lacks
the field entirely". -/
def specFieldMismatch (cur des : List (String × Value)) (field : String) : Bool :=
  (containsStr cur field != containsStr des field) ||
  (match lookupStr cur field, lookupStr des field with
   | some a, some b => !(pyEq a b)
   | _, _ => false)

theorem insertBool_not_mem : ∀ (acc : List (String × Bool)) (f : String) (b : Bool),
    (∀ p ∈ acc, p.1 ≠ f) → insertBool acc f b = acc ++ [(f, b)] := by
  intro acc
  induction acc with
  | nil => intros; rfl
  | cons q rest ih =>
    intro f b h
    obtain ⟨k0, b0⟩ := q
    have hne : k0 ≠ f := h (k0, b0) (List.mem_cons_self _ _)
    have hfk : (f == k0) = false := by
      simp only [beq_eq_false_iff_ne]
      exact fun hc => hne hc.symm
    simp only [insertBool, hfk, Bool.false_eq_true, if_false, List.cons_append]
    rw [ih f b (fun p hp => h p (List.mem_cons_of_mem _ hp))]

theorem checkMismatchesAux_eq : ∀ (fields : List String)
    (cur des : List (String × Value)) (acc : List (String × Bool)),
    (∀ f ∈ fields, ∀ p ∈ acc, p.1 ≠ f) → fields.Nodup →
    checkMismatchesAux fields cur des acc =
      acc ++ fields.map (fun f => (f, !(pyEq (dictGet cur f) (dictGet des f)))) := by
  intro fields
  induction fields with
  | nil => intro cur des acc _ _; simp [checkMismatchesAux]
  | cons f rest ih =>
    intro cur des acc h hnd
    simp only [checkMismatchesAux]
    rw [insertBool_not_mem acc f _ (h f (List.mem_cons_self _ _))]
    rw [ih cur des _ ?hdisj (List.nodup_cons.mp hnd).2]
    · simp
    · intro g hg p hp
      rcases List.mem_append.mp hp with hp1 | hp2
      · exact h g (List.mem_cons_of_mem _ hg) p hp1
      · simp at hp2
        subst hp2
        intro hc
        simp at hc
        subst hc
        exact (List.nodup_cons.mp hnd).1 hg

theorem lookupBool_map (h : String → Bool) :
    ∀ (fields : List String) (f : String), f ∈ fields →
    lookupBool (fields.map (fun g => (g, h g))) f = some (h f) := by
  intro fields
  induction fields with
  | nil => intro f hf; simp at hf
  | cons g rest ih =>
    intro f hf
    by_cases hfg : (f == g)
    · have : f = g := by simpa using hfg
      subst this
      simp [lookupBool]
    · rcases List.mem_cons.mp hf with h1 | h2
      · exact absurd (by simp [h1]) hfg
      · simp only [List.map_cons, lookupBool, hfg, Bool.false_eq_true, if_false]
        exact ih f h2

/-- C8 counterexample: with current `{}` and desired `{kind: null}`, the
desired document lacks... rather, one side lacks the field entirely (a
mismatch according to the claim), yet `check_mismatches` reports `false`,
because `dict.get` returns `None` both for a missing field and for an
explicit null value. -/
theorem C8_counterexample :
    specFieldMismatch [] [("kind", Value.null)] "kind" = true ∧
    check_mismatches [] [("kind", Value.null)] ["kind"] = [("kind", false)] :=
  ⟨rfl, rfl⟩

/-- C8 amended: `check_mismatches` returns one boolean per requested field
(in request order, for distinct fields), and the boolean is true exactly when
the two values obtained by lookup-with-null-default differ under Python
equality; a field missing on one side and explicitly null on the other is
therefore reported as not mismatched.  The result is a function of the two
documents' values at the requested fields only, hence independent of the
full diff. -/
theorem C8_amended_mismatch_by_null_default (cur des : List (String × Value))
    (fields : List String) (hnd : fields.Nodup) :
    check_mismatches cur des fields =
      fields.map (fun f => (f, !(pyEq (dictGet cur f) (dictGet des f)))) ∧
    ∀ f ∈ fields, lookupBool (check_mismatches cur des fields) f =
      some (!(pyEq (dictGet cur f) (dictGet des f))) := by
  have heq := checkMismatchesAux_eq fields cur des [] (by simp) hnd
  unfold check_mismatches
  rw [heq]
  simp only [List.nil_append]
  exact ⟨trivial, fun f hf => lookupBool_map _ fields f hf⟩

/-- Witness for C8's amended theorem at a concrete input. -/
theorem C8_amended_mismatch_by_null_default_witness :
    check_mismatches [("kind", Value.str "A")] [] ["kind"] =
      [("kind", !(pyEq (dictGet [("kind", Value.str "A")] "kind") (dictGet [] "kind")))] ∧
    lookupBool (check_mismatches [("kind", Value.str "A")] [] ["kind"]) "kind" =
      some (!(pyEq (dictGet [("kind", Value.str "A")] "kind") (dictGet [] "kind"))) :=
  ⟨(C8_amended_mismatch_by_null_default [("kind", Value.str "A")] [] ["kind"]
      (by simp)).1,
   (C8_amended_mismatch_by_null_default [("kind", Value.str "A")] [] ["kind"]
      (by simp)).2 "kind" (by simp)⟩

/- Sufficient condition for the amended totality claim: every sequence
element, recursively in both documents, is a mapping containing a scalar
(hashable) `"name"` key.  Under this condition the identity-key selection
and the identity-value dictionaries of `compare_state_lists` never raise. -/
mutual
def seqOKV : Value → Bool
  | .dict e => seqOKE e
  | .list l => seqOKL l
  | _ => true
def seqOKE : List (String × Value) → Bool
  | [] => true
  | (_, v) :: r => seqOKV v && seqOKE r
def seqOKL : List Value → Bool
  | [] => true
  | v :: r => seqOKItem v && seqOKL r
def seqOKItem : Value → Bool
  | .dict e =>
      (match lookupStr e "name" with
       | some kv => hashable kv
       | none => false) && seqOKE e
  | _ => false
end

theorem seqOKE_of_mem {e : List (String × Value)} {p : String × Value}
    (h : seqOKE e = true) (hp : p ∈ e) : seqOKV p.2 = true := by
  induction e with
  | nil => simp at hp
  | cons q rest ih =>
    obtain ⟨k0, v0⟩ := q
    simp only [seqOKE, Bool.and_eq_true] at h
    rcases List.mem_cons.mp hp with h1 | h2
    · subst h1; exact h.1
    · exact ih h.2 h2

theorem seqOKL_of_mem {l : List Value} {v : Value}
    (h : seqOKL l = true) (hv : v ∈ l) : seqOKItem v = true := by
  induction l with
  | nil => simp at hv
  | cons x rest ih =>
    simp only [seqOKL, Bool.and_eq_true] at h
    rcases List.mem_cons.mp hv with h1 | h2
    · subst h1; exact h.1
    · exact ih h.2 h2

theorem buildStateDictAux_total : ∀ (items : List Value)
    (acc : List (Value × List (String × Value))),
    seqOKL items = true → (buildStateDictAux items "name" acc).isSome = true := by
  intro items
  induction items with
  | nil => intro acc _; simp [buildStateDictAux]
  | cons item rest ih =>
    intro acc h
    simp only [seqOKL, Bool.and_eq_true] at h
    obtain ⟨hitem, hrest⟩ := h
    cases item <;> simp [seqOKItem] at hitem
    rename_i e
    obtain ⟨hname, _⟩ := hitem
    cases hlk : lookupStr e "name" with
    | none => rw [hlk] at hname; simp at hname
    | some kv =>
      rw [hlk] at hname
      have hname' : hashable kv = true := by simpa using hname
      simp only [buildStateDictAux, hlk, hname', if_true]
      exact ih _ hrest

theorem buildStateDict_seqOK {items : List Value}
    {cs : List (Value × List (String × Value))} {uk : String}
    (hb : buildStateDict items uk = some cs) (h : seqOKL items = true) :
    ∀ p ∈ cs, seqOKE p.2 = true := by
  intro p hp
  have := buildStateDict_prov hb p hp
  have := seqOKL_of_mem h this
  simp only [seqOKItem, Bool.and_eq_true] at this
  exact this.2

/-- Under the `seqOK` condition no comparison function raises: the only
possible results are `ok` and fuel exhaustion. -/
theorem noError : ∀ fuel,
    (∀ cur des path, seqOKE cur = true → seqOKE des = true →
      csdF fuel cur des path ≠ .err) ∧
    (∀ cur des path, seqOKE cur = true → seqOKE des = true →
      csdLoop1 fuel cur des path ≠ .err) ∧
    (∀ key v des path, seqOKV v = true → seqOKE des = true →
      csdHead fuel key v des path ≠ .err) ∧
    (∀ kp v w, seqOKV v = true → seqOKV w = true →
      csdMatched fuel kp v w ≠ .err) ∧
    (∀ des cur path, seqOKE des = true →
      csdLoop2 fuel des cur path ≠ .err) ∧
    (∀ key v cur path, seqOKV v = true →
      csdAddHead fuel key v cur path ≠ .err) ∧
    (∀ kp v, seqOKV v = true → csdAddValue fuel kp v ≠ .err) ∧
    (∀ cur des path, seqOKL cur = true → seqOKL des = true →
      cslF fuel cur des path ≠ .err) ∧
    (∀ cur des first path, seqOKItem first = true → seqOKL cur = true →
      seqOKL des = true → cslKeyed fuel cur des first path ≠ .err) ∧
    (∀ cs ds path, (∀ p ∈ cs, seqOKE p.2 = true) → (∀ p ∈ ds, seqOKE p.2 = true) →
      cslBuilt fuel (some cs) (some ds) path ≠ .err) ∧
    (∀ cs ds path, (∀ p ∈ cs, seqOKE p.2 = true) → (∀ p ∈ ds, seqOKE p.2 = true) →
      cslPairs fuel cs ds path ≠ .err) ∧
    (∀ key ce ds path, seqOKE ce = true → (∀ p ∈ ds, seqOKE p.2 = true) →
      cslPairHead fuel key ce ds path ≠ .err) := by
  intro fuel
  induction fuel with
  | zero =>
    refine ⟨?_, ?_, ?_, ?_, ?_, ?_, ?_, ?_, ?_, ?_, ?_, ?_⟩ <;> (intros; simp [csdF,
      csdLoop1, csdHead, csdMatched, csdLoop2, csdAddHead, csdAddValue, cslF,
      cslKeyed, cslBuilt, cslPairs, cslPairHead])
  | succ fuel ih =>
    obtain ⟨ih1, ih2, ih3, ih4, ih5, ih6, ih7, ih8, ih9, ih10, ih11, ih12⟩ := ih
    refine ⟨?_, ?_, ?_, ?_, ?_, ?_, ?_, ?_, ?_, ?_, ?_, ?_⟩
    · intro cur des path hc hd
      simp only [csdF]
      exact Res.merge_ne_err (ih2 cur des path hc hd) (ih5 des cur path hd)
    · intro cur des path hc hd
      match cur with
      | [] => simp [csdLoop1]
      | (key, v) :: rest =>
        simp only [seqOKE, Bool.and_eq_true] at hc
        simp only [csdLoop1]
        exact Res.merge_ne_err (ih3 key v des path hc.1 hd) (ih2 rest des path hc.2 hd)
    · intro key v des path hv hd
      simp only [csdHead]
      cases hlk : lookupStr des key with
      | none => simp
      | some w =>
        have hw : seqOKV w = true := seqOKE_of_mem hd (lookupStr_mem hlk)
        exact ih4 (childPath path key) v w hv hw
    · intro kp v w hv hw
      cases v <;> cases w <;> simp only [csdMatched] <;> try (split <;> simp)
      · rename_i ce de
        exact ih1 ce de kp (by simpa [seqOKV] using hv) (by simpa [seqOKV] using hw)
      · rename_i cl dl
        exact ih8 cl dl kp (by simpa [seqOKV] using hv) (by simpa [seqOKV] using hw)
    · intro des cur path hd
      match des with
      | [] => simp [csdLoop2]
      | (key, v) :: rest =>
        simp only [seqOKE, Bool.and_eq_true] at hd
        simp only [csdLoop2]
        exact Res.merge_ne_err (ih6 key v cur path hd.1) (ih5 rest cur path hd.2)
    · intro key v cur path hv
      simp only [csdAddHead]
      split
      · simp
      · exact ih7 (childPath path key) v hv
    · intro kp v hv
      cases v <;> simp only [csdAddValue] <;> try simp
      rename_i de
      have hsub := ih1 [] de kp rfl (by simpa [seqOKV] using hv)
      cases hres : csdF fuel [] de kp with
      | out => simp
      | err => exact absurd hres hsub
      | ok sub => simp
    · intro cur des path hc hd
      match cur with
      | [] => simp [cslF]
      | first :: tail =>
        simp only [cslF]
        split
        · simp
        · have hfirst : seqOKItem first = true :=
            seqOKL_of_mem hc (List.mem_cons_self _ _)
          exact ih9 (first :: tail) des first path hfirst hc hd
    · intro cur des first path hfirst hc hd
      simp only [cslKeyed]
      match first, hfirst with
      | Value.dict e, hfirst =>
        simp only [seqOKItem, Bool.and_eq_true] at hfirst
        obtain ⟨hname, _⟩ := hfirst
        cases hlk : lookupStr e "name" with
        | none => rw [hlk] at hname; simp at hname
        | some kv =>
          have hctn : containsStr e "name" = true := by
            unfold containsStr; rw [hlk]; rfl
          have huk : uniqueKey (Value.dict e) = some "name" := by
            simp [uniqueKey, hctn]
          rw [huk]
          show cslBuilt fuel (buildStateDict cur "name") (buildStateDict des "name")
            path ≠ Res.err
          have hbc := buildStateDictAux_total cur [] hc
          have hbd := buildStateDictAux_total des [] hd
          cases hcs : buildStateDict cur "name" with
          | none => unfold buildStateDict at hcs; rw [hcs] at hbc; simp at hbc
          | some cs =>
            cases hds : buildStateDict des "name" with
            | none => unfold buildStateDict at hds; rw [hds] at hbd; simp at hbd
            | some ds =>
              exact ih10 cs ds path (buildStateDict_seqOK hcs hc)
                (buildStateDict_seqOK hds hd)
    · intro cs ds path hcs hds
      simp only [cslBuilt]
      apply Res.merge_ne_err
      · simp
      · exact ih11 cs ds path hcs hds
    · intro cs ds path hcs hds
      match cs with
      | [] => simp [cslPairs]
      | (key, ce) :: rest =>
        simp only [cslPairs]
        refine Res.merge_ne_err
          (ih12 key ce ds path (hcs (key, ce) (List.mem_cons_self _ _)) hds)
          (ih11 rest ds path (fun p hp => hcs p (List.mem_cons_of_mem _ hp)) hds)
    · intro key ce ds path hce hds
      simp only [cslPairHead]
      cases hlk : pyLookup ds key with
      | none => simp
      | some de =>
        obtain ⟨k', hk'⟩ := pyLookup_mem hlk
        have hde : seqOKE de = true := hds (k', de) hk'
        show (if pyEq (Value.dict ce) (Value.dict de) = true then Res.ok emptyDiff
            else csdF fuel ce de (bracketPath path key)) ≠ Res.err
        split
        · simp
        · exact ih1 ce de _ hce hde

/-- C2 counterexample: both documents are well-formed Document Trees
(mappings with unique keys whose sequence values hold arbitrary elements),
yet the diff raises: the Sequence Differ evaluates `"name" in 1` /
`1["name"]` on the scalar list elements, a `TypeError`, modelled by `none`. -/
theorem C2_counterexample :
    wfE [("a", Value.list [Value.int 1])] = true ∧
    wfE [("a", Value.list [Value.int 2])] = true ∧
    compare_state_dicts [("a", Value.list [Value.int 1])]
      [("a", Value.list [Value.int 2])] "" = none :=
  ⟨rfl, rfl, rfl⟩

/-- C2 amended: the diff algorithm is total — it returns a Diff Result and
raises no error — provided every sequence element in both documents,
recursively, is a mapping containing a scalar `"name"` identity key.  (For
sequences of other shapes the identity-key selection or the identity-value
dictionaries raise `TypeError`/`KeyError`/`IndexError`.) -/
theorem C2_amended_totality (cur des : List (String × Value)) (path : String)
    (hc : seqOKE cur = true) (hd : seqOKE des = true) :
    (compare_state_dicts cur des path).isSome = true := by
  have hb : 3 * (sizeEnt cur + sizeEnt des) ≤ 3 * (sizeEnt cur + sizeEnt des) :=
    Nat.le_refl _
  rw [@compare_state_dicts_eq_csdF cur des path _ hb]
  have hnout := (noTimeout _).1 cur des path hb
  have hnerr := (noError (3 * (sizeEnt cur + sizeEnt des))).1 cur des path hc hd
  cases hres : csdF (3 * (sizeEnt cur + sizeEnt des)) cur des path with
  | out => exact absurd hres hnout
  | err => exact absurd hres hnerr
  | ok d => simp

/-- Witness for C2's amended theorem at a concrete input. -/
theorem C2_amended_totality_witness :
    (compare_state_dicts
      [("a", Value.list [Value.dict [("name", Value.int 1)]])]
      [("a", Value.list [])] "").isSome = true :=
  C2_amended_totality
    [("a", Value.list [Value.dict [("name", Value.int 1)]])]
    [("a", Value.list [])] "" rfl rfl

theorem pyEq_scalar_symm {a b : Value} (ha : hashable a = true) (hb : hashable b = true) :
    pyEq a b = pyEq b a := by
  cases a <;> cases b <;> simp_all [hashable, pyEq, pyEqF, sizeVal] <;>
    (try exact eq_comm)

theorem pyContains_of_mem {α : Type} {cs : List (Value × α)} {kv : Value} {ce : α}
    (hk : hashable kv = true) (h : (kv, ce) ∈ cs) : pyContains cs kv = true := by
  induction cs with
  | nil => simp at h
  | cons q rest ih =>
    obtain ⟨k0, v0⟩ := q
    by_cases hpe : pyEq kv k0 = true
    · simp [pyContains, pyLookup, hpe]
    · rcases List.mem_cons.mp h with h1 | h2
      · obtain ⟨hk1, _⟩ := Prod.mk.injEq .. ▸ h1
        subst hk1
        exact absurd (pyEq_refl_scalar hk) hpe
      · simpa [pyContains, pyLookup, hpe] using ih h2

/-- Pairwise distinctness (under Python equality) of the keys of an
identity-value dictionary. -/
def keysDistinct {α : Type} (cs : List (Value × α)) : Prop :=
  List.Pairwise (fun p q => pyEq p.1 q.1 = false ∧ pyEq q.1 p.1 = false) cs

theorem keysDistinct_lookup {α : Type} {cs : List (Value × α)} {kv : Value} {ce : α}
    (hd : keysDistinct cs) (h : (kv, ce) ∈ cs) (hk : hashable kv = true) :
    pyLookup cs kv = some ce := by
  induction cs with
  | nil => simp at h
  | cons q rest ih =>
    obtain ⟨k0, v0⟩ := q
    have hd' := List.pairwise_cons.mp hd
    rcases List.mem_cons.mp h with h1 | h2
    · obtain ⟨hk1, hv1⟩ := Prod.mk.injEq .. ▸ h1
      subst hk1; subst hv1
      simp [pyLookup, pyEq_refl_scalar hk]
    · have hne := (hd'.1 (kv, ce) h2).2
      simp only [pyLookup, hne, Bool.false_eq_true, if_false]
      exact ih hd'.2 h2

theorem pyDictInsert_key_mem {α : Type} {acc : List (Value × α)} {k : Value} {v : α}
    {p : Value × α} (h : p ∈ pyDictInsert acc k v) :
    p.1 ∈ acc.map Prod.fst ∨ p.1 = k := by
  induction acc with
  | nil =>
    simp [pyDictInsert] at h
    subst h
    right; rfl
  | cons q rest ih =>
    obtain ⟨k0, v0⟩ := q
    simp only [pyDictInsert] at h
    by_cases hpe : pyEq k k0 = true
    · simp only [hpe, if_true] at h
      rcases List.mem_cons.mp h with h1 | h2
      · subst h1; left; simp
      · left
        simp only [List.map_cons, List.mem_cons]
        right
        exact List.mem_map_of_mem _ h2
    · simp only [hpe, Bool.false_eq_true, if_false] at h
      rcases List.mem_cons.mp h with h1 | h2
      · subst h1; left; simp
      · rcases ih h2 with ha | hb
        · left
          simp only [List.map_cons, List.mem_cons]
          right; exact ha
        · right; exact hb

theorem pyDictInsert_keysDistinct {α : Type} {acc : List (Value × α)} {k : Value} {v : α}
    (hd : keysDistinct acc) (hh : ∀ q ∈ acc, hashable q.1 = true) (hk : hashable k = true) :
    keysDistinct (pyDictInsert acc k v) := by
  induction acc with
  | nil => simp [pyDictInsert, keysDistinct]
  | cons q rest ih =>
    obtain ⟨k0, v0⟩ := q
    have hd' := List.pairwise_cons.mp hd
    have hh0 : hashable k0 = true := hh (k0, v0) (List.mem_cons_self _ _)
    simp only [pyDictInsert]
    by_cases hpe : pyEq k k0 = true
    · simp only [hpe, if_true]
      exact List.pairwise_cons.mpr ⟨fun q hq => hd'.1 q hq, hd'.2⟩
    · simp only [hpe, Bool.false_eq_true, if_false]
      refine List.pairwise_cons.mpr ⟨?_, ih hd'.2 (fun q hq => hh q (List.mem_cons_of_mem _ hq))⟩
      intro q hq
      show pyEq (k0, v0).1 q.1 = false ∧ pyEq q.1 (k0, v0).1 = false
      rcases pyDictInsert_key_mem hq with ha | hb
      · obtain ⟨r, hr, hr1⟩ := List.mem_map.mp ha
        rw [show q.1 = r.1 from hr1.symm]
        exact hd'.1 r hr
      · rw [show (k0, v0).1 = k0 from rfl, hb]
        constructor
        · rw [pyEq_scalar_symm hh0 hk]
          simpa using hpe
        · simpa using hpe

theorem buildStateDictAux_keysHashable :
    ∀ (items : List Value) (uk : String) (acc cs : List (Value × List (String × Value))),
      buildStateDictAux items uk acc = some cs →
      (∀ p ∈ acc, hashable p.1 = true) → ∀ p ∈ cs, hashable p.1 = true := by
  intro items
  induction items with
  | nil =>
    intro uk acc cs h hacc
    simp [buildStateDictAux] at h
    subst h
    exact hacc
  | cons item rest ih =>
    intro uk acc cs h hacc
    simp only [buildStateDictAux] at h
    cases item <;> simp at h
    rename_i e
    cases hlk : lookupStr e uk with
    | none => simp [hlk] at h
    | some kv =>
      simp only [hlk] at h
      by_cases hh : hashable kv = true
      · simp only [hh, if_true] at h
        refine ih uk _ cs h ?_
        intro p hp
        rcases pyDictInsert_key_mem hp with ha | hb
        · obtain ⟨r, hr, hr1⟩ := List.mem_map.mp ha
          rw [← hr1]
          exact hacc r hr
        · rw [hb]; exact hh
      · simp [hh] at h

theorem buildStateDictAux_keysDistinct :
    ∀ (items : List Value) (uk : String) (acc cs : List (Value × List (String × Value))),
      buildStateDictAux items uk acc = some cs →
      (∀ p ∈ acc, hashable p.1 = true) → keysDistinct acc → keysDistinct cs := by
  intro items
  induction items with
  | nil =>
    intro uk acc cs h _ hd
    simp [buildStateDictAux] at h
    subst h
    exact hd
  | cons item rest ih =>
    intro uk acc cs h hacc hd
    simp only [buildStateDictAux] at h
    cases item <;> simp at h
    rename_i e
    cases hlk : lookupStr e uk with
    | none => simp [hlk] at h
    | some kv =>
      simp only [hlk] at h
      by_cases hh : hashable kv = true
      · simp only [hh, if_true] at h
        refine ih uk _ cs h ?_ (pyDictInsert_keysDistinct hd hacc hh)
        intro p hp
        rcases pyDictInsert_key_mem hp with ha | hb
        · obtain ⟨r, hr, hr1⟩ := List.mem_map.mp ha
          rw [← hr1]
          exact hacc r hr
        · rw [hb]; exact hh
      · simp [hh] at h

theorem buildStateDict_keysHashable {items : List Value} {uk : String}
    {cs : List (Value × List (String × Value))} (h : buildStateDict items uk = some cs) :
    ∀ p ∈ cs, hashable p.1 = true :=
  buildStateDictAux_keysHashable items uk [] cs h (by simp)

theorem buildStateDict_keysDistinct {items : List Value} {uk : String}
    {cs : List (Value × List (String × Value))} (h : buildStateDict items uk = some cs) :
    keysDistinct cs :=
  buildStateDictAux_keysDistinct items uk [] cs h (by simp) (by simp [keysDistinct])

theorem filterMap_contains_nil {α : Type} (g : Value × α → DiffItem)
    {cs : List (Value × α)} {ds : List (Value × α)}
    (h : ∀ p ∈ cs, pyContains ds p.1 = true) :
    (cs.filterMap fun p => if pyContains ds p.1 then none else some (g p)) = [] := by
  induction cs with
  | nil => rfl
  | cons q rest ih =>
    simp only [List.filterMap_cons, h q (List.mem_cons_self _ _), if_true]
    exact ih (fun p hp => h p (List.mem_cons_of_mem _ hp))

/-- A sequence value can be compared against itself without raising: it is
non-empty, an identity key can be selected from its first element, and the
identity-value dictionary can be built. -/
def listSelfOK (l : List Value) : Bool :=
  match l with
  | [] => false
  | first :: _ =>
      match uniqueKey first with
      | none => false
      | some uk => (buildStateDict l uk).isSome

/- Condition under which diffing a tree against itself both succeeds and
reports no difference: every sequence value satisfies `listSelfOK` (an empty
sequence triggers the empty-list sentinel record even against itself, and a
sequence whose elements are not keyable mappings raises). -/
mutual
def idOKV : Value → Bool
  | .dict e => idOKE e
  | .list l => listSelfOK l
  | _ => true
def idOKE : List (String × Value) → Bool
  | [] => true
  | (_, v) :: r => idOKV v && idOKE r
end

theorem idOKE_of_mem {e : List (String × Value)} {p : String × Value}
    (h : idOKE e = true) (hp : p ∈ e) : idOKV p.2 = true := by
  induction e with
  | nil => simp at hp
  | cons q rest ih =>
    obtain ⟨k0, v0⟩ := q
    simp only [idOKE, Bool.and_eq_true] at h
    rcases List.mem_cons.mp hp with h1 | h2
    · subst h1; exact h.1
    · exact ih h.2 h2

/-- Self-comparison yields the empty diff (or fuel exhaustion) under the
well-formedness and `idOK` conditions. -/
theorem selfDiffEmpty : ∀ fuel,
    (∀ cur path, nodupKeys cur = true → wfE cur = true → idOKE cur = true →
      csdF fuel cur cur path = .out ∨ csdF fuel cur cur path = .ok emptyDiff) ∧
    (∀ sub cur path, nodupKeys cur = true → wfE cur = true →
      (∀ p ∈ sub, p ∈ cur) → idOKE sub = true →
      csdLoop1 fuel sub cur path = .out ∨ csdLoop1 fuel sub cur path = .ok emptyDiff) ∧
    (∀ key v cur path, lookupStr cur key = some v → wfV v = true → idOKV v = true →
      csdHead fuel key v cur path = .out ∨ csdHead fuel key v cur path = .ok emptyDiff) ∧
    (∀ kp v, wfV v = true → idOKV v = true →
      csdMatched fuel kp v v = .out ∨ csdMatched fuel kp v v = .ok emptyDiff) ∧
    (∀ des cur path, (∀ p ∈ des, containsStr cur p.1 = true) →
      csdLoop2 fuel des cur path = .out ∨ csdLoop2 fuel des cur path = .ok emptyDiff) ∧
    (∀ l path, wfL l = true → listSelfOK l = true →
      cslF fuel l l path = .out ∨ cslF fuel l l path = .ok emptyDiff) ∧
    (∀ l first path uk cs, uniqueKey first = some uk → buildStateDict l uk = some cs →
      wfL l = true →
      cslKeyed fuel l l first path = .out ∨ cslKeyed fuel l l first path = .ok emptyDiff) ∧
    (∀ cs path, keysDistinct cs → (∀ p ∈ cs, hashable p.1 = true) →
      (∀ p ∈ cs, wfV (Value.dict p.2) = true) →
      cslBuilt fuel (some cs) (some cs) path = .out ∨
      cslBuilt fuel (some cs) (some cs) path = .ok emptyDiff) ∧
    (∀ sub cs path, (∀ p ∈ sub, p ∈ cs) → keysDistinct cs →
      (∀ p ∈ cs, hashable p.1 = true) → (∀ p ∈ cs, wfV (Value.dict p.2) = true) →
      cslPairs fuel sub cs path = .out ∨ cslPairs fuel sub cs path = .ok emptyDiff) := by
  intro fuel
  induction fuel with
  | zero =>
    refine ⟨?_, ?_, ?_, ?_, ?_, ?_, ?_, ?_, ?_⟩ <;> (intros; left; rfl)
  | succ fuel ih =>
    obtain ⟨ih1, ih2, ih3, ih4, ih5, ih6, ih7, ih8, ih9⟩ := ih
    refine ⟨?_, ?_, ?_, ?_, ?_, ?_, ?_, ?_, ?_⟩
    · -- csdF cur cur
      intro cur path hnd hwf hid
      simp only [csdF]
      have h1 := ih2 cur cur path hnd hwf (fun p hp => hp) hid
      have h2 := ih5 cur cur path (fun p hp => containsStr_of_mem hp)
      rcases h1 with h1 | h1 <;> rcases h2 with h2 | h2 <;> rw [h1, h2] <;>
        simp [Res.merge, Diff.app, emptyDiff]
    · -- csdLoop1 over a sub-list of cur, against cur
      intro sub cur path hnd hwf hsub hid
      match sub with
      | [] => right; rfl
      | (key, v) :: rest =>
        simp only [idOKE, Bool.and_eq_true] at hid
        have hmem : (key, v) ∈ cur := hsub (key, v) (List.mem_cons_self _ _)
        have hlk : lookupStr cur key = some v := nodupKeys_lookup hnd hmem
        have hwfv : wfV v = true := wfE_of_mem hwf hmem
        have h1 := ih3 key v cur path hlk hwfv hid.1
        have h2 := ih2 rest cur path hnd hwf
          (fun p hp => hsub p (List.mem_cons_of_mem _ hp)) hid.2
        simp only [csdLoop1]
        rcases h1 with h1 | h1 <;> rcases h2 with h2 | h2 <;> rw [h1, h2] <;>
          simp [Res.merge, Diff.app, emptyDiff]
    · -- csdHead with the key present (self lookup)
      intro key v cur path hlk hwfv hidv
      simp only [csdHead]
      rw [hlk]
      exact ih4 (childPath path key) v hwfv hidv
    · -- csdMatched v v
      intro kp v hwfv hidv
      cases v <;> simp only [csdMatched]
      case str s => simp [pyEq, pyEqF, sizeVal]
      case int n => simp [pyEq, pyEqF, sizeVal]
      case bool b => simp [pyEq, pyEqF, sizeVal]
      case null => simp [pyEq, pyEqF, sizeVal]
      case dict e =>
        simp only [wfV, Bool.and_eq_true] at hwfv
        exact ih1 e kp hwfv.1 hwfv.2 (by simpa [idOKV] using hidv)
      case list l =>
        exact ih6 l kp (by simpa [wfV] using hwfv) (by simpa [idOKV] using hidv)
    · -- csdLoop2 when every desired key is present in current
      intro des cur path hctn
      match des with
      | [] => right; rfl
      | (key, v) :: rest =>
        have hc : containsStr cur key = true := hctn (key, v) (List.mem_cons_self _ _)
        have h2 := ih5 rest cur path (fun p hp => hctn p (List.mem_cons_of_mem _ hp))
        simp only [csdLoop2]
        have hhead : csdAddHead fuel key v cur path = .out ∨
            csdAddHead fuel key v cur path = .ok emptyDiff := by
          cases fuel with
          | zero => left; rfl
          | succ fuel' =>
            right
            simp [csdAddHead, hc]
        rcases hhead with h1 | h1 <;> rcases h2 with h2 | h2 <;> rw [h1, h2] <;>
          simp [Res.merge, Diff.app, emptyDiff]
    · -- cslF l l
      intro l path hwf hok
      match l with
      | [] => simp [listSelfOK] at hok
      | first :: tail =>
        simp only [listSelfOK] at hok
        cases huk : uniqueKey first with
        | none => rw [huk] at hok; simp at hok
        | some uk =>
          rw [huk] at hok
          have hok' : (buildStateDict (first :: tail) uk).isSome = true := by
            simpa using hok
          cases hcs : buildStateDict (first :: tail) uk with
          | none => rw [hcs] at hok'; simp at hok'
          | some cs =>
            simp only [cslF, List.isEmpty_cons, Bool.false_eq_true, if_false]
            exact ih7 (first :: tail) first path uk cs huk hcs hwf
    · -- cslKeyed l l
      intro l first path uk cs huk hcs hwf
      simp only [cslKeyed]
      rw [huk]
      show cslBuilt fuel (buildStateDict l uk) (buildStateDict l uk) path = .out ∨
        cslBuilt fuel (buildStateDict l uk) (buildStateDict l uk) path = .ok emptyDiff
      rw [hcs]
      refine ih8 cs path (buildStateDict_keysDistinct hcs) (buildStateDict_keysHashable hcs) ?_
      intro p hp
      exact wfL_of_mem hwf (buildStateDict_prov hcs p hp)
    · -- cslBuilt (some cs) (some cs)
      intro cs path hd hh hwf
      simp only [cslBuilt]
      have hctn : ∀ p ∈ cs, pyContains cs p.1 = true := by
        intro p hp
        obtain ⟨k1, e1⟩ := p
        exact @pyContains_of_mem _ cs k1 e1 (hh (k1, e1) hp) hp
      have hr : removedRecs cs cs path = [] := filterMap_contains_nil _ hctn
      have ha : addedRecs cs cs path = [] := filterMap_contains_nil _ hctn
      rw [hr, ha]
      have h2 := ih9 cs cs path (fun p hp => hp) hd hh hwf
      rcases h2 with h2 | h2 <;> rw [h2] <;> simp [Res.merge, Diff.app, emptyDiff]
    · -- cslPairs over a sub-list of cs, against cs
      intro sub cs path hsub hd hh hwf
      match sub with
      | [] => right; rfl
      | (kv, ce) :: rest =>
        have hmem : (kv, ce) ∈ cs := hsub (kv, ce) (List.mem_cons_self _ _)
        have hlk : pyLookup cs kv = some ce :=
          keysDistinct_lookup hd hmem (hh (kv, ce) hmem)
        have hrefl : pyEq (Value.dict ce) (Value.dict ce) = true :=
          pyEq_refl_wf (hwf (kv, ce) hmem)
        have hhead : cslPairHead fuel kv ce cs path = .out ∨
            cslPairHead fuel kv ce cs path = .ok emptyDiff := by
          cases fuel with
          | zero => left; rfl
          | succ fuel' =>
            right
            simp only [cslPairHead]
            rw [hlk]
            show (if pyEq (Value.dict ce) (Value.dict ce) = true then Res.ok emptyDiff
              else csdF fuel' ce ce (bracketPath path kv)) = Res.ok emptyDiff
            rw [if_pos hrefl]
        have h2 := ih9 rest cs path (fun p hp => hsub p (List.mem_cons_of_mem _ hp)) hd hh hwf
        simp only [cslPairs]
        rcases hhead with h1 | h1 <;> rcases h2 with h2 | h2 <;> rw [h1, h2] <;>
          simp [Res.merge, Diff.app, emptyDiff]

/-- C1 counterexample: the tree `{a: []}` is a well-formed Document Tree
(its value is a sequence), yet diffing it against itself does not yield
empty lists: the empty-sequence sentinel puts one record in `removed`. -/
theorem C1_counterexample :
    wfE [("a", Value.list [])] = true ∧
    compare_state_dicts [("a", Value.list [])] [("a", Value.list [])] "" =
      some ⟨[⟨"a", none, none, some "Current state list is empty"⟩], [], []⟩ :=
  ⟨rfl, rfl⟩

/-- C1 amended: diffing a well-formed Document Tree against itself yields
empty removed, added and changed lists, provided every sequence value in the
tree is non-empty and an identity-value dictionary can be built from it
(non-empty sequences of keyable mapping elements).  Without that proviso the
self-diff either reports the empty-sequence sentinel as removed or raises. -/
theorem C1_amended_identity (T : List (String × Value)) (path : String)
    (hnd : nodupKeys T = true) (hwf : wfE T = true) (hid : idOKE T = true) :
    compare_state_dicts T T path = some emptyDiff := by
  have hb : 3 * (sizeEnt T + sizeEnt T) ≤ 3 * (sizeEnt T + sizeEnt T) := Nat.le_refl _
  rw [@compare_state_dicts_eq_csdF T T path _ hb]
  have hnout := (noTimeout _).1 T T path hb
  rcases (selfDiffEmpty _).1 T path hnd hwf hid with h | h
  · exact absurd h hnout
  · rw [h]

/-- Witness for C1's amended theorem at a concrete input. -/
theorem C1_amended_identity_witness :
    compare_state_dicts
      [("a", Value.int 1), ("b", Value.dict [("c", Value.str "x")]),
       ("l", Value.list [Value.dict [("name", Value.int 1)]])]
      [("a", Value.int 1), ("b", Value.dict [("c", Value.str "x")]),
       ("l", Value.list [Value.dict [("name", Value.int 1)]])] "" = some emptyDiff :=
  C1_amended_identity
    [("a", Value.int 1), ("b", Value.dict [("c", Value.str "x")]),
     ("l", Value.list [Value.dict [("name", Value.int 1)]])] "" rfl rfl rfl

/-- The multiset of records in each list of a diff, for order-insensitive
comparisons. -/
def msetR (l : List DiffItem) : Multiset DiffItem := Multiset.ofList l

/-- Swapping the direction of one change record: old and new values are
exchanged, and the two empty-sequence sentinel messages are exchanged. -/
def flipItem (r : DiffItem) : DiffItem :=
  ⟨r.path, r.new_value, r.old_value,
    r.message.map (fun m =>
      if m = "Current state list is empty" then "Desired state list is empty"
      else if m = "Desired state list is empty" then "Current state list is empty"
      else m)⟩

theorem flipItem_flipItem (r : DiffItem) : flipItem (flipItem r) = r := by
  obtain ⟨p, o, n, m⟩ := r
  simp only [flipItem]
  cases m with
  | none => rfl
  | some s =>
    by_cases h1 : s = "Current state list is empty"
    · simp [h1]
    · by_cases h2 : s = "Desired state list is empty"
      · simp [h1, h2]
      · simp [h1, h2]

/-- C3 counterexample: for the well-formed trees `A = {x: {a: 1}}` and
`B = {}`, the forward diff has the single whole-subtree Removed record at
path `x`, while the reverse diff decomposes the mapping into the single
Added record at path `x.a`: the removed/added roles are not swaps of one
another and the two directions do not produce the same set of paths. -/
theorem C3_counterexample :
    wfE [("x", Value.dict [("a", Value.int 1)])] = true ∧
    compare_state_dicts [("x", Value.dict [("a", Value.int 1)])] [] "" =
      some ⟨[⟨"x", some (Value.dict [("a", Value.int 1)]), none, none⟩], [], []⟩ ∧
    compare_state_dicts [] [("x", Value.dict [("a", Value.int 1)])] "" =
      some ⟨[], [⟨"x.a", none, some (Value.int 1), none⟩], []⟩ ∧
    ¬ ("x" ∈ (["x.a"] : List String)) :=
  ⟨rfl, rfl, rfl, by simp⟩

theorem nodupKeys_map_nodup {a : List (String × Value)} (h : nodupKeys a = true) :
    (a.map Prod.fst).Nodup := by
  induction a with
  | nil => simp
  | cons p rest ih =>
    obtain ⟨k0, v0⟩ := p
    simp only [nodupKeys, Bool.and_eq_true] at h
    simp only [List.map_cons, List.nodup_cons]
    refine ⟨?_, ih h.2⟩
    intro hc
    obtain ⟨q, hq, hq1⟩ := List.mem_map.mp hc
    obtain ⟨k1, v1⟩ := q
    have : k0 = k1 := hq1.symm
    subst this
    have := containsStr_of_mem hq
    rw [this] at h
    simp at h

theorem keys_subset_of_contain {a b : List (String × Value)} {fuel : Nat}
    (hab : ∀ p ∈ a, (match lookupStr b p.1 with
      | some w => pyEqF fuel p.2 w
      | none => false) = true) :
    ∀ k ∈ a.map Prod.fst, k ∈ b.map Prod.fst := by
  intro k hk
  obtain ⟨p, hp, hp1⟩ := List.mem_map.mp hk
  have := hab p hp
  cases hlk : lookupStr b p.1 with
  | none => rw [hlk] at this; simp at this
  | some w =>
    have hmem := lookupStr_mem hlk
    rw [← hp1]
    exact List.mem_map.mpr ⟨(p.1, w), hmem, rfl⟩

theorem mem_keys_eq {a b : List (String × Value)}
    (hna : nodupKeys a = true) (hnb : nodupKeys b = true)
    (hlen : a.length = b.length)
    (hsub : ∀ k ∈ a.map Prod.fst, k ∈ b.map Prod.fst) :
    ∀ k ∈ b.map Prod.fst, k ∈ a.map Prod.fst := by
  have hda := nodupKeys_map_nodup hna
  have hdb := nodupKeys_map_nodup hnb
  have hsub' : (a.map Prod.fst).toFinset ⊆ (b.map Prod.fst).toFinset := by
    intro k hk
    rw [List.mem_toFinset] at hk ⊢
    exact hsub k hk
  have hca : (a.map Prod.fst).toFinset.card = a.length := by
    rw [List.toFinset_card_of_nodup hda, List.length_map]
  have hcb : (b.map Prod.fst).toFinset.card = b.length := by
    rw [List.toFinset_card_of_nodup hdb, List.length_map]
  have heq : (a.map Prod.fst).toFinset = (b.map Prod.fst).toFinset := by
    apply Finset.eq_of_subset_of_card_le hsub'
    omega
  intro k hk
  rw [← List.mem_toFinset, ← heq, List.mem_toFinset] at hk
  exact hk

/-- Python equality is symmetric on well-formed values. -/
theorem pyEqF_symm : ∀ fuel x y, wfV x = true → wfV y = true →
    sizeVal x + sizeVal y ≤ fuel → pyEqF fuel x y = pyEqF fuel y x := by
  intro fuel
  induction fuel with
  | zero =>
    intro x y _ _ hsz
    have := sizeVal_pos x
    have := sizeVal_pos y
    omega
  | succ fuel ih =>
    intro x y hwx hwy hsz
    have hscalar : hashable x = true → hashable y = true →
        pyEqF (fuel + 1) x y = pyEqF (fuel + 1) y x := by
      intro hx hy
      have h1 : sizeVal x = 1 := by cases x <;> simp_all [hashable, sizeVal]
      have h2 : sizeVal y = 1 := by cases y <;> simp_all [hashable, sizeVal]
      rw [pyEqF_eq_pyEq (by omega), pyEqF_eq_pyEq (by omega)]
      exact pyEq_scalar_symm hx hy
    cases x <;> cases y <;> (try exact hscalar rfl rfl) <;> (try rfl)
    case list.list xs ys =>
      simp only [pyEqF]
      by_cases hlen : xs.length = ys.length
      · have hb1 : (xs.length == ys.length) = true := by simp [hlen]
        have hb2 : (ys.length == xs.length) = true := by simp [hlen]
        rw [hb1, hb2]
        simp only [Bool.true_and]
        rw [← List.zip_swap xs ys, List.all_map]
        apply list_all_congr
        intro p hp
        obtain ⟨hp1, hp2⟩ := List.of_mem_zip hp
        have hs1 := sizeElems_of_mem hp1
        have hs2 := sizeElems_of_mem hp2
        have hw1 : wfV p.1 = true := wfL_of_mem (by simpa [wfV] using hwx) hp1
        have hw2 : wfV p.2 = true := wfL_of_mem (by simpa [wfV] using hwy) hp2
        have hsx : sizeVal (Value.list xs) = 1 + sizeElems xs := rfl
        have hsy : sizeVal (Value.list ys) = 1 + sizeElems ys := rfl
        show pyEqF fuel p.1 p.2 = pyEqF fuel (Prod.swap p).1 (Prod.swap p).2
        simp only [Prod.swap]
        exact ih p.1 p.2 hw1 hw2 (by omega)
      · have hb1 : (xs.length == ys.length) = false := by simp [hlen]
        have hb2 : (ys.length == xs.length) = false := by
          simp
          exact fun hc => hlen hc.symm
        rw [hb1, hb2]
        simp
    case dict.dict a b =>
      simp only [wfV, Bool.and_eq_true] at hwx hwy
      obtain ⟨hna, hwa⟩ := hwx
      obtain ⟨hnb, hwb⟩ := hwy
      have hsa : sizeVal (Value.dict a) = 1 + sizeEnt a := rfl
      have hsb : sizeVal (Value.dict b) = 1 + sizeEnt b := rfl
      simp only [pyEqF]
      by_cases hlen : a.length = b.length
      · have hb1 : (a.length == b.length) = true := by simp [hlen]
        have hb2 : (b.length == a.length) = true := by simp [hlen]
        rw [hb1, hb2]
        simp only [Bool.true_and]
        have hdir : ∀ (u v : List (String × Value)), nodupKeys u = true →
            nodupKeys v = true → wfE u = true → wfE v = true →
            u.length = v.length → sizeEnt u + sizeEnt v ≤ fuel + 2 →
            (u.all fun p => match lookupStr v p.1 with
              | some w => pyEqF fuel p.2 w
              | none => false) = true →
            (v.all fun p => match lookupStr u p.1 with
              | some w => pyEqF fuel p.2 w
              | none => false) = true := by
          intro u v hnu hnv hwu hwv hluv hszuv hall
          rw [List.all_eq_true] at hall ⊢
          intro q hq
          obtain ⟨qk, qv⟩ := q
          have hkq : qk ∈ u.map Prod.fst :=
            mem_keys_eq hnu hnv hluv (keys_subset_of_contain hall) qk
              (List.mem_map.mpr ⟨(qk, qv), hq, rfl⟩)
          obtain ⟨p, hp, hp1⟩ := List.mem_map.mp hkq
          obtain ⟨pk, pv⟩ := p
          have hpk : pk = qk := hp1
          subst hpk
          have hlkv : lookupStr u pk = some pv := nodupKeys_lookup hnu hp
          rw [hlkv]
          show pyEqF fuel qv pv = true
          have hfwd := hall (pk, pv) hp
          have hlkb : lookupStr v pk = some qv := nodupKeys_lookup hnv hq
          rw [hlkb] at hfwd
          have hfwd' : pyEqF fuel pv qv = true := by simpa using hfwd
          have hwp : wfV pv = true := wfE_of_mem hwu hp
          have hwq : wfV qv = true := wfE_of_mem hwv hq
          have hsp := sizeEnt_of_mem hp
          have hsq := sizeEnt_of_mem hq
          rw [← ih pv qv hwp hwq (by simp [sizeEnt] at hsp hsq ⊢; omega)]
          exact hfwd'
        have hiff : ((a.all fun p => match lookupStr b p.1 with
              | some w => pyEqF fuel p.2 w
              | none => false) = true) ↔
            ((b.all fun p => match lookupStr a p.1 with
              | some w => pyEqF fuel p.2 w
              | none => false) = true) :=
          ⟨hdir a b hna hnb hwa hwb hlen (by omega),
           hdir b a hnb hna hwb hwa hlen.symm (by omega)⟩
        cases hc1 : (a.all fun p => match lookupStr b p.1 with
            | some w => pyEqF fuel p.2 w
            | none => false)
        · cases hc2 : (b.all fun p => match lookupStr a p.1 with
              | some w => pyEqF fuel p.2 w
              | none => false)
          · rfl
          · have := hiff.mpr hc2
            rw [hc1] at this
            exact absurd this (by simp)
        · rw [hiff.mp hc1]
      · have hb1 : (a.length == b.length) = false := by simp [hlen]
        have hb2 : (b.length == a.length) = false := by
          simp
          exact fun hc => hlen hc.symm
        rw [hb1, hb2]
        simp

/-- `pyEq` is symmetric on well-formed values. -/
theorem pyEq_symm {x y : Value} (hwx : wfV x = true) (hwy : wfV y = true) :
    pyEq x y = pyEq y x := by
  unfold pyEq
  rw [pyEqF_symm (sizeVal x + sizeVal y) x y hwx hwy (Nat.le_refl _)]
  exact pyEqF_fuel_irrelevant _ _ y x (by omega) (by omega)

theorem Diff.app_assoc (a b c : Diff) : (a.app b).app c = a.app (b.app c) := by
  simp [Diff.app, List.append_assoc]

theorem Diff.empty_app (d : Diff) : emptyDiff.app d = d := by
  simp [Diff.app, emptyDiff]

theorem Diff.app_empty (d : Diff) : d.app emptyDiff = d := by
  simp [Diff.app, emptyDiff]

theorem msetR_append (l1 l2 : List DiffItem) :
    msetR (l1 ++ l2) = msetR l1 + msetR l2 := by
  simp [msetR]

theorem csdHead_mono_le {fuel fuel' : Nat} (hle : fuel ≤ fuel')
    {key : String} {v : Value} {des : List (String × Value)} {path : String}
    (hne : csdHead fuel key v des path ≠ .out) :
    csdHead fuel' key v des path = csdHead fuel key v des path := by
  induction fuel', hle using Nat.le_induction with
  | base => rfl
  | succ fuel' hle ih =>
    rw [← ih]
    exact (fuelMono fuel').2.2.1 key v des path (by rw [ih]; exact hne)

theorem csdMatched_mono_le {fuel fuel' : Nat} (hle : fuel ≤ fuel')
    {kp : String} {v w : Value}
    (hne : csdMatched fuel kp v w ≠ .out) :
    csdMatched fuel' kp v w = csdMatched fuel kp v w := by
  induction fuel', hle using Nat.le_induction with
  | base => rfl
  | succ fuel' hle ih =>
    rw [← ih]
    exact (fuelMono fuel').2.2.2.1 kp v w (by rw [ih]; exact hne)

theorem csdAddHead_mono_le {fuel fuel' : Nat} (hle : fuel ≤ fuel')
    {key : String} {v : Value} {cur : List (String × Value)} {path : String}
    (hne : csdAddHead fuel key v cur path ≠ .out) :
    csdAddHead fuel' key v cur path = csdAddHead fuel key v cur path := by
  induction fuel', hle using Nat.le_induction with
  | base => rfl
  | succ fuel' hle ih =>
    rw [← ih]
    exact (fuelMono fuel').2.2.2.2.2.1 key v cur path (by rw [ih]; exact hne)

theorem csdAddValue_mono_le {fuel fuel' : Nat} (hle : fuel ≤ fuel')
    {kp : String} {v : Value}
    (hne : csdAddValue fuel kp v ≠ .out) :
    csdAddValue fuel' kp v = csdAddValue fuel kp v := by
  induction fuel', hle using Nat.le_induction with
  | base => rfl
  | succ fuel' hle ih =>
    rw [← ih]
    exact (fuelMono fuel').2.2.2.2.2.2.1 kp v (by rw [ih]; exact hne)

theorem cslPairs_mono_le {fuel fuel' : Nat} (hle : fuel ≤ fuel')
    {cs ds : List (Value × List (String × Value))} {path : String}
    (hne : cslPairs fuel cs ds path ≠ .out) :
    cslPairs fuel' cs ds path = cslPairs fuel cs ds path := by
  induction fuel', hle using Nat.le_induction with
  | base => rfl
  | succ fuel' hle ih =>
    rw [← ih]
    exact (fuelMono fuel').2.2.2.2.2.2.2.2.2.2.1 cs ds path (by rw [ih]; exact hne)

theorem cslPairHead_mono_le {fuel fuel' : Nat} (hle : fuel ≤ fuel')
    {key : Value} {ce : List (String × Value)}
    {ds : List (Value × List (String × Value))} {path : String}
    (hne : cslPairHead fuel key ce ds path ≠ .out) :
    cslPairHead fuel' key ce ds path = cslPairHead fuel key ce ds path := by
  induction fuel', hle using Nat.le_induction with
  | base => rfl
  | succ fuel' hle ih =>
    rw [← ih]
    exact (fuelMono fuel').2.2.2.2.2.2.2.2.2.2.2 key ce ds path (by rw [ih]; exact hne)

/- Option-level wrappers for the loop functions at canonical sufficient
fuels.  The bridge lemmas state that the wrappers compute the same value at
any sufficient fuel, so decompositions of the comparison can be phrased
without fuel arithmetic. -/

def resOpt : Res → Option Diff
  | .ok d => some d
  | _ => none

theorem resOpt_eq_some {r : Res} {d : Diff} : resOpt r = some d ↔ r = .ok d := by
  cases r <;> simp [resOpt]

def runLoop1 (cur des : List (String × Value)) (path : String) : Option Diff :=
  resOpt (csdLoop1 (3 * (sizeEnt cur + sizeEnt des)) cur des path)

def runLoop2 (des cur : List (String × Value)) (path : String) : Option Diff :=
  resOpt (csdLoop2 (3 * (sizeEnt des + sizeEnt cur)) des cur path)

def runHead (key : String) (v : Value) (des : List (String × Value))
    (path : String) : Option Diff :=
  resOpt (csdHead (3 * (sizeVal v + sizeEnt des)) key v des path)

def runMatched (kp : String) (v w : Value) : Option Diff :=
  resOpt (csdMatched (3 * (sizeVal v + sizeVal w)) kp v w)

def runAddHead (key : String) (v : Value) (cur : List (String × Value))
    (path : String) : Option Diff :=
  resOpt (csdAddHead (3 * (sizeVal v + sizeEnt cur)) key v cur path)

def runAddValue (kp : String) (v : Value) : Option Diff :=
  resOpt (csdAddValue (3 * sizeVal v + 1) kp v)

def runCslPairs (cs ds : List (Value × List (String × Value)))
    (path : String) : Option Diff :=
  resOpt (cslPairs
    (cs.length + 3 * entriesSizes cs + ds.length + 3 * entriesSizes ds + 1)
    cs ds path)

def runPairHead (key : Value) (ce : List (String × Value))
    (ds : List (Value × List (String × Value))) (path : String) : Option Diff :=
  resOpt (cslPairHead (3 * sizeEnt ce + 3 * entriesSizes ds + 1) key ce ds path)

theorem runLoop1_eq {cur des : List (String × Value)} {path : String} {fuel : Nat}
    (hfuel : 3 * (sizeEnt cur + sizeEnt des) ≤ fuel + 1) :
    runLoop1 cur des path = resOpt (csdLoop1 fuel cur des path) := by
  have h1 : csdLoop1 (3 * (sizeEnt cur + sizeEnt des)) cur des path ≠ .out :=
    (noTimeout _).2.1 cur des path (by omega)
  have h2 : csdLoop1 fuel cur des path ≠ .out :=
    (noTimeout _).2.1 cur des path hfuel
  have e1 := csdLoop1_mono_le (Nat.le_max_left (3 * (sizeEnt cur + sizeEnt des)) fuel) h1
  have e2 := csdLoop1_mono_le (Nat.le_max_right (3 * (sizeEnt cur + sizeEnt des)) fuel) h2
  unfold runLoop1
  rw [← e1, e2]

theorem runLoop2_eq {des cur : List (String × Value)} {path : String} {fuel : Nat}
    (hfuel : 3 * (sizeEnt des + sizeEnt cur) ≤ fuel + 1) :
    runLoop2 des cur path = resOpt (csdLoop2 fuel des cur path) := by
  have h1 : csdLoop2 (3 * (sizeEnt des + sizeEnt cur)) des cur path ≠ .out :=
    (noTimeout _).2.2.2.2.1 des cur path (by omega)
  have h2 : csdLoop2 fuel des cur path ≠ .out :=
    (noTimeout _).2.2.2.2.1 des cur path hfuel
  have e1 := csdLoop2_mono_le (Nat.le_max_left (3 * (sizeEnt des + sizeEnt cur)) fuel) h1
  have e2 := csdLoop2_mono_le (Nat.le_max_right (3 * (sizeEnt des + sizeEnt cur)) fuel) h2
  unfold runLoop2
  rw [← e1, e2]

theorem runHead_eq {key : String} {v : Value} {des : List (String × Value)}
    {path : String} {fuel : Nat}
    (hfuel : 3 * (sizeVal v + sizeEnt des) ≤ fuel) :
    runHead key v des path = resOpt (csdHead fuel key v des path) := by
  have h1 : csdHead (3 * (sizeVal v + sizeEnt des)) key v des path ≠ .out :=
    (noTimeout _).2.2.1 key v des path (by omega)
  have h2 : csdHead fuel key v des path ≠ .out :=
    (noTimeout _).2.2.1 key v des path hfuel
  have e1 := csdHead_mono_le (Nat.le_max_left (3 * (sizeVal v + sizeEnt des)) fuel) h1
  have e2 := csdHead_mono_le (Nat.le_max_right (3 * (sizeVal v + sizeEnt des)) fuel) h2
  unfold runHead
  rw [← e1, e2]

theorem runMatched_eq {kp : String} {v w : Value} {fuel : Nat}
    (hfuel : 3 * (sizeVal v + sizeVal w) ≤ fuel) :
    runMatched kp v w = resOpt (csdMatched fuel kp v w) := by
  have h1 : csdMatched (3 * (sizeVal v + sizeVal w)) kp v w ≠ .out :=
    (noTimeout _).2.2.2.1 kp v w (by omega)
  have h2 : csdMatched fuel kp v w ≠ .out :=
    (noTimeout _).2.2.2.1 kp v w hfuel
  have e1 := csdMatched_mono_le (Nat.le_max_left (3 * (sizeVal v + sizeVal w)) fuel) h1
  have e2 := csdMatched_mono_le (Nat.le_max_right (3 * (sizeVal v + sizeVal w)) fuel) h2
  unfold runMatched
  rw [← e1, e2]

theorem runAddHead_eq {key : String} {v : Value} {cur : List (String × Value)}
    {path : String} {fuel : Nat}
    (hfuel : 3 * (sizeVal v + sizeEnt cur) ≤ fuel) :
    runAddHead key v cur path = resOpt (csdAddHead fuel key v cur path) := by
  have h1 : csdAddHead (3 * (sizeVal v + sizeEnt cur)) key v cur path ≠ .out :=
    (noTimeout _).2.2.2.2.2.1 key v cur path (by omega)
  have h2 : csdAddHead fuel key v cur path ≠ .out :=
    (noTimeout _).2.2.2.2.2.1 key v cur path hfuel
  have e1 := csdAddHead_mono_le (Nat.le_max_left (3 * (sizeVal v + sizeEnt cur)) fuel) h1
  have e2 := csdAddHead_mono_le (Nat.le_max_right (3 * (sizeVal v + sizeEnt cur)) fuel) h2
  unfold runAddHead
  rw [← e1, e2]

theorem runAddValue_eq {kp : String} {v : Value} {fuel : Nat}
    (hfuel : 3 * sizeVal v + 1 ≤ fuel) :
    runAddValue kp v = resOpt (csdAddValue fuel kp v) := by
  have h1 : csdAddValue (3 * sizeVal v + 1) kp v ≠ .out :=
    (noTimeout _).2.2.2.2.2.2.1 kp v (by omega)
  have h2 : csdAddValue fuel kp v ≠ .out :=
    (noTimeout _).2.2.2.2.2.2.1 kp v hfuel
  have e1 := csdAddValue_mono_le (Nat.le_max_left (3 * sizeVal v + 1) fuel) h1
  have e2 := csdAddValue_mono_le (Nat.le_max_right (3 * sizeVal v + 1) fuel) h2
  unfold runAddValue
  rw [← e1, e2]

theorem runCslPairs_eq {cs ds : List (Value × List (String × Value))}
    {path : String} {fuel : Nat}
    (hfuel : cs.length + 3 * entriesSizes cs + ds.length + 3 * entriesSizes ds + 1 ≤ fuel) :
    runCslPairs cs ds path = resOpt (cslPairs fuel cs ds path) := by
  have h1 : cslPairs
      (cs.length + 3 * entriesSizes cs + ds.length + 3 * entriesSizes ds + 1)
      cs ds path ≠ .out :=
    (noTimeout _).2.2.2.2.2.2.2.2.2.2.1 cs ds path (by omega)
  have h2 : cslPairs fuel cs ds path ≠ .out :=
    (noTimeout _).2.2.2.2.2.2.2.2.2.2.1 cs ds path hfuel
  have e1 := cslPairs_mono_le
    (Nat.le_max_left (cs.length + 3 * entriesSizes cs + ds.length + 3 * entriesSizes ds + 1) fuel) h1
  have e2 := cslPairs_mono_le
    (Nat.le_max_right (cs.length + 3 * entriesSizes cs + ds.length + 3 * entriesSizes ds + 1) fuel) h2
  unfold runCslPairs
  rw [← e1, e2]

theorem runPairHead_eq {key : Value} {ce : List (String × Value)}
    {ds : List (Value × List (String × Value))} {path : String} {fuel : Nat}
    (hfuel : 3 * sizeEnt ce + 3 * entriesSizes ds + 1 ≤ fuel) :
    runPairHead key ce ds path = resOpt (cslPairHead fuel key ce ds path) := by
  have h1 : cslPairHead (3 * sizeEnt ce + 3 * entriesSizes ds + 1) key ce ds path ≠ .out :=
    (noTimeout _).2.2.2.2.2.2.2.2.2.2.2 key ce ds path (by omega)
  have h2 : cslPairHead fuel key ce ds path ≠ .out :=
    (noTimeout _).2.2.2.2.2.2.2.2.2.2.2 key ce ds path hfuel
  have e1 := cslPairHead_mono_le
    (Nat.le_max_left (3 * sizeEnt ce + 3 * entriesSizes ds + 1) fuel) h1
  have e2 := cslPairHead_mono_le
    (Nat.le_max_right (3 * sizeEnt ce + 3 * entriesSizes ds + 1) fuel) h2
  unfold runPairHead
  rw [← e1, e2]

theorem resOpt_merge (a b : Res) :
    resOpt (Res.merge a b) =
      (resOpt a).bind (fun x => (resOpt b).map (fun y => x.app y)) := by
  cases a <;> cases b <;> simp [resOpt, Res.merge]

theorem resOpt_if (c : Bool) (a b : Diff) :
    resOpt (if c then Res.ok a else Res.ok b) = if c then some a else some b := by
  cases c <;> simp [resOpt]

/-- `compare_state_dicts` is the merge of its two loops. -/
theorem csd_decomp (cur des : List (String × Value)) (path : String) :
    compare_state_dicts cur des path =
      (runLoop1 cur des path).bind
        (fun d1 => (runLoop2 des cur path).map (fun d2 => d1.app d2)) := by
  rw [@compare_state_dicts_eq_csdF cur des path
    (3 * (sizeEnt cur + sizeEnt des) + 1) (by omega)]
  show resOpt (csdF (3 * (sizeEnt cur + sizeEnt des) + 1) cur des path) = _
  rw [show csdF (3 * (sizeEnt cur + sizeEnt des) + 1) cur des path =
    Res.merge (csdLoop1 (3 * (sizeEnt cur + sizeEnt des)) cur des path)
      (csdLoop2 (3 * (sizeEnt cur + sizeEnt des)) des cur path) from rfl]
  rw [resOpt_merge, ← @runLoop1_eq cur des path _ (by omega),
    ← @runLoop2_eq des cur path _ (by omega)]

theorem runLoop1_nil (des : List (String × Value)) (path : String) :
    runLoop1 [] des path = some emptyDiff := by
  unfold runLoop1
  have h : 3 * (sizeEnt ([] : List (String × Value)) + sizeEnt des) ≠ 0 := by
    have := sizeEnt_pos des
    simp [sizeEnt]
  obtain ⟨f, hf⟩ := Nat.exists_eq_succ_of_ne_zero h
  rw [hf]
  rfl

theorem runLoop1_cons (k : String) (v : Value) (A' des : List (String × Value))
    (path : String) :
    runLoop1 ((k, v) :: A') des path =
      (runHead k v des path).bind
        (fun h => (runLoop1 A' des path).map (fun t => h.app t)) := by
  have hsz : sizeEnt ((k, v) :: A') = 2 + sizeVal v + sizeEnt A' := rfl
  rw [@runLoop1_eq ((k, v) :: A') des path
    (3 * (sizeEnt ((k, v) :: A') + sizeEnt des) + 1) (by omega)]
  rw [show csdLoop1 (3 * (sizeEnt ((k, v) :: A') + sizeEnt des) + 1) ((k, v) :: A') des path =
    Res.merge (csdHead (3 * (sizeEnt ((k, v) :: A') + sizeEnt des)) k v des path)
      (csdLoop1 (3 * (sizeEnt ((k, v) :: A') + sizeEnt des)) A' des path) from rfl]
  have hv := sizeVal_pos v
  have hA := sizeEnt_pos A'
  have hd := sizeEnt_pos des
  rw [resOpt_merge, ← @runHead_eq k v des path _ (by omega),
    ← @runLoop1_eq A' des path _ (by omega)]

/-- One current-state key: a whole-subtree removed record if the key is
absent from the desired state, else the matched comparison. -/
theorem runHead_eq_match (k : String) (v : Value) (des : List (String × Value))
    (path : String) :
    runHead k v des path =
      match lookupStr des k with
      | none => some ⟨[⟨childPath path k, some v, none, none⟩], [], []⟩
      | some w => runMatched (childPath path k) v w := by
  rw [@runHead_eq k v des path (3 * (sizeVal v + sizeEnt des) + 1) (by omega)]
  show resOpt (match lookupStr des k with
    | none => Res.ok ⟨[⟨childPath path k, some v, none, none⟩], [], []⟩
    | some w => csdMatched (3 * (sizeVal v + sizeEnt des)) (childPath path k) v w) = _
  cases h : lookupStr des k with
  | none => rfl
  | some w =>
    have hw := lookupStr_sizeVal h
    rw [← @runMatched_eq (childPath path k) v w _ (by omega)]

theorem runMatched_dict (kp : String) (ce de : List (String × Value)) :
    runMatched kp (.dict ce) (.dict de) = compare_state_dicts ce de kp := by
  rw [@runMatched_eq kp (.dict ce) (.dict de)
    (3 * (sizeVal (.dict ce) + sizeVal (.dict de)) + 1) (by omega)]
  rw [show csdMatched (3 * (sizeVal (.dict ce) + sizeVal (.dict de)) + 1) kp
      (.dict ce) (.dict de) =
    csdF (3 * (sizeVal (.dict ce) + sizeVal (.dict de))) ce de kp from rfl]
  rw [@compare_state_dicts_eq_csdF ce de kp
    (3 * (sizeVal (.dict ce) + sizeVal (.dict de)))
    (by simp [sizeVal]; omega)]
  cases csdF (3 * (sizeVal (.dict ce) + sizeVal (.dict de))) ce de kp <;> rfl

theorem runMatched_list (kp : String) (cl dl : List Value) :
    runMatched kp (.list cl) (.list dl) = compare_state_lists cl dl kp := by
  rw [@runMatched_eq kp (.list cl) (.list dl)
    (3 * (sizeVal (.list cl) + sizeVal (.list dl)) + 1) (by omega)]
  rw [show csdMatched (3 * (sizeVal (.list cl) + sizeVal (.list dl)) + 1) kp
      (.list cl) (.list dl) =
    cslF (3 * (sizeVal (.list cl) + sizeVal (.list dl))) cl dl kp from rfl]
  rw [@compare_state_lists_eq_cslF cl dl kp
    (3 * (sizeVal (.list cl) + sizeVal (.list dl)))
    (by simp [sizeVal]; omega)]
  cases cslF (3 * (sizeVal (.list cl) + sizeVal (.list dl))) cl dl kp <;> rfl

theorem runMatched_other (kp : String) (v w : Value)
    (hnd : ∀ ce de, v = .dict ce → w = .dict de → False)
    (hnl : ∀ cl dl, v = .list cl → w = .list dl → False) :
    runMatched kp v w =
      if pyEq v w then some emptyDiff
      else some ⟨[], [], [⟨kp, some v, some w, none⟩]⟩ := by
  rw [@runMatched_eq kp v w (3 * (sizeVal v + sizeVal w) + 1) (by omega)]
  cases v <;> cases w <;> first
    | exact (hnd _ _ rfl rfl).elim
    | exact (hnl _ _ rfl rfl).elim
    | (simp only [csdMatched]; exact resOpt_if _ _ _)

theorem runLoop2_nil (cur : List (String × Value)) (path : String) :
    runLoop2 [] cur path = some emptyDiff := by
  unfold runLoop2
  have h : 3 * (sizeEnt ([] : List (String × Value)) + sizeEnt cur) ≠ 0 := by
    have := sizeEnt_pos cur
    simp [sizeEnt]
  obtain ⟨f, hf⟩ := Nat.exists_eq_succ_of_ne_zero h
  rw [hf]
  rfl

theorem runLoop2_cons (k : String) (v : Value) (B' cur : List (String × Value))
    (path : String) :
    runLoop2 ((k, v) :: B') cur path =
      (runAddHead k v cur path).bind
        (fun h => (runLoop2 B' cur path).map (fun t => h.app t)) := by
  have hsz : sizeEnt ((k, v) :: B') = 2 + sizeVal v + sizeEnt B' := rfl
  rw [@runLoop2_eq ((k, v) :: B') cur path
    (3 * (sizeEnt ((k, v) :: B') + sizeEnt cur) + 1) (by omega)]
  rw [show csdLoop2 (3 * (sizeEnt ((k, v) :: B') + sizeEnt cur) + 1) ((k, v) :: B') cur path =
    Res.merge (csdAddHead (3 * (sizeEnt ((k, v) :: B') + sizeEnt cur)) k v cur path)
      (csdLoop2 (3 * (sizeEnt ((k, v) :: B') + sizeEnt cur)) B' cur path) from rfl]
  have hv := sizeVal_pos v
  have hB := sizeEnt_pos B'
  have hc := sizeEnt_pos cur
  rw [resOpt_merge, ← @runAddHead_eq k v cur path _ (by omega),
    ← @runLoop2_eq B' cur path _ (by omega)]

/-- One desired-state key: nothing if the key is also current, else the
added-value records. -/
theorem runAddHead_eq_match (k : String) (v : Value) (cur : List (String × Value))
    (path : String) :
    runAddHead k v cur path =
      if containsStr cur k then some emptyDiff
      else runAddValue (childPath path k) v := by
  rw [@runAddHead_eq k v cur path (3 * (sizeVal v + sizeEnt cur) + 1) (by omega)]
  show resOpt (if containsStr cur k then Res.ok emptyDiff
    else csdAddValue (3 * (sizeVal v + sizeEnt cur)) (childPath path k) v) = _
  cases h : containsStr cur k with
  | true => simp [resOpt]
  | false =>
    rw [if_neg (by simp [h]), if_neg (by simp [h])]
    have hc := sizeEnt_pos cur
    rw [← @runAddValue_eq (childPath path k) v _ (by omega)]

/-- A desired-only mapping value recurses against an empty current state and
keeps only the added records; other values become one added record. -/
theorem runAddValue_dict (kp : String) (de : List (String × Value)) :
    runAddValue kp (.dict de) =
      (compare_state_dicts [] de kp).map (fun sub => ⟨[], sub.added, []⟩) := by
  rw [@runAddValue_eq kp (.dict de) (3 * sizeVal (.dict de) + 1) (by omega)]
  rw [show csdAddValue (3 * sizeVal (.dict de) + 1) kp (.dict de) =
    (match csdF (3 * sizeVal (.dict de)) [] de kp with
     | .ok sub => .ok ⟨[], sub.added, []⟩
     | r => r) from rfl]
  rw [@compare_state_dicts_eq_csdF [] de kp (3 * sizeVal (.dict de))
    (by simp [sizeVal, sizeEnt])]
  cases csdF (3 * sizeVal (.dict de)) [] de kp <;> rfl

theorem runAddValue_other (kp : String) (v : Value)
    (hnd : ∀ de, v = .dict de → False) :
    runAddValue kp v = some ⟨[], [⟨kp, none, some v, none⟩], []⟩ := by
  rw [@runAddValue_eq kp v (3 * sizeVal v + 1) (by omega)]
  cases v <;> first
    | exact (hnd _ rfl).elim
    | rfl

theorem runHead_congr {k : String} (v : Value) {des des' : List (String × Value)}
    (path : String) (h : lookupStr des k = lookupStr des' k) :
    runHead k v des path = runHead k v des' path := by
  rw [runHead_eq_match, runHead_eq_match, h]

theorem runAddHead_congr {k : String} (v : Value) {cur cur' : List (String × Value)}
    (path : String) (h : containsStr cur k = containsStr cur' k) :
    runAddHead k v cur path = runAddHead k v cur' path := by
  rw [runAddHead_eq_match, runAddHead_eq_match, h]

theorem runLoop1_congr : ∀ (A : List (String × Value))
    {des des' : List (String × Value)} (path : String),
    (∀ p ∈ A, lookupStr des p.1 = lookupStr des' p.1) →
    runLoop1 A des path = runLoop1 A des' path := by
  intro A
  induction A with
  | nil => intro des des' path h; rw [runLoop1_nil, runLoop1_nil]
  | cons p rest ih =>
    intro des des' path h
    obtain ⟨k, v⟩ := p
    rw [runLoop1_cons, runLoop1_cons,
      runHead_congr v path (h (k, v) (List.mem_cons_self _ _)),
      ih path (fun q hq => h q (List.mem_cons_of_mem _ hq))]

theorem runLoop2_congr : ∀ (B : List (String × Value))
    {cur cur' : List (String × Value)} (path : String),
    (∀ p ∈ B, containsStr cur p.1 = containsStr cur' p.1) →
    runLoop2 B cur path = runLoop2 B cur' path := by
  intro B
  induction B with
  | nil => intro cur cur' path h; rw [runLoop2_nil, runLoop2_nil]
  | cons p rest ih =>
    intro cur cur' path h
    obtain ⟨k, v⟩ := p
    rw [runLoop2_cons, runLoop2_cons,
      runAddHead_congr v path (h (k, v) (List.mem_cons_self _ _)),
      ih path (fun q hq => h q (List.mem_cons_of_mem _ hq))]

theorem runLoop1_append : ∀ (X Y des : List (String × Value)) (path : String),
    runLoop1 (X ++ Y) des path =
      (runLoop1 X des path).bind
        (fun dx => (runLoop1 Y des path).map (fun dy => dx.app dy)) := by
  intro X
  induction X with
  | nil =>
    intro Y des path
    rw [List.nil_append, runLoop1_nil]
    cases runLoop1 Y des path <;> simp [Diff.empty_app]
  | cons p rest ih =>
    intro Y des path
    obtain ⟨k, v⟩ := p
    rw [List.cons_append, runLoop1_cons, runLoop1_cons, ih]
    cases runHead k v des path <;>
      cases runLoop1 rest des path <;>
      cases runLoop1 Y des path <;>
      simp [Diff.app_assoc]

theorem runLoop2_append : ∀ (X Y cur : List (String × Value)) (path : String),
    runLoop2 (X ++ Y) cur path =
      (runLoop2 X cur path).bind
        (fun dx => (runLoop2 Y cur path).map (fun dy => dx.app dy)) := by
  intro X
  induction X with
  | nil =>
    intro Y cur path
    rw [List.nil_append, runLoop2_nil]
    cases runLoop2 Y cur path <;> simp [Diff.empty_app]
  | cons p rest ih =>
    intro Y cur path
    obtain ⟨k, v⟩ := p
    rw [List.cons_append, runLoop2_cons, runLoop2_cons, ih]
    cases runAddHead k v cur path <;>
      cases runLoop2 rest cur path <;>
      cases runLoop2 Y cur path <;>
      simp [Diff.app_assoc]

/-- `compare_state_lists` on two non-empty lists: pick the identity key,
build both identity dictionaries, emit the unmatched whole-element records
and then the matched-pair comparisons. -/
theorem csl_decomp (c0 : Value) (cl' : List Value) (d0 : Value) (dl' : List Value)
    (path : String) :
    compare_state_lists (c0 :: cl') (d0 :: dl') path =
      match uniqueKey c0 with
      | none => none
      | some uk =>
        match buildStateDict (c0 :: cl') uk, buildStateDict (d0 :: dl') uk with
        | some cs, some ds =>
            (runCslPairs cs ds path).map
              (fun dp => Diff.app ⟨removedRecs cs ds path, addedRecs ds cs path, []⟩ dp)
        | _, _ => none := by
  rw [@compare_state_lists_eq_cslF (c0 :: cl') (d0 :: dl') path
    (3 * (sizeElems (c0 :: cl') + sizeElems (d0 :: dl')) + 3) (by omega)]
  show resOpt (cslKeyed (3 * (sizeElems (c0 :: cl') + sizeElems (d0 :: dl')) + 2)
    (c0 :: cl') (d0 :: dl') c0 path) = _
  simp only [cslKeyed]
  cases huk : uniqueKey c0 with
  | none => rfl
  | some uk =>
    show resOpt (cslBuilt (3 * (sizeElems (c0 :: cl') + sizeElems (d0 :: dl')) + 1)
      (buildStateDict (c0 :: cl') uk) (buildStateDict (d0 :: dl') uk) path) =
      match buildStateDict (c0 :: cl') uk, buildStateDict (d0 :: dl') uk with
      | some cs, some ds =>
          (runCslPairs cs ds path).map
            (fun dp => Diff.app ⟨removedRecs cs ds path, addedRecs ds cs path, []⟩ dp)
      | _, _ => none
    cases hbc : buildStateDict (c0 :: cl') uk with
    | none => rfl
    | some cs =>
      cases hbd : buildStateDict (d0 :: dl') uk with
      | none => rfl
      | some ds =>
        show resOpt (Res.merge
          (.ok ⟨removedRecs cs ds path, addedRecs ds cs path, []⟩)
          (cslPairs (3 * (sizeElems (c0 :: cl') + sizeElems (d0 :: dl')))
            cs ds path)) = _
        rw [resOpt_merge]
        have hc := buildStateDictAux_bound (c0 :: cl') uk [] cs hbc
        have hd := buildStateDictAux_bound (d0 :: dl') uk [] ds hbd
        simp [entriesSizes] at hc hd
        rw [← @runCslPairs_eq cs ds path
          (3 * (sizeElems (c0 :: cl') + sizeElems (d0 :: dl'))) (by omega)]
        cases hrp : runCslPairs cs ds path with
        | none => simp [hrp]
        | some dp => simp [hrp, resOpt]

theorem runCslPairs_nil (ds : List (Value × List (String × Value))) (path : String) :
    runCslPairs [] ds path = some emptyDiff := by
  rfl

theorem runCslPairs_cons (kv : Value) (ce : List (String × Value))
    (cs' ds : List (Value × List (String × Value))) (path : String) :
    runCslPairs ((kv, ce) :: cs') ds path =
      (runPairHead kv ce ds path).bind
        (fun h => (runCslPairs cs' ds path).map (fun t => h.app t)) := by
  have hsz : entriesSizes ((kv, ce) :: cs') = sizeEnt ce + entriesSizes cs' := rfl
  have hln : ((kv, ce) :: cs').length = cs'.length + 1 := rfl
  rw [@runCslPairs_eq ((kv, ce) :: cs') ds path
    (((kv, ce) :: cs').length + 3 * entriesSizes ((kv, ce) :: cs')
      + ds.length + 3 * entriesSizes ds + 2) (by omega)]
  rw [show cslPairs (((kv, ce) :: cs').length + 3 * entriesSizes ((kv, ce) :: cs')
      + ds.length + 3 * entriesSizes ds + 2) ((kv, ce) :: cs') ds path =
    Res.merge (cslPairHead (((kv, ce) :: cs').length + 3 * entriesSizes ((kv, ce) :: cs')
        + ds.length + 3 * entriesSizes ds + 1) kv ce ds path)
      (cslPairs (((kv, ce) :: cs').length + 3 * entriesSizes ((kv, ce) :: cs')
        + ds.length + 3 * entriesSizes ds + 1) cs' ds path) from rfl]
  have hce := sizeEnt_pos ce
  rw [resOpt_merge, ← @runPairHead_eq kv ce ds path _ (by omega),
    ← @runCslPairs_eq cs' ds path _ (by omega)]

/-- One matched identity value: nothing if the value is absent from the
desired dictionary or the two elements are equal, else a recursive mapping
comparison at the bracketed path. -/
theorem runPairHead_eq_match (kv : Value) (ce : List (String × Value))
    (ds : List (Value × List (String × Value))) (path : String) :
    runPairHead kv ce ds path =
      match pyLookup ds kv with
      | none => some emptyDiff
      | some de =>
          if pyEq (.dict ce) (.dict de) then some emptyDiff
          else compare_state_dicts ce de (bracketPath path kv) := by
  rw [@runPairHead_eq kv ce ds path
    (3 * sizeEnt ce + 3 * entriesSizes ds + 2) (by omega)]
  show resOpt (match pyLookup ds kv with
    | some de =>
        if pyEq (.dict ce) (.dict de) then Res.ok emptyDiff
        else csdF (3 * sizeEnt ce + 3 * entriesSizes ds + 1) ce de (bracketPath path kv)
    | none => Res.ok emptyDiff) = _
  cases h : pyLookup ds kv with
  | none => rfl
  | some de =>
    have hde := pyLookup_entriesSizes h
    show resOpt (if pyEq (.dict ce) (.dict de) then Res.ok emptyDiff
      else csdF (3 * sizeEnt ce + 3 * entriesSizes ds + 1) ce de (bracketPath path kv)) =
      (if pyEq (.dict ce) (.dict de) then some emptyDiff
       else compare_state_dicts ce de (bracketPath path kv))
    cases hpe : pyEq (.dict ce) (.dict de) with
    | true => simp [hpe, resOpt]
    | false =>
      rw [if_neg (by simp [hpe]), if_neg (by simp [hpe])]
      rw [@compare_state_dicts_eq_csdF ce de (bracketPath path kv)
        (3 * sizeEnt ce + 3 * entriesSizes ds + 1) (by omega)]
      cases csdF (3 * sizeEnt ce + 3 * entriesSizes ds + 1) ce de
        (bracketPath path kv) <;> rfl

theorem runPairHead_congr (kv : Value) (ce : List (String × Value))
    {ds ds' : List (Value × List (String × Value))} (path : String)
    (h : pyLookup ds kv = pyLookup ds' kv) :
    runPairHead kv ce ds path = runPairHead kv ce ds' path := by
  rw [runPairHead_eq_match, runPairHead_eq_match, h]

theorem runCslPairs_congr : ∀ (cs : List (Value × List (String × Value)))
    {ds ds' : List (Value × List (String × Value))} (path : String),
    (∀ q ∈ cs, pyLookup ds q.1 = pyLookup ds' q.1) →
    runCslPairs cs ds path = runCslPairs cs ds' path := by
  intro cs
  induction cs with
  | nil => intro ds ds' path h; rw [runCslPairs_nil, runCslPairs_nil]
  | cons q rest ih =>
    intro ds ds' path h
    obtain ⟨kv, ce⟩ := q
    rw [runCslPairs_cons, runCslPairs_cons,
      runPairHead_congr kv ce path (h (kv, ce) (List.mem_cons_self _ _)),
      ih path (fun q hq => h q (List.mem_cons_of_mem _ hq))]

theorem runCslPairs_append : ∀ (X Y ds : List (Value × List (String × Value)))
    (path : String),
    runCslPairs (X ++ Y) ds path =
      (runCslPairs X ds path).bind
        (fun dx => (runCslPairs Y ds path).map (fun dy => dx.app dy)) := by
  intro X
  induction X with
  | nil =>
    intro Y ds path
    rw [List.nil_append, runCslPairs_nil]
    cases runCslPairs Y ds path <;> simp [Diff.empty_app]
  | cons q rest ih =>
    intro Y ds path
    obtain ⟨kv, ce⟩ := q
    rw [List.cons_append, runCslPairs_cons, runCslPairs_cons, ih]
    cases runPairHead kv ce ds path <;>
      cases runCslPairs rest ds path <;>
      cases runCslPairs Y ds path <;>
      simp [Diff.app_assoc]

theorem pyEq_scalar_trans {a b c : Value} (ha : hashable a = true)
    (hb : hashable b = true) (hc : hashable c = true)
    (hab : pyEq a b = true) (hbc : pyEq b c = true) : pyEq a c = true := by
  cases a <;> cases b <;> cases c <;>
    (try (simp_all [hashable, pyEq, pyEqF, sizeVal] <;>
      (try split_ifs at * <;> simp_all) <;> (try omega); done)) <;>
    (rename_i x n y; cases x <;> cases y <;> simp_all [pyEq, pyEqF, sizeVal])

theorem lookupStr_append (X Y : List (String × Value)) (k : String) :
    lookupStr (X ++ Y) k =
      match lookupStr X k with
      | some v => some v
      | none => lookupStr Y k := by
  induction X with
  | nil => simp [lookupStr]
  | cons p rest ih =>
    obtain ⟨k0, v0⟩ := p
    simp only [List.cons_append, lookupStr]
    by_cases hk : (k == k0) = true
    · simp [hk]
    · simp only [Bool.not_eq_true] at hk
      simp [hk, ih]

theorem containsStr_append (X Y : List (String × Value)) (k : String) :
    containsStr (X ++ Y) k = (containsStr X k || containsStr Y k) := by
  unfold containsStr
  rw [lookupStr_append]
  cases lookupStr X k <;> simp

/-- A successful string lookup splits the dictionary at the first binding
of the key. -/
theorem lookupStr_split {B : List (String × Value)} {k : String} {w : Value}
    (h : lookupStr B k = some w) :
    ∃ B₁ B₂, B = B₁ ++ (k, w) :: B₂ ∧ ∀ p ∈ B₁, (k == p.1) = false := by
  induction B with
  | nil => simp [lookupStr] at h
  | cons p rest ih =>
    obtain ⟨k0, v0⟩ := p
    simp only [lookupStr] at h
    by_cases hk : (k == k0) = true
    · have hke : k = k0 := eq_of_beq hk
      simp [hk] at h
      subst hke; subst h
      exact ⟨[], rest, rfl, by simp⟩
    · simp only [Bool.not_eq_true] at hk
      simp [hk] at h
      obtain ⟨B₁, B₂, hsplit, hB₁⟩ := ih h
      refine ⟨(k0, v0) :: B₁, B₂, by simp [hsplit], ?_⟩
      intro p hp
      rcases List.mem_cons.mp hp with h1 | h2
      · subst h1; exact hk
      · exact hB₁ p h2

theorem nodupKeys_append_middle {B₁ B₂ : List (String × Value)} {k : String} {w : Value}
    (h : nodupKeys (B₁ ++ (k, w) :: B₂) = true) :
    nodupKeys (B₁ ++ B₂) = true ∧ containsStr B₁ k = false ∧
      containsStr B₂ k = false := by
  induction B₁ with
  | nil =>
    simp only [List.nil_append, nodupKeys, Bool.and_eq_true] at h
    refine ⟨h.2, by simp [containsStr, lookupStr], ?_⟩
    have := h.1
    simp only [Bool.not_eq_true'] at this
    exact this
  | cons p rest ih =>
    obtain ⟨k0, v0⟩ := p
    simp only [List.cons_append, nodupKeys, Bool.and_eq_true] at h
    obtain ⟨hnc, hnd⟩ := h
    simp only [Bool.not_eq_true'] at hnc
    simp only [List.append_eq] at hnc hnd
    rw [containsStr_append] at hnc
    simp only [Bool.or_eq_false_iff] at hnc
    have hc2 : containsStr ((k, w) :: B₂) k0 = false := hnc.2
    have hkk0 : (k0 == k) = false := by
      cases hb : (k0 == k) with
      | false => rfl
      | true =>
        exfalso
        simp [containsStr, lookupStr, hb] at hc2
    have hcB₂ : containsStr B₂ k0 = false := by
      simp [containsStr, lookupStr, hkk0] at hc2
      simp [containsStr, hc2]
    obtain ⟨ih1, ih2, ih3⟩ := ih hnd
    refine ⟨?_, ?_, ih3⟩
    · simp only [List.cons_append, nodupKeys, Bool.and_eq_true]
      refine ⟨?_, ih1⟩
      simp only [List.append_eq]
      rw [containsStr_append]
      simp [hnc.1, hcB₂]
    · have hkk : (k == k0) = false := by
        cases hb : (k == k0) with
        | false => rfl
        | true => rw [eq_of_beq hb] at hkk0; simp at hkk0
      simp [containsStr, lookupStr, hkk]
      have := ih2
      simp [containsStr] at this
      exact this

theorem wfE_append (X Y : List (String × Value)) :
    wfE (X ++ Y) = (wfE X && wfE Y) := by
  induction X with
  | nil => simp [wfE]
  | cons p rest ih =>
    obtain ⟨k0, v0⟩ := p
    simp only [List.cons_append]
    show (wfV v0 && wfE (rest ++ Y)) = (wfV v0 && wfE rest && wfE Y)
    rw [ih, Bool.and_assoc]

def Value.isDict : Value → Bool
  | .dict _ => true
  | _ => false

theorem sizeEnt_append (X Y : List (String × Value)) :
    sizeEnt (X ++ Y) + 1 = sizeEnt X + sizeEnt Y := by
  induction X with
  | nil => simp [sizeEnt]; omega
  | cons p rest ih =>
    obtain ⟨k, v⟩ := p
    show sizeEnt ((k, v) :: (rest ++ Y)) + 1 = sizeEnt ((k, v) :: rest) + sizeEnt Y
    have h1 : sizeEnt ((k, v) :: (rest ++ Y)) = 2 + sizeVal v + sizeEnt (rest ++ Y) := rfl
    have h2 : sizeEnt ((k, v) :: rest) = 2 + sizeVal v + sizeEnt rest := rfl
    omega

theorem key_ne_of_contains_false {l : List (String × Value)} {k : String}
    (h : containsStr l k = false) : ∀ p ∈ l, (k == p.1) = false := by
  intro p hp
  cases hb : (k == p.1) with
  | false => rfl
  | true =>
    exfalso
    obtain ⟨k0, v0⟩ := p
    have : k = k0 := eq_of_beq hb
    subst this
    rw [containsStr_of_mem hp] at h
    exact Bool.true_eq_false.mp h

theorem lookupStr_not_mem {B : List (String × Value)} {k : String}
    (h : lookupStr B k = none) : ∀ p ∈ B, (k == p.1) = false := by
  apply key_ne_of_contains_false
  simp [containsStr, h]

theorem lookupStr_skip_middle {B₁ B₂ : List (String × Value)} {k : String} {w : Value}
    (k' : String) (hne : (k' == k) = false) :
    lookupStr (B₁ ++ (k, w) :: B₂) k' = lookupStr (B₁ ++ B₂) k' := by
  rw [lookupStr_append, lookupStr_append]
  cases lookupStr B₁ k' with
  | some v => rfl
  | none => simp [lookupStr, hne]

theorem containsStr_skip_middle {B₁ B₂ : List (String × Value)} {k : String} {w : Value}
    (k' : String) (hne : (k' == k) = false) :
    containsStr (B₁ ++ (k, w) :: B₂) k' = containsStr (B₁ ++ B₂) k' := by
  unfold containsStr
  rw [lookupStr_skip_middle k' hne]

theorem nodupKeys_tail {k : String} {v : Value} {rest : List (String × Value)}
    (h : nodupKeys ((k, v) :: rest) = true) :
    nodupKeys rest = true ∧ containsStr rest k = false := by
  simp only [nodupKeys, Bool.and_eq_true] at h
  refine ⟨h.2, ?_⟩
  have := h.1
  simp only [Bool.not_eq_true'] at this
  exact this

/-- Lookup in a Python dictionary returning the stored key object as well. -/
def pyLookupKey {α : Type} : List (Value × α) → Value → Option (Value × α)
  | [], _ => none
  | (k0, v0) :: rest, key =>
      if pyEq key k0 then some (k0, v0) else pyLookupKey rest key

theorem pyLookup_eq_key {α : Type} (ds : List (Value × α)) (key : Value) :
    pyLookup ds key = (pyLookupKey ds key).map Prod.snd := by
  induction ds with
  | nil => rfl
  | cons q rest ih =>
    obtain ⟨k0, v0⟩ := q
    simp only [pyLookup, pyLookupKey]
    by_cases h : pyEq key k0 = true
    · simp [h]
    · simp only [Bool.not_eq_true] at h
      simp [h, ih]

theorem pyLookupKey_mem {α : Type} {ds : List (Value × α)} {key kd : Value} {de : α}
    (h : pyLookupKey ds key = some (kd, de)) :
    (kd, de) ∈ ds ∧ pyEq key kd = true := by
  induction ds with
  | nil => simp [pyLookupKey] at h
  | cons q rest ih =>
    obtain ⟨k0, v0⟩ := q
    simp only [pyLookupKey] at h
    by_cases hk : pyEq key k0 = true
    · simp [hk] at h
      obtain ⟨h1, h2⟩ := h
      subst h1; subst h2
      exact ⟨List.mem_cons_self _ _, hk⟩
    · simp only [Bool.not_eq_true] at hk
      simp [hk] at h
      obtain ⟨h1, h2⟩ := ih h
      exact ⟨List.mem_cons_of_mem _ h1, h2⟩

theorem pyLookupKey_split {α : Type} {ds : List (Value × α)} {key kd : Value} {de : α}
    (h : pyLookupKey ds key = some (kd, de)) :
    ∃ D₁ D₂, ds = D₁ ++ (kd, de) :: D₂ ∧ ∀ q ∈ D₁, pyEq key q.1 = false := by
  induction ds with
  | nil => simp [pyLookupKey] at h
  | cons q rest ih =>
    obtain ⟨k0, v0⟩ := q
    simp only [pyLookupKey] at h
    by_cases hk : pyEq key k0 = true
    · simp [hk] at h
      obtain ⟨h1, h2⟩ := h
      subst h1; subst h2
      exact ⟨[], rest, rfl, by simp⟩
    · simp only [Bool.not_eq_true] at hk
      simp [hk] at h
      obtain ⟨D₁, D₂, hsplit, hD₁⟩ := ih h
      refine ⟨(k0, v0) :: D₁, D₂, by simp [hsplit], ?_⟩
      intro p hp
      rcases List.mem_cons.mp hp with h1 | h2
      · subst h1; exact hk
      · exact hD₁ p h2

theorem pyLookup_isSome_of_pyEq_mem {α : Type} {ds : List (Value × α)}
    {key : Value} {q : Value × α} (hm : q ∈ ds) (he : pyEq key q.1 = true) :
    (pyLookup ds key).isSome = true := by
  induction ds with
  | nil => simp at hm
  | cons p rest ih =>
    obtain ⟨k0, v0⟩ := p
    by_cases hk : pyEq key k0 = true
    · simp [pyLookup, hk]
    · simp only [Bool.not_eq_true] at hk
      rcases List.mem_cons.mp hm with h1 | h2
      · subst h1; rw [he] at hk; cases hk
      · simp [pyLookup, hk]
        have := ih h2
        cases hl : pyLookup rest key with
        | none => rw [hl] at this; simp at this
        | some v => simp

theorem pyLookupKey_skip_middle {α : Type} {D₁ D₂ : List (Value × α)}
    {kd : Value} {de : α} (key : Value) (hne : pyEq key kd = false) :
    pyLookupKey (D₁ ++ (kd, de) :: D₂) key = pyLookupKey (D₁ ++ D₂) key := by
  induction D₁ with
  | nil => simp [pyLookupKey, hne]
  | cons q rest ih =>
    obtain ⟨k0, v0⟩ := q
    simp only [List.cons_append, pyLookupKey]
    by_cases hk : pyEq key k0 = true
    · simp [hk]
    · simp only [Bool.not_eq_true] at hk
      simp [hk, ih]

theorem pyLookup_skip_middle {α : Type} {D₁ D₂ : List (Value × α)}
    {kd : Value} {de : α} (key : Value) (hne : pyEq key kd = false) :
    pyLookup (D₁ ++ (kd, de) :: D₂) key = pyLookup (D₁ ++ D₂) key := by
  rw [pyLookup_eq_key, pyLookup_eq_key, pyLookupKey_skip_middle key hne]

/-- With pairwise distinct hashable keys, looking up any Python-equal scalar
finds the unique matching binding. -/
theorem pyLookupKey_of_mem {α : Type} {ds : List (Value × α)} {kd kc : Value} {de : α}
    (hdist : keysDistinct ds) (hks : ∀ q ∈ ds, hashable q.1 = true)
    (hm : (kd, de) ∈ ds) (hck : pyEq kc kd = true) (hhc : hashable kc = true) :
    pyLookupKey ds kc = some (kd, de) := by
  induction ds with
  | nil => simp at hm
  | cons q rest ih =>
    obtain ⟨k0, v0⟩ := q
    have hd' := List.pairwise_cons.mp hdist
    rcases List.mem_cons.mp hm with h1 | h2
    · obtain ⟨hk1, hv1⟩ := Prod.mk.injEq .. ▸ h1
      subst hk1; subst hv1
      simp [pyLookupKey, hck]
    · have hk0 : hashable k0 = true := hks (k0, v0) (List.mem_cons_self _ _)
      have hkd : hashable kd = true := hks (kd, de) (List.mem_cons_of_mem _ h2)
      by_cases hk : pyEq kc k0 = true
      · exfalso
        have h0c : pyEq k0 kc = true := by
          rw [pyEq_scalar_symm hk0 hhc]; exact hk
        have h0d : pyEq k0 kd = true := pyEq_scalar_trans hk0 hhc hkd h0c hck
        have := (hd'.1 (kd, de) h2).1
        rw [h0d] at this
        cases this
      · simp only [Bool.not_eq_true] at hk
        simp [pyLookupKey, hk]
        exact ih hd'.2 (fun p hp => hks p (List.mem_cons_of_mem _ hp)) h2

theorem csd_empty_current_run (e : List (String × Value)) (path : String) :
    compare_state_dicts [] e path = some ⟨[], addedLeavesEnt path e, []⟩ := by
  have hb : 3 * (sizeEnt ([] : List (String × Value)) + sizeEnt e) ≤
      3 * (sizeEnt ([] : List (String × Value)) + sizeEnt e) := Nat.le_refl _
  rw [@compare_state_dicts_eq_csdF [] e path _ hb]
  have hne := (noTimeout _).1 [] e path hb
  rcases (csdF_empty_current _).1 e path with h | h
  · exact absurd h hne
  · rw [h]

/-- When every value of a mapping is a non-mapping, its added leaves are one
whole-value record per key. -/
theorem addedLeavesEnt_nondict : ∀ (e : List (String × Value)) (path : String),
    (∀ p ∈ e, p.2.isDict = false) →
    addedLeavesEnt path e =
      e.map (fun p => ⟨childPath path p.1, none, some p.2, none⟩) := by
  intro e
  induction e with
  | nil => intro path h; rfl
  | cons p rest ih =>
    intro path h
    obtain ⟨k, v⟩ := p
    have hv := h (k, v) (List.mem_cons_self _ _)
    show addedLeavesVal (childPath path k) v ++ addedLeavesEnt path rest = _
    rw [ih path (fun q hq => h q (List.mem_cons_of_mem _ hq))]
    cases v <;> simp_all [Value.isDict, addedLeavesVal]

/-- Comparing against an empty desired mapping removes every current key as
one whole-subtree record. -/
theorem csd_empty_desired_run : ∀ (cur : List (String × Value)) (path : String),
    compare_state_dicts cur [] path =
      some ⟨cur.map (fun p => ⟨childPath path p.1, some p.2, none, none⟩), [], []⟩ := by
  intro cur
  induction cur with
  | nil =>
    intro path
    rw [csd_decomp, runLoop1_nil, runLoop2_nil]
    rfl
  | cons p rest ih =>
    intro path
    obtain ⟨k, v⟩ := p
    rw [csd_decomp, runLoop1_cons, runHead_eq_match]
    have hlk : lookupStr ([] : List (String × Value)) k = none := rfl
    rw [hlk]
    have hrest := ih path
    rw [csd_decomp] at hrest
    cases h1 : runLoop1 rest [] path with
    | none => rw [h1] at hrest; simp at hrest
    | some d1 =>
      rw [h1] at hrest
      rw [runLoop2_nil] at hrest ⊢
      simp [Diff.app_empty] at hrest
      subst hrest
      simp [Diff.app, Diff.app_empty, emptyDiff]

/-- Matching every desired element against an empty current dictionary
produces nothing. -/
theorem runCslPairs_nil_right : ∀ (ds : List (Value × List (String × Value)))
    (path : String), runCslPairs ds [] path = some emptyDiff := by
  intro ds
  induction ds with
  | nil => intro path; exact runCslPairs_nil [] path
  | cons q rest ih =>
    intro path
    obtain ⟨kv, ce⟩ := q
    rw [runCslPairs_cons, runPairHead_eq_match]
    have h : pyLookup ([] : List (Value × List (String × Value))) kv = none := rfl
    rw [h, ih]
    rfl

theorem flipItem_removedRec (p : String) (v : Value) :
    flipItem ⟨p, some v, none, none⟩ = ⟨p, none, some v, none⟩ := rfl

theorem flipItem_addedRec (p : String) (v : Value) :
    flipItem ⟨p, none, some v, none⟩ = ⟨p, some v, none, none⟩ := rfl

theorem map_flip_removedRecs (cs ds : List (Value × List (String × Value)))
    (path : String) :
    List.map flipItem (removedRecs cs ds path) = addedRecs cs ds path := by
  induction cs with
  | nil => rfl
  | cons p rest ih =>
    cases hc : pyContains ds p.1 <;>
      simp_all [removedRecs, addedRecs, List.filterMap_cons, flipItem]

theorem map_flip_addedRecs (ds cs : List (Value × List (String × Value)))
    (path : String) :
    List.map flipItem (addedRecs ds cs path) = removedRecs ds cs path := by
  induction ds with
  | nil => rfl
  | cons p rest ih =>
    cases hc : pyContains cs p.1 <;>
      simp_all [removedRecs, addedRecs, List.filterMap_cons, flipItem]

theorem msetR_middle (X Y : List DiffItem) (a : DiffItem) :
    msetR (X ++ a :: Y) = a ::ₘ msetR (X ++ Y) := by
  show (↑(X ++ a :: Y) : Multiset DiffItem) = a ::ₘ ↑(X ++ Y)
  rw [Multiset.cons_coe]
  exact Multiset.coe_eq_coe.mpr List.perm_middle

theorem msetR_map (f : DiffItem → DiffItem) (l : List DiffItem) :
    Multiset.map f (msetR l) = msetR (l.map f) := by
  simp [msetR]

theorem strBeq_comm (a b : String) : (a == b) = (b == a) := by
  by_cases h : a = b
  · subst h; rfl
  · have h' : ¬ (b = a) := fun hh => h hh.symm
    simp [beq_eq_false_iff_ne, h, h']

theorem list_all_imp {α : Type} {l : List α} {f g : α → Bool}
    (h : ∀ a ∈ l, f a = true → g a = true) (hl : l.all f = true) :
    l.all g = true := by
  rw [List.all_eq_true] at hl ⊢
  exact fun a ha => h a ha (hl a ha)

/- Sufficient conditions for the two diff directions to be mirror images:
either side's key absent from the other must carry a non-mapping value (a
mapping decomposes into leaves on the added side but stays whole on the
removed side), keys matched across two sequences must render identically in
paths, and the conditions recurse through matched mappings and sequences. -/
mutual
def symVF : Nat → Value → Value → Bool
  | 0, _, _ => false
  | fuel + 1, .dict ce, .dict de => symEF fuel ce de
  | fuel + 1, .list cl, .list dl => symLF fuel cl dl
  | _ + 1, _, _ => true

def symEF : Nat → List (String × Value) → List (String × Value) → Bool
  | 0, _, _ => false
  | fuel + 1, A, B =>
      A.all (fun p => match lookupStr B p.1 with
        | some w => symVF fuel p.2 w
        | none => ! p.2.isDict) &&
      B.all (fun p => match lookupStr A p.1 with
        | some _ => true
        | none => ! p.2.isDict)

def symLF : Nat → List Value → List Value → Bool
  | 0, _, _ => false
  | _ + 1, [], [] => false
  | _ + 1, [], _ :: _ => true
  | _ + 1, _ :: _, [] => true
  | fuel + 1, c0 :: cl', d0 :: dl' =>
      match uniqueKey c0, uniqueKey d0 with
      | some uk, some uk' =>
          (uk == uk') && symBuildF fuel (buildStateDict (c0 :: cl') uk)
            (buildStateDict (d0 :: dl') uk)
      | _, _ => false

def symBuildF : Nat → Option (List (Value × List (String × Value))) →
    Option (List (Value × List (String × Value))) → Bool
  | 0, _, _ => false
  | fuel + 1, some cs, some ds => symPairsF fuel cs ds
  | _ + 1, _, _ => true

def symPairsF : Nat → List (Value × List (String × Value)) →
    List (Value × List (String × Value)) → Bool
  | 0, _, _ => false
  | fuel + 1, cs, ds =>
      cs.all (fun p => match pyLookupKey ds p.1 with
        | some q => (pyStr p.1 == pyStr q.1) &&
            (pyEq (.dict p.2) (.dict q.2) || symEF fuel p.2 q.2)
        | none => true)
end

theorem symMono : ∀ fuel,
    (∀ v w, symVF fuel v w = true → symVF (fuel + 1) v w = true) ∧
    (∀ A B, symEF fuel A B = true → symEF (fuel + 1) A B = true) ∧
    (∀ cl dl, symLF fuel cl dl = true → symLF (fuel + 1) cl dl = true) ∧
    (∀ ocs ods, symBuildF fuel ocs ods = true → symBuildF (fuel + 1) ocs ods = true) ∧
    (∀ cs ds, symPairsF fuel cs ds = true → symPairsF (fuel + 1) cs ds = true) := by
  intro fuel
  induction fuel with
  | zero =>
    refine ⟨?_, ?_, ?_, ?_, ?_⟩
    · intro v w h; exact absurd h (by simp [symVF])
    · intro A B h; exact absurd h (by simp [symEF])
    · intro cl dl h; exact absurd h (by simp [symLF])
    · intro ocs ods h; exact absurd h (by simp [symBuildF])
    · intro cs ds h; exact absurd h (by simp [symPairsF])
  | succ fuel ih =>
    obtain ⟨ihV, ihE, ihL, ihB, ihP⟩ := ih
    refine ⟨?_, ?_, ?_, ?_, ?_⟩
    · intro v w h
      cases v <;> cases w <;> first
        | exact h
        | (rename_i ce de; exact ihE ce de h)
        | (rename_i cl dl; exact ihL cl dl h)
    · intro A B h
      have h' : (A.all (fun p => match lookupStr B p.1 with
          | some w => symVF fuel p.2 w
          | none => ! p.2.isDict) &&
        B.all (fun p => match lookupStr A p.1 with
          | some _ => true
          | none => ! p.2.isDict)) = true := h
      show (A.all (fun p => match lookupStr B p.1 with
          | some w => symVF (fuel + 1) p.2 w
          | none => ! p.2.isDict) &&
        B.all (fun p => match lookupStr A p.1 with
          | some _ => true
          | none => ! p.2.isDict)) = true
      rw [Bool.and_eq_true] at h' ⊢
      refine ⟨list_all_imp ?_ h'.1, h'.2⟩
      intro p hp
      cases hl : lookupStr B p.1 with
      | none => exact fun x => x
      | some w => exact ihV p.2 w
    · intro cl dl h
      match cl, dl with
      | [], [] => exact absurd h (by simp [symLF])
      | [], d0 :: dl' => rfl
      | c0 :: cl', [] => rfl
      | c0 :: cl', d0 :: dl' =>
        cases huk : uniqueKey c0 with
        | none =>
          exfalso
          have h' : symLF (fuel + 1) (c0 :: cl') (d0 :: dl') = true := h
          rw [show symLF (fuel + 1) (c0 :: cl') (d0 :: dl') =
            (match uniqueKey c0, uniqueKey d0 with
             | some uk, some uk' =>
                 (uk == uk') && symBuildF fuel (buildStateDict (c0 :: cl') uk)
                   (buildStateDict (d0 :: dl') uk)
             | _, _ => false) from rfl, huk] at h'
          cases huk' : uniqueKey d0 <;> rw [huk'] at h' <;> simp at h'
        | some uk =>
          cases huk' : uniqueKey d0 with
          | none =>
            exfalso
            have h' : symLF (fuel + 1) (c0 :: cl') (d0 :: dl') = true := h
            rw [show symLF (fuel + 1) (c0 :: cl') (d0 :: dl') =
              (match uniqueKey c0, uniqueKey d0 with
               | some uk, some uk' =>
                   (uk == uk') && symBuildF fuel (buildStateDict (c0 :: cl') uk)
                     (buildStateDict (d0 :: dl') uk)
               | _, _ => false) from rfl, huk, huk'] at h'
            simp at h'
          | some uk' =>
            have h' : symLF (fuel + 1) (c0 :: cl') (d0 :: dl') = true := h
            rw [show symLF (fuel + 1) (c0 :: cl') (d0 :: dl') =
              (match uniqueKey c0, uniqueKey d0 with
               | some uk, some uk' =>
                   (uk == uk') && symBuildF fuel (buildStateDict (c0 :: cl') uk)
                     (buildStateDict (d0 :: dl') uk)
               | _, _ => false) from rfl, huk, huk'] at h'
            show (match uniqueKey c0, uniqueKey d0 with
              | some uk, some uk' =>
                  (uk == uk') && symBuildF (fuel + 1) (buildStateDict (c0 :: cl') uk)
                    (buildStateDict (d0 :: dl') uk)
              | _, _ => false) = true
            rw [huk, huk']
            have h2 : ((uk == uk') && symBuildF fuel (buildStateDict (c0 :: cl') uk)
              (buildStateDict (d0 :: dl') uk)) = true := h'
            show ((uk == uk') && symBuildF (fuel + 1) (buildStateDict (c0 :: cl') uk)
              (buildStateDict (d0 :: dl') uk)) = true
            rw [Bool.and_eq_true] at h2 ⊢
            exact ⟨h2.1, ihB _ _ h2.2⟩
    · intro ocs ods h
      match ocs, ods with
      | some cs, some ds => exact ihP cs ds h
      | none, _ => rfl
      | some _, none => rfl
    · intro cs ds h
      have h' : (cs.all (fun p => match pyLookupKey ds p.1 with
          | some q => (pyStr p.1 == pyStr q.1) &&
              (pyEq (.dict p.2) (.dict q.2) || symEF fuel p.2 q.2)
          | none => true)) = true := h
      show (cs.all (fun p => match pyLookupKey ds p.1 with
          | some q => (pyStr p.1 == pyStr q.1) &&
              (pyEq (.dict p.2) (.dict q.2) || symEF (fuel + 1) p.2 q.2)
          | none => true)) = true
      refine list_all_imp ?_ h'
      intro p hp
      cases hq : pyLookupKey ds p.1 with
      | none => exact fun x => x
      | some q =>
        intro hx
        rw [Bool.and_eq_true] at hx ⊢
        refine ⟨hx.1, ?_⟩
        rw [Bool.or_eq_true] at hx ⊢
        rcases hx.2 with h1 | h2
        · exact Or.inl h1
        · exact Or.inr (ihE _ _ h2)

theorem symEF_le {fuel fuel' : Nat} (hle : fuel ≤ fuel')
    {A B : List (String × Value)} (h : symEF fuel A B = true) :
    symEF fuel' A B = true := by
  induction fuel', hle using Nat.le_induction with
  | base => exact h
  | succ fuel' hle ih => exact (symMono fuel').2.1 A B ih

theorem symLF_le {fuel fuel' : Nat} (hle : fuel ≤ fuel')
    {cl dl : List Value} (h : symLF fuel cl dl = true) :
    symLF fuel' cl dl = true := by
  induction fuel', hle using Nat.le_induction with
  | base => exact h
  | succ fuel' hle ih => exact (symMono fuel').2.2.1 cl dl ih

theorem symEF_unfold (fuel : Nat) (A B : List (String × Value)) :
    symEF (fuel + 1) A B =
      (A.all (fun p => match lookupStr B p.1 with
        | some w => symVF fuel p.2 w
        | none => ! p.2.isDict) &&
      B.all (fun p => match lookupStr A p.1 with
        | some _ => true
        | none => ! p.2.isDict)) := rfl

/-- Dropping a current-state key that is absent from the desired state
preserves the symmetry conditions. -/
theorem symEF_drop_absent {fuel : Nat} {k : String} {v : Value}
    {A' B : List (String × Value)}
    (h : symEF fuel ((k, v) :: A') B = true)
    (hB : containsStr B k = false) (hA' : containsStr A' k = false) :
    symEF fuel A' B = true := by
  cases fuel with
  | zero => exact absurd h (by simp [symEF])
  | succ fuel =>
    rw [symEF_unfold, Bool.and_eq_true] at h ⊢
    obtain ⟨h1, h2⟩ := h
    rw [List.all_eq_true] at h1 h2
    constructor
    · rw [List.all_eq_true]
      exact fun p hp => h1 p (List.mem_cons_of_mem _ hp)
    · rw [List.all_eq_true]
      intro p hp
      have hne : (p.1 == k) = false := by
        rw [strBeq_comm]; exact key_ne_of_contains_false hB p hp
      have hl : lookupStr ((k, v) :: A') p.1 = lookupStr A' p.1 := by
        simp [lookupStr, hne]
      have := h2 p hp
      rw [hl] at this
      exact this

/-- Dropping a matched key from both sides preserves the symmetry
conditions. -/
theorem symEF_drop_matched {fuel : Nat} {k : String} {v w : Value}
    {A' B₁ B₂ : List (String × Value)}
    (h : symEF fuel ((k, v) :: A') (B₁ ++ (k, w) :: B₂) = true)
    (hA' : containsStr A' k = false)
    (hB₁ : containsStr B₁ k = false) (hB₂ : containsStr B₂ k = false) :
    symEF fuel A' (B₁ ++ B₂) = true := by
  cases fuel with
  | zero => exact absurd h (by simp [symEF])
  | succ fuel =>
    rw [symEF_unfold, Bool.and_eq_true] at h ⊢
    obtain ⟨h1, h2⟩ := h
    rw [List.all_eq_true] at h1 h2
    constructor
    · rw [List.all_eq_true]
      intro p hp
      have hne : (p.1 == k) = false := by
        rw [strBeq_comm]; exact key_ne_of_contains_false hA' p hp
      have hl : lookupStr (B₁ ++ (k, w) :: B₂) p.1 = lookupStr (B₁ ++ B₂) p.1 :=
        lookupStr_skip_middle p.1 hne
      have := h1 p (List.mem_cons_of_mem _ hp)
      rw [hl] at this
      exact this
    · rw [List.all_eq_true]
      intro p hp
      have hpB : p ∈ B₁ ++ (k, w) :: B₂ := by
        rcases List.mem_append.mp hp with h1' | h2'
        · exact List.mem_append.mpr (Or.inl h1')
        · exact List.mem_append.mpr (Or.inr (List.mem_cons_of_mem _ h2'))
      have hne : (p.1 == k) = false := by
        rw [strBeq_comm]
        rcases List.mem_append.mp hp with h1' | h2'
        · exact key_ne_of_contains_false hB₁ p h1'
        · exact key_ne_of_contains_false hB₂ p h2'
      have hl : lookupStr ((k, v) :: A') p.1 = lookupStr A' p.1 := by
        simp [lookupStr, hne]
      have := h2 p hpB
      rw [hl] at this
      exact this

theorem csl_nil_left_run (dl : List Value) (path : String) :
    compare_state_lists [] dl path =
      some ⟨[⟨path, none, none, some "Current state list is empty"⟩], [], []⟩ := by
  rw [@compare_state_lists_eq_cslF [] dl path
    (3 * (sizeElems [] + sizeElems dl) + 1) (by omega)]
  rw [cslF_current_nil]

theorem csl_nil_right_run (c0 : Value) (cl' : List Value) (path : String) :
    compare_state_lists (c0 :: cl') [] path =
      some ⟨[], [⟨path, none, none, some "Desired state list is empty"⟩], []⟩ := by
  rw [@compare_state_lists_eq_cslF (c0 :: cl') [] path
    (3 * (sizeElems (c0 :: cl') + sizeElems []) + 1) (by omega)]
  rw [cslF_desired_nil]

/-- The mirror relation between the two directions of a diff: each list of
the reverse diff is, as a multiset, the flipped opposite list of the forward
diff. -/
def diffFlipRel (dA dB : Diff) : Prop :=
  msetR dB.removed = Multiset.map flipItem (msetR dA.added) ∧
  msetR dB.added = Multiset.map flipItem (msetR dA.removed) ∧
  msetR dB.changed = Multiset.map flipItem (msetR dA.changed)

theorem msetR_app (d e : Diff) :
    msetR ((d.app e).removed) = msetR d.removed + msetR e.removed ∧
    msetR ((d.app e).added) = msetR d.added + msetR e.added ∧
    msetR ((d.app e).changed) = msetR d.changed + msetR e.changed := by
  refine ⟨?_, ?_, ?_⟩ <;> simp [Diff.app, msetR_append]

theorem diffFlipRel_of_sum {dA dB s s' t t' : Diff}
    (hs : diffFlipRel s s') (ht : diffFlipRel t t')
    (hAr : msetR dA.removed = msetR s.removed + msetR t.removed)
    (hAa : msetR dA.added = msetR s.added + msetR t.added)
    (hAc : msetR dA.changed = msetR s.changed + msetR t.changed)
    (hBr : msetR dB.removed = msetR s'.removed + msetR t'.removed)
    (hBa : msetR dB.added = msetR s'.added + msetR t'.added)
    (hBc : msetR dB.changed = msetR s'.changed + msetR t'.changed) :
    diffFlipRel dA dB := by
  obtain ⟨hs1, hs2, hs3⟩ := hs
  obtain ⟨ht1, ht2, ht3⟩ := ht
  refine ⟨?_, ?_, ?_⟩
  · rw [hBr, hAa, Multiset.map_add, hs1, ht1]
  · rw [hBa, hAr, Multiset.map_add, hs2, ht2]
  · rw [hBc, hAc, Multiset.map_add, hs3, ht3]

theorem diffFlipRel_app {a b a' b' : Diff} (h1 : diffFlipRel a a')
    (h2 : diffFlipRel b b') : diffFlipRel (a.app b) (a'.app b') :=
  diffFlipRel_of_sum h1 h2 (msetR_app a b).1 (msetR_app a b).2.1 (msetR_app a b).2.2
    (msetR_app a' b').1 (msetR_app a' b').2.1 (msetR_app a' b').2.2

theorem diffFlipRel_empty : diffFlipRel emptyDiff emptyDiff := by
  refine ⟨?_, ?_, ?_⟩ <;> simp [emptyDiff, msetR]

theorem diffFlipRel_removed_single (p : String) (v : Value) :
    diffFlipRel ⟨[⟨p, some v, none, none⟩], [], []⟩
      ⟨[], [⟨p, none, some v, none⟩], []⟩ := by
  refine ⟨?_, ?_, ?_⟩ <;> simp [msetR, flipItem]

theorem diffFlipRel_added_single (p : String) (v : Value) :
    diffFlipRel ⟨[], [⟨p, none, some v, none⟩], []⟩
      ⟨[⟨p, some v, none, none⟩], [], []⟩ := by
  refine ⟨?_, ?_, ?_⟩ <;> simp [msetR, flipItem]

theorem diffFlipRel_changed_single (p : String) (v w : Value) :
    diffFlipRel ⟨[], [], [⟨p, some v, some w, none⟩]⟩
      ⟨[], [], [⟨p, some w, some v, none⟩]⟩ := by
  refine ⟨?_, ?_, ?_⟩ <;> simp [msetR, flipItem]

theorem diffFlipRel_sentinel (path : String) :
    diffFlipRel ⟨[⟨path, none, none, some "Current state list is empty"⟩], [], []⟩
      ⟨[], [⟨path, none, none, some "Desired state list is empty"⟩], []⟩ := by
  refine ⟨?_, ?_, ?_⟩ <;> simp [msetR, flipItem]

theorem diffFlipRel_sentinel_rev (path : String) :
    diffFlipRel ⟨[], [⟨path, none, none, some "Desired state list is empty"⟩], []⟩
      ⟨[⟨path, none, none, some "Current state list is empty"⟩], [], []⟩ := by
  refine ⟨?_, ?_, ?_⟩ <;> simp [msetR, flipItem]

theorem diffFlipRel_recs (cs ds : List (Value × List (String × Value)))
    (path : String) :
    diffFlipRel ⟨removedRecs cs ds path, addedRecs ds cs path, []⟩
      ⟨removedRecs ds cs path, addedRecs cs ds path, []⟩ := by
  refine ⟨?_, ?_, ?_⟩
  · show msetR (removedRecs ds cs path) = Multiset.map flipItem (msetR (addedRecs ds cs path))
    rw [msetR_map, map_flip_addedRecs]
  · show msetR (addedRecs cs ds path) = Multiset.map flipItem (msetR (removedRecs cs ds path))
    rw [msetR_map, map_flip_removedRecs]
  · simp [msetR]

theorem entriesSizes_append (X Y : List (Value × List (String × Value))) :
    entriesSizes (X ++ Y) = entriesSizes X + entriesSizes Y := by
  induction X with
  | nil => simp [entriesSizes]
  | cons p rest ih =>
    show sizeEnt p.2 + entriesSizes (rest ++ Y) = sizeEnt p.2 + entriesSizes rest + entriesSizes Y
    omega

theorem buildStateDict_wf {items : List Value} {uk : String}
    {cs : List (Value × List (String × Value))}
    (h : buildStateDict items uk = some cs) (hwf : wfL items = true) :
    ∀ p ∈ cs, wfV (Value.dict p.2) = true := by
  intro p hp
  rcases buildStateDictAux_prov items uk [] cs h p hp with hacc | hm
  · simp at hacc
  · exact wfL_of_mem hwf hm

/-- The mirror property of the mapping differ, for inputs of bounded size. -/
def SymDictStmt (n : Nat) : Prop :=
  ∀ (fuel : Nat) (A B : List (String × Value)) (path : String) (dA dB : Diff),
    sizeEnt A + sizeEnt B ≤ n →
    nodupKeys A = true → nodupKeys B = true →
    wfE A = true → wfE B = true →
    symEF fuel A B = true →
    compare_state_dicts A B path = some dA →
    compare_state_dicts B A path = some dB →
    diffFlipRel dA dB

/-- The mirror property of the sequence differ, for inputs of bounded size. -/
def SymListStmt (n : Nat) : Prop :=
  ∀ (fuel : Nat) (cl dl : List Value) (path : String) (dA dB : Diff),
    sizeElems cl + sizeElems dl ≤ n →
    wfL cl = true → wfL dl = true →
    symLF fuel cl dl = true →
    compare_state_lists cl dl path = some dA →
    compare_state_lists dl cl path = some dB →
    diffFlipRel dA dB

theorem add_rot (a b c : Multiset DiffItem) : a + (b + c) = b + (a + c) := by
  rw [← add_assoc, add_comm a b, add_assoc]

theorem diffFlipRel_insert {s s' l1 d2 e1 l2 : Diff}
    (hs : diffFlipRel s s') (hrest : diffFlipRel (l1.app d2) (e1.app l2)) :
    diffFlipRel ((s.app l1).app d2) (e1.app (s'.app l2)) := by
  rw [Diff.app_assoc]
  refine diffFlipRel_of_sum hs hrest
    (msetR_app _ _).1 (msetR_app _ _).2.1 (msetR_app _ _).2.2 ?_ ?_ ?_
  · rw [(msetR_app e1 (s'.app l2)).1, (msetR_app s' l2).1, (msetR_app e1 l2).1]
    exact add_rot _ _ _
  · rw [(msetR_app e1 (s'.app l2)).2.1, (msetR_app s' l2).2.1, (msetR_app e1 l2).2.1]
    exact add_rot _ _ _
  · rw [(msetR_app e1 (s'.app l2)).2.2, (msetR_app s' l2).2.2, (msetR_app e1 l2).2.2]
    exact add_rot _ _ _

theorem diffFlipRel_insert2 {s s' l1 d2 u1 u2 l2 : Diff}
    (hs : diffFlipRel s s') (hrest : diffFlipRel (l1.app d2) ((u1.app u2).app l2)) :
    diffFlipRel ((s.app l1).app d2) ((u1.app (s'.app u2)).app l2) := by
  rw [Diff.app_assoc]
  refine diffFlipRel_of_sum hs hrest
    (msetR_app _ _).1 (msetR_app _ _).2.1 (msetR_app _ _).2.2 ?_ ?_ ?_
  · rw [(msetR_app (u1.app (s'.app u2)) l2).1, (msetR_app u1 (s'.app u2)).1,
      (msetR_app s' u2).1, (msetR_app (u1.app u2) l2).1, (msetR_app u1 u2).1]
    rw [add_rot (msetR u1.removed) (msetR s'.removed) (msetR u2.removed), add_assoc]
  · rw [(msetR_app (u1.app (s'.app u2)) l2).2.1, (msetR_app u1 (s'.app u2)).2.1,
      (msetR_app s' u2).2.1, (msetR_app (u1.app u2) l2).2.1, (msetR_app u1 u2).2.1]
    rw [add_rot (msetR u1.added) (msetR s'.added) (msetR u2.added), add_assoc]
  · rw [(msetR_app (u1.app (s'.app u2)) l2).2.2, (msetR_app u1 (s'.app u2)).2.2,
      (msetR_app s' u2).2.2, (msetR_app (u1.app u2) l2).2.2, (msetR_app u1 u2).2.2]
    rw [add_rot (msetR u1.changed) (msetR s'.changed) (msetR u2.changed), add_assoc]

theorem diffFlipRel_insert3 {s s' t u1 u2 : Diff}
    (hs : diffFlipRel s s') (ht : diffFlipRel t (u1.app u2)) :
    diffFlipRel (s.app t) (u1.app (s'.app u2)) := by
  refine diffFlipRel_of_sum hs ht
    (msetR_app _ _).1 (msetR_app _ _).2.1 (msetR_app _ _).2.2 ?_ ?_ ?_
  · rw [(msetR_app u1 (s'.app u2)).1, (msetR_app s' u2).1, (msetR_app u1 u2).1]
    exact add_rot _ _ _
  · rw [(msetR_app u1 (s'.app u2)).2.1, (msetR_app s' u2).2.1, (msetR_app u1 u2).2.1]
    exact add_rot _ _ _
  · rw [(msetR_app u1 (s'.app u2)).2.2, (msetR_app s' u2).2.2, (msetR_app u1 u2).2.2]
    exact add_rot _ _ _

theorem runMatched_rel_other {kp : String} {v w : Value} {h0 g0 : Diff}
    (hwv : wfV v = true) (hww : wfV w = true)
    (hnd : ∀ ce de, v = .dict ce → w = .dict de → False)
    (hnl : ∀ cl dl, v = .list cl → w = .list dl → False)
    (hfw : runMatched kp v w = some h0) (hrv : runMatched kp w v = some g0) :
    diffFlipRel h0 g0 := by
  rw [runMatched_other _ _ _ hnd hnl] at hfw
  rw [runMatched_other _ _ _ (fun ce de h1 h2 => hnd de ce h2 h1)
    (fun cl dl h1 h2 => hnl dl cl h2 h1)] at hrv
  rw [pyEq_symm hww hwv] at hrv
  cases hpe : pyEq v w with
  | true =>
    rw [if_pos hpe] at hfw
    rw [if_pos hpe] at hrv
    obtain rfl := Option.some.inj hfw
    obtain rfl := Option.some.inj hrv
    exact diffFlipRel_empty
  | false =>
    rw [if_neg (by simp [hpe])] at hfw
    rw [if_neg (by simp [hpe])] at hrv
    obtain rfl := Option.some.inj hfw
    obtain rfl := Option.some.inj hrv
    exact diffFlipRel_changed_single kp v w

/-- Matched values compared in the two directions produce mirror diffs. -/
theorem runMatched_rel {n : Nat}
    (ihD : ∀ m, m < n → SymDictStmt m) (ihL : ∀ m, m < n → SymListStmt m)
    {fuel : Nat} {v w : Value} {kp : String} {h0 g0 : Diff}
    (hszv : sizeVal v + sizeVal w ≤ n)
    (hwv : wfV v = true) (hww : wfV w = true)
    (hsymv : symVF fuel v w = true)
    (hfw : runMatched kp v w = some h0) (hrv : runMatched kp w v = some g0) :
    diffFlipRel h0 g0 := by
  cases v <;> cases w <;> first
    | (rename_i ce de
       rw [runMatched_dict] at hfw hrv
       have hce : (nodupKeys ce && wfE ce) = true := hwv
       have hde : (nodupKeys de && wfE de) = true := hww
       rw [Bool.and_eq_true] at hce hde
       cases fuel with
       | zero => exact absurd hsymv (by simp [symVF])
       | succ f =>
         have hsymE : symEF f ce de = true := hsymv
         have h1 : sizeVal (Value.dict ce) = 1 + sizeEnt ce := rfl
         have h2 : sizeVal (Value.dict de) = 1 + sizeEnt de := rfl
         exact ihD (sizeEnt ce + sizeEnt de) (by omega) f ce de kp h0 g0
           (Nat.le_refl _) hce.1 hde.1 hce.2 hde.2 hsymE hfw hrv)
    | (rename_i cl dl
       rw [runMatched_list] at hfw hrv
       have hcl : wfL cl = true := hwv
       have hdl : wfL dl = true := hww
       cases fuel with
       | zero => exact absurd hsymv (by simp [symVF])
       | succ f =>
         have hsymL : symLF f cl dl = true := hsymv
         have h1 : sizeVal (Value.list cl) = 1 + sizeElems cl := rfl
         have h2 : sizeVal (Value.list dl) = 1 + sizeElems dl := rfl
         exact ihL (sizeElems cl + sizeElems dl) (by omega) f cl dl kp h0 g0
           (Nat.le_refl _) hcl hdl hsymL hfw hrv)
    | exact runMatched_rel_other hwv hww
        (by intro ce de h1 h2; cases h1 <;> cases h2)
        (by intro cl dl h1 h2; cases h1 <;> cases h2) hfw hrv

/-- Matched identity values of two sequences produce mirror pair diffs. -/
theorem symPairs_rel {n : Nat} (ihD : ∀ m, m < n → SymDictStmt m) :
    ∀ (cs ds : List (Value × List (String × Value))) (M fuel : Nat) (path : String)
      (pA pB : Diff),
      entriesSizes cs + entriesSizes ds ≤ M → M < n →
      keysDistinct cs → keysDistinct ds →
      (∀ p ∈ cs, hashable p.1 = true) → (∀ p ∈ ds, hashable p.1 = true) →
      (∀ p ∈ cs, wfV (Value.dict p.2) = true) →
      (∀ p ∈ ds, wfV (Value.dict p.2) = true) →
      symPairsF fuel cs ds = true →
      runCslPairs cs ds path = some pA →
      runCslPairs ds cs path = some pB →
      diffFlipRel pA pB := by
  intro cs
  induction cs with
  | nil =>
    intro ds M fuel path pA pB hsz hM hdc hdd hhc hhd hwc hwd hsym hpA hpB
    rw [runCslPairs_nil] at hpA
    rw [runCslPairs_nil_right] at hpB
    obtain rfl := Option.some.inj hpA
    obtain rfl := Option.some.inj hpB
    exact diffFlipRel_empty
  | cons phead cs' ih =>
    intro ds M fuel path pA pB hsz hM hdc hdd hhc hhd hwc hwd hsym hpA hpB
    obtain ⟨kv, ce⟩ := phead
    rw [runCslPairs_cons, Option.bind_eq_some] at hpA
    obtain ⟨hA0, hhA0, hpA2⟩ := hpA
    rw [Option.map_eq_some'] at hpA2
    obtain ⟨tA, htA, hpAeq⟩ := hpA2
    rw [runPairHead_eq_match] at hhA0
    have hhkv : hashable kv = true := hhc (kv, ce) (List.mem_cons_self _ _)
    have hwce : wfV (Value.dict ce) = true := hwc (kv, ce) (List.mem_cons_self _ _)
    have hdc' : keysDistinct cs' := (List.pairwise_cons.mp hdc).2
    have hdchead := (List.pairwise_cons.mp hdc).1
    have hszcons : entriesSizes ((kv, ce) :: cs') = sizeEnt ce + entriesSizes cs' := rfl
    cases fuel with
    | zero => exact absurd hsym (by simp [symPairsF])
    | succ f =>
    have hsym' : (((kv, ce) :: cs').all (fun p => match pyLookupKey ds p.1 with
        | some q => (pyStr p.1 == pyStr q.1) &&
            (pyEq (.dict p.2) (.dict q.2) || symEF f p.2 q.2)
        | none => true)) = true := hsym
    rw [List.all_eq_true] at hsym'
    cases hq : pyLookupKey ds kv with
    | none =>
      have hplq : pyLookup ds kv = none := by rw [pyLookup_eq_key, hq]; rfl
      rw [hplq] at hhA0
      obtain rfl := Option.some.inj hhA0
      have hcongr : runCslPairs ds ((kv, ce) :: cs') path = runCslPairs ds cs' path := by
        apply runCslPairs_congr
        intro q hqm
        have hne : pyEq q.1 kv = false := by
          cases hb : pyEq q.1 kv with
          | false => rfl
          | true =>
            exfalso
            rw [pyEq_scalar_symm (hhd q hqm) hhkv] at hb
            have := pyLookup_isSome_of_pyEq_mem hqm hb
            rw [hplq] at this
            simp at this
        simp [pyLookup, hne]
      rw [hcongr] at hpB
      have hsymtail : symPairsF (f + 1) cs' ds = true := by
        show (cs'.all (fun p => match pyLookupKey ds p.1 with
          | some q => (pyStr p.1 == pyStr q.1) &&
              (pyEq (.dict p.2) (.dict q.2) || symEF f p.2 q.2)
          | none => true)) = true
        rw [List.all_eq_true]
        exact fun p hp => hsym' p (List.mem_cons_of_mem _ hp)
      have hrel := ih ds M (f + 1) path tA pB
        (by have := sizeEnt_pos ce; omega) hM hdc' hdd
        (fun p hp => hhc p (List.mem_cons_of_mem _ hp)) hhd
        (fun p hp => hwc p (List.mem_cons_of_mem _ hp)) hwd
        hsymtail htA hpB
      subst hpAeq
      rw [Diff.empty_app]
      exact hrel
    | some qhead =>
      obtain ⟨kd, de⟩ := qhead
      have hmemkd := pyLookupKey_mem hq
      have hhkd : hashable kd = true := hhd (kd, de) hmemkd.1
      have hwde : wfV (Value.dict de) = true := hwd (kd, de) hmemkd.1
      have hkdkv : pyEq kd kv = true := by
        rw [pyEq_scalar_symm hhkd hhkv]; exact hmemkd.2
      have hplq : pyLookup ds kv = some de := by rw [pyLookup_eq_key, hq]; rfl
      rw [hplq] at hhA0
      have hhA0' : (if pyEq (Value.dict ce) (Value.dict de) then some emptyDiff
          else compare_state_dicts ce de (bracketPath path kv)) = some hA0 := hhA0
      have hcond : (match pyLookupKey ds kv with
          | some q => (pyStr kv == pyStr q.1) &&
              (pyEq (.dict ce) (.dict q.2) || symEF f ce q.2)
          | none => true) = true := hsym' (kv, ce) (List.mem_cons_self _ _)
      have hcond2 : ((pyStr kv == pyStr kd) &&
          (pyEq (.dict ce) (.dict de) || symEF f ce de)) = true := by
        rw [hq] at hcond
        exact hcond
      rw [Bool.and_eq_true] at hcond2
      have hps : pyStr kv = pyStr kd := eq_of_beq hcond2.1
      have hbp : bracketPath path kd = bracketPath path kv := by
        simp [bracketPath, hps]
      -- the entry sizes sit inside the identity dictionaries
      have hsce : sizeEnt ce ≤ entriesSizes ((kv, ce) :: cs') :=
        @entriesSizes_of_mem ((kv, ce) :: cs') (kv, ce) (List.mem_cons_self _ _)
      have hsde : sizeEnt de ≤ entriesSizes ds := entriesSizes_of_mem hmemkd.1
      -- distinctness of the rest of cs against kd
      have hnecs : ∀ p ∈ cs', pyEq p.1 kd = false := by
        intro p hp
        cases hb : pyEq p.1 kd with
        | false => rfl
        | true =>
          exfalso
          have hp1 : hashable p.1 = true := hhc p (List.mem_cons_of_mem _ hp)
          have hpkv : pyEq p.1 kv = true := pyEq_scalar_trans hp1 hhkd hhkv hb hkdkv
          have := (hdchead p hp).2
          rw [hpkv] at this
          cases this
      obtain ⟨D₁, D₂, hds, hD₁⟩ := pyLookupKey_split hq
      subst hds
      -- distinctness facts for the desired dictionary
      have hddapp := List.pairwise_append.mp hdd
      have hdmid := List.pairwise_cons.mp hddapp.2.1
      have hsubDD : List.Sublist (D₁ ++ D₂) (D₁ ++ (kd, de) :: D₂) :=
        List.Sublist.append (List.Sublist.refl D₁) ((List.Sublist.refl D₂).cons _)
      have hdd' : keysDistinct (D₁ ++ D₂) := List.Pairwise.sublist hsubDD hdd
      have hmemDD : ∀ q ∈ D₁ ++ D₂, q ∈ D₁ ++ (kd, de) :: D₂ := by
        intro q hqm
        rcases List.mem_append.mp hqm with h1 | h2
        · exact List.mem_append.mpr (Or.inl h1)
        · exact List.mem_append.mpr (Or.inr (List.mem_cons_of_mem _ h2))
      -- keys of D₁ and D₂ are not python-equal to kv
      have hneD : ∀ q ∈ D₁ ++ D₂, pyEq q.1 kv = false := by
        intro q hqm
        cases hb : pyEq q.1 kv with
        | false => rfl
        | true =>
          exfalso
          have hq1 : hashable q.1 = true := hhd q (hmemDD q hqm)
          rcases List.mem_append.mp hqm with h1 | h2
          · have := hD₁ q h1
            rw [pyEq_scalar_symm hhkv hq1, hb] at this
            cases this
          · have hqkd : pyEq q.1 kd = true := pyEq_scalar_trans hq1 hhkv hhkd hb
              (by rw [pyEq_scalar_symm hhkv hhkd]; exact hkdkv)
            have := (hdmid.1 q h2).2
            rw [hqkd] at this
            cases this
      -- forward tail against the reduced desired dictionary
      have hcongrA : runCslPairs cs' (D₁ ++ (kd, de) :: D₂) path =
          runCslPairs cs' (D₁ ++ D₂) path := by
        apply runCslPairs_congr
        intro p hp
        exact pyLookup_skip_middle p.1 (hnecs p hp)
      -- reverse decomposition
      rw [runCslPairs_append, Option.bind_eq_some] at hpB
      obtain ⟨u1, hu1, hpB2⟩ := hpB
      rw [Option.map_eq_some'] at hpB2
      obtain ⟨r2, hr2, hpBeq⟩ := hpB2
      rw [runCslPairs_cons, Option.bind_eq_some] at hr2
      obtain ⟨hB0, hhB0, hr22⟩ := hr2
      rw [Option.map_eq_some'] at hr22
      obtain ⟨u2, hu2, hr2eq⟩ := hr22
      rw [runPairHead_eq_match] at hhB0
      have hlkcs : pyLookup ((kv, ce) :: cs') kd = some ce := by
        simp [pyLookup, hkdkv]
      rw [hlkcs] at hhB0
      have hhB0' : (if pyEq (Value.dict de) (Value.dict ce) then some emptyDiff
          else compare_state_dicts de ce (bracketPath path kd)) = some hB0 := hhB0
      rw [pyEq_symm hwde hwce, hbp] at hhB0' 
      -- reverse side congruences to the reduced current dictionary
      have hcongrD : ∀ (X : List (Value × List (String × Value))),
          (∀ q ∈ X, pyEq q.1 kv = false) →
          runCslPairs X ((kv, ce) :: cs') path = runCslPairs X cs' path := by
        intro X hX
        apply runCslPairs_congr
        intro q hqm
        simp [pyLookup, hX q hqm]
      have hu1' : runCslPairs D₁ cs' path = some u1 := by
        rw [← hcongrD D₁ (fun q hqm => hneD q (List.mem_append.mpr (Or.inl hqm)))]
        exact hu1
      have hu2' : runCslPairs D₂ cs' path = some u2 := by
        rw [← hcongrD D₂ (fun q hqm => hneD q (List.mem_append.mpr (Or.inr hqm)))]
        exact hu2
      have hpB' : runCslPairs (D₁ ++ D₂) cs' path = some (u1.app u2) := by
        rw [runCslPairs_append, hu1', hu2']
        rfl
      -- symmetry conditions for the tail pair
      have hsymtail : symPairsF (f + 1) cs' (D₁ ++ D₂) = true := by
        show (cs'.all (fun p => match pyLookupKey (D₁ ++ D₂) p.1 with
          | some q => (pyStr p.1 == pyStr q.1) &&
              (pyEq (.dict p.2) (.dict q.2) || symEF f p.2 q.2)
          | none => true)) = true
        rw [List.all_eq_true]
        intro p hp
        have := hsym' p (List.mem_cons_of_mem _ hp)
        rw [pyLookupKey_skip_middle p.1 (hnecs p hp)] at this
        exact this
      have htA' : runCslPairs cs' (D₁ ++ D₂) path = some tA := by
        rw [← hcongrA]
        exact htA
      -- sizes shrink
      have hEapp : entriesSizes (D₁ ++ (kd, de) :: D₂) =
          entriesSizes D₁ + (sizeEnt de + entriesSizes D₂) := by
        rw [entriesSizes_append]; rfl
      have hEapp' : entriesSizes (D₁ ++ D₂) = entriesSizes D₁ + entriesSizes D₂ :=
        entriesSizes_append D₁ D₂
      have hrel := ih (D₁ ++ D₂) M (f + 1) path tA (u1.app u2)
        (by have := sizeEnt_pos ce; have := sizeEnt_pos de; omega) hM hdc' hdd'
        (fun p hp => hhc p (List.mem_cons_of_mem _ hp))
        (fun q hqm => hhd q (hmemDD q hqm))
        (fun p hp => hwc p (List.mem_cons_of_mem _ hp))
        (fun q hqm => hwd q (hmemDD q hqm))
        hsymtail htA' hpB'
      -- the matched pair itself
      have hsub : diffFlipRel hA0 hB0 := by
        cases hpe : pyEq (Value.dict ce) (Value.dict de) with
        | true =>
          rw [if_pos hpe] at hhA0' hhB0'
          obtain rfl := Option.some.inj hhA0'
          obtain rfl := Option.some.inj hhB0'
          exact diffFlipRel_empty
        | false =>
          rw [if_neg (by simp [hpe])] at hhA0' hhB0' 
          have hsymE : symEF f ce de = true := by
            have h2 := hcond2.2
            rw [hpe] at h2
            simpa using h2
          have hce : (nodupKeys ce && wfE ce) = true := hwce
          have hde2 : (nodupKeys de && wfE de) = true := hwde
          rw [Bool.and_eq_true] at hce hde2
          exact ihD M hM f ce de (bracketPath path kv) hA0 hB0
            (by omega) hce.1 hde2.1 hce.2 hde2.2 hsymE hhA0' hhB0' 
      -- assemble
      subst hpAeq
      subst hr2eq
      subst hpBeq
      exact diffFlipRel_insert3 hsub hrel

/-- The two directions of the differ produce mirror diffs, under the
symmetry conditions, simultaneously for mappings and sequences. -/
theorem symRel : ∀ n, SymDictStmt n ∧ SymListStmt n := by
  intro n
  induction n using Nat.strong_induction_on with
  | _ n ih =>
  constructor
  · -- mappings
    intro fuel A B path dA dB hn hndA hndB hwfA hwfB hsym hfwd hrev
    cases A with
    | nil =>
      rw [csd_empty_current_run] at hfwd
      rw [csd_empty_desired_run] at hrev
      have hBnd : ∀ p ∈ B, p.2.isDict = false := by
        cases fuel with
        | zero => exact absurd hsym (by simp [symEF])
        | succ f =>
          have hsym2 := hsym
          rw [symEF_unfold, Bool.and_eq_true] at hsym2
          have h2 := hsym2.2
          rw [List.all_eq_true] at h2
          intro p hp
          have h3 : (match lookupStr ([] : List (String × Value)) p.1 with
            | some _ => true
            | none => ! p.2.isDict) = true := h2 p hp
          simpa [lookupStr] using h3
      rw [addedLeavesEnt_nondict B path hBnd] at hfwd
      obtain rfl := Option.some.inj hfwd
      obtain rfl := Option.some.inj hrev
      refine ⟨?_, ?_, ?_⟩
      · rw [msetR_map, List.map_map]
        rfl
      · rfl
      · rfl
    | cons phead A' =>
      obtain ⟨k, v⟩ := phead
      rw [csd_decomp, Option.bind_eq_some] at hfwd
      obtain ⟨d1, hd1, hfwd2⟩ := hfwd
      rw [Option.map_eq_some'] at hfwd2
      obtain ⟨d2, hd2, hdAeq⟩ := hfwd2
      rw [runLoop1_cons, Option.bind_eq_some] at hd1
      obtain ⟨h0, hh0, hd12⟩ := hd1
      rw [Option.map_eq_some'] at hd12
      obtain ⟨l1, hl1, hd1eq⟩ := hd12
      rw [runHead_eq_match] at hh0
      rw [csd_decomp, Option.bind_eq_some] at hrev
      obtain ⟨e1, he1, hrev2⟩ := hrev
      rw [Option.map_eq_some'] at hrev2
      obtain ⟨e2, he2, hdBeq⟩ := hrev2
      rw [runLoop2_cons, Option.bind_eq_some] at he2
      obtain ⟨g0, hg0, he22⟩ := he2
      rw [Option.map_eq_some'] at he22
      obtain ⟨l2, hl2, he2eq⟩ := he22
      rw [runAddHead_eq_match] at hg0
      obtain ⟨hndA', hcA'⟩ := nodupKeys_tail hndA
      have hwfA' : (wfV v && wfE A') = true := hwfA
      rw [Bool.and_eq_true] at hwfA'
      have hszA : sizeEnt ((k, v) :: A') = 2 + sizeVal v + sizeEnt A' := rfl
      have hvpos := sizeVal_pos v
      cases hlkB : lookupStr B k with
      | none =>
        have hcB : containsStr B k = false := by simp [containsStr, hlkB]
        rw [hlkB] at hh0
        have hh0' : some (⟨[⟨childPath path k, some v, none, none⟩], [], []⟩ : Diff) =
            some h0 := hh0
        obtain rfl := Option.some.inj hh0'
        rw [if_neg (by simp [hcB])] at hg0
        cases fuel with
        | zero => exact absurd hsym (by simp [symEF])
        | succ f =>
        have hsym2 := hsym
        rw [symEF_unfold, Bool.and_eq_true] at hsym2
        obtain ⟨hsA, hsB⟩ := hsym2
        rw [List.all_eq_true] at hsA
        have hhead : (match lookupStr B k with
          | some w => symVF f v w
          | none => ! v.isDict) = true := hsA (k, v) (List.mem_cons_self _ _)
        rw [hlkB] at hhead
        have hvnd : v.isDict = false := by simpa using hhead
        rw [runAddValue_other _ _
          (by intro de hde; subst hde; simp [Value.isDict] at hvnd)] at hg0
        obtain rfl := Option.some.inj hg0
        have hkey : ∀ p ∈ B, (p.1 == k) = false := by
          intro p hp
          rw [strBeq_comm]
          exact lookupStr_not_mem hlkB p hp
        have hcong2 : runLoop2 B ((k, v) :: A') path = runLoop2 B A' path := by
          apply runLoop2_congr
          intro p hp
          simp [containsStr, lookupStr, hkey p hp]
        have hcong1 : runLoop1 B ((k, v) :: A') path = runLoop1 B A' path := by
          apply runLoop1_congr
          intro p hp
          simp [lookupStr, hkey p hp]
        have hfwd' : compare_state_dicts A' B path = some (l1.app d2) := by
          rw [csd_decomp, hl1]
          rw [hcong2] at hd2
          rw [hd2]
          rfl
        have hrev' : compare_state_dicts B A' path = some (e1.app l2) := by
          rw [csd_decomp]
          rw [hcong1] at he1
          rw [he1, hl2]
          rfl
        have hsymtail : symEF (f + 1) A' B = true := symEF_drop_absent hsym hcB hcA'
        have hrel' := (ih (sizeEnt A' + sizeEnt B) (by omega)).1 (f + 1) A' B path
          (l1.app d2) (e1.app l2) (Nat.le_refl _) hndA' hndB hwfA'.2 hwfB
          hsymtail hfwd' hrev'
        have hdA2 : dA = ((⟨[⟨childPath path k, some v, none, none⟩], [], []⟩ : Diff).app
            l1).app d2 := by
          rw [← hdAeq, ← hd1eq]
        have hdB2 : dB = e1.app ((⟨[], [⟨childPath path k, none, some v, none⟩],
            []⟩ : Diff).app l2) := by
          rw [← hdBeq, ← he2eq]
        rw [hdA2, hdB2]
        exact diffFlipRel_insert (diffFlipRel_removed_single (childPath path k) v) hrel'
      | some w =>
        have hcB : containsStr B k = true := by simp [containsStr, hlkB]
        rw [hlkB] at hh0
        have hh0' : runMatched (childPath path k) v w = some h0 := hh0
        rw [if_pos (by simp [hcB])] at hg0
        obtain rfl := Option.some.inj hg0
        have hwB : wfV w = true := wfE_of_mem hwfB (lookupStr_mem hlkB)
        have hwsz := lookupStr_sizeVal hlkB
        cases fuel with
        | zero => exact absurd hsym (by simp [symEF])
        | succ f =>
        have hsym2 := hsym
        rw [symEF_unfold, Bool.and_eq_true] at hsym2
        obtain ⟨hsA, hsB⟩ := hsym2
        rw [List.all_eq_true] at hsA
        have hhead : (match lookupStr B k with
          | some w => symVF f v w
          | none => ! v.isDict) = true := hsA (k, v) (List.mem_cons_self _ _)
        rw [hlkB] at hhead
        have hsymv : symVF f v w = true := hhead
        obtain ⟨B₁, B₂, hds, hB₁⟩ := lookupStr_split hlkB
        subst hds
        obtain ⟨hndBB, hcB₁, hcB₂⟩ := nodupKeys_append_middle hndB
        have hkeyA' : ∀ p ∈ A', (p.1 == k) = false := by
          intro p hp
          rw [strBeq_comm]
          exact key_ne_of_contains_false hcA' p hp
        have hkeyB₁ : ∀ p ∈ B₁, (p.1 == k) = false := by
          intro p hp
          rw [strBeq_comm]
          exact key_ne_of_contains_false hcB₁ p hp
        have hkeyB₂ : ∀ p ∈ B₂, (p.1 == k) = false := by
          intro p hp
          rw [strBeq_comm]
          exact key_ne_of_contains_false hcB₂ p hp
        rw [runLoop2_append, Option.bind_eq_some] at hd2
        obtain ⟨q1, hq1, hd22⟩ := hd2
        rw [Option.map_eq_some'] at hd22
        obtain ⟨r2, hr2, hd2eq⟩ := hd22
        rw [runLoop2_cons, Option.bind_eq_some] at hr2
        obtain ⟨gmid, hgmid, hr22⟩ := hr2
        rw [Option.map_eq_some'] at hr22
        obtain ⟨q2, hq2, hr2eq⟩ := hr22
        rw [runAddHead_eq_match] at hgmid
        have hcAk : containsStr ((k, v) :: A') k = true := by
          simp [containsStr, lookupStr]
        rw [if_pos (by simp [hcAk])] at hgmid
        obtain rfl := Option.some.inj hgmid
        have hcongQ : ∀ (X : List (String × Value)), (∀ p ∈ X, (p.1 == k) = false) →
            runLoop2 X ((k, v) :: A') path = runLoop2 X A' path := by
          intro X hX
          apply runLoop2_congr
          intro p hp
          simp [containsStr, lookupStr, hX p hp]
        have hq1' : runLoop2 B₁ A' path = some q1 := by
          rw [← hcongQ B₁ hkeyB₁]
          exact hq1
        have hq2' : runLoop2 B₂ A' path = some q2 := by
          rw [← hcongQ B₂ hkeyB₂]
          exact hq2
        have hl1' : runLoop1 A' (B₁ ++ B₂) path = some l1 := by
          rw [← runLoop1_congr A' path
            (fun p hp => lookupStr_skip_middle p.1 (hkeyA' p hp))]
          exact hl1
        rw [runLoop1_append, Option.bind_eq_some] at he1
        obtain ⟨u1, hu1, he12⟩ := he1
        rw [Option.map_eq_some'] at he12
        obtain ⟨s2, hs2, he1eq⟩ := he12
        rw [runLoop1_cons, Option.bind_eq_some] at hs2
        obtain ⟨subBA, hsubBA, hs22⟩ := hs2
        rw [Option.map_eq_some'] at hs22
        obtain ⟨u2, hu2, hs2eq⟩ := hs22
        rw [runHead_eq_match] at hsubBA
        have hlkA : lookupStr ((k, v) :: A') k = some v := by simp [lookupStr]
        rw [hlkA] at hsubBA
        have hsubBA' : runMatched (childPath path k) w v = some subBA := hsubBA
        have hcongU : ∀ (X : List (String × Value)), (∀ p ∈ X, (p.1 == k) = false) →
            runLoop1 X ((k, v) :: A') path = runLoop1 X A' path := by
          intro X hX
          apply runLoop1_congr
          intro p hp
          simp [lookupStr, hX p hp]
        have hu1' : runLoop1 B₁ A' path = some u1 := by
          rw [← hcongU B₁ hkeyB₁]
          exact hu1
        have hu2' : runLoop1 B₂ A' path = some u2 := by
          rw [← hcongU B₂ hkeyB₂]
          exact hu2
        have hl2' : runLoop2 A' (B₁ ++ B₂) path = some l2 := by
          rw [← runLoop2_congr A' path
            (fun p hp => containsStr_skip_middle p.1 (hkeyA' p hp))]
          exact hl2
        have hfwd' : compare_state_dicts A' (B₁ ++ B₂) path =
            some (l1.app (q1.app q2)) := by
          rw [csd_decomp, hl1']
          have h5 : runLoop2 (B₁ ++ B₂) A' path = some (q1.app q2) := by
            rw [runLoop2_append, hq1', hq2']
            rfl
          rw [h5]
          rfl
        have hrev' : compare_state_dicts (B₁ ++ B₂) A' path =
            some ((u1.app u2).app l2) := by
          rw [csd_decomp]
          have h5 : runLoop1 (B₁ ++ B₂) A' path = some (u1.app u2) := by
            rw [runLoop1_append, hu1', hu2']
            rfl
          rw [h5, hl2']
          rfl
        have hsymtail : symEF (f + 1) A' (B₁ ++ B₂) = true :=
          symEF_drop_matched hsym hcA' hcB₁ hcB₂
        have hwfBB : wfE (B₁ ++ B₂) = true := by
          have h1 : wfE (B₁ ++ (k, w) :: B₂) = true := hwfB
          rw [wfE_append] at h1 ⊢
          rw [Bool.and_eq_true] at h1 ⊢
          refine ⟨h1.1, ?_⟩
          have h2 : (wfV w && wfE B₂) = true := h1.2
          rw [Bool.and_eq_true] at h2
          exact h2.2
        have hszB : sizeEnt (B₁ ++ (k, w) :: B₂) + 1 =
            sizeEnt B₁ + sizeEnt ((k, w) :: B₂) := sizeEnt_append _ _
        have hszBB : sizeEnt (B₁ ++ B₂) + 1 = sizeEnt B₁ + sizeEnt B₂ :=
          sizeEnt_append _ _
        have hszmid : sizeEnt ((k, w) :: B₂) = 2 + sizeVal w + sizeEnt B₂ := rfl
        have hwpos := sizeVal_pos w
        have hrel' := (ih (sizeEnt A' + sizeEnt (B₁ ++ B₂)) (by omega)).1 (f + 1)
          A' (B₁ ++ B₂) path _ _ (Nat.le_refl _) hndA' hndBB hwfA'.2 hwfBB
          hsymtail hfwd' hrev'
        have hsub : diffFlipRel h0 subBA :=
          runMatched_rel (fun m hm => (ih m hm).1) (fun m hm => (ih m hm).2)
            (by omega) hwfA'.1 hwB hsymv hh0' hsubBA'
        have hdA2 : dA = (h0.app l1).app (q1.app q2) := by
          rw [← hdAeq, ← hd1eq, ← hd2eq, ← hr2eq, Diff.empty_app]
        have hdB2 : dB = (u1.app (subBA.app u2)).app l2 := by
          rw [← hdBeq, ← he1eq, ← hs2eq, ← he2eq, Diff.empty_app]
        rw [hdA2, hdB2]
        exact diffFlipRel_insert2 hsub hrel'
  · -- sequences
    intro fuel cl dl path dA dB hn hwfcl hwfdl hsym hfwd hrev
    cases cl with
    | nil =>
      cases dl with
      | nil => exact absurd hsym (by cases fuel <;> simp [symLF])
      | cons d0 dl' =>
        rw [csl_nil_left_run] at hfwd
        rw [csl_nil_right_run] at hrev
        obtain rfl := Option.some.inj hfwd
        obtain rfl := Option.some.inj hrev
        exact diffFlipRel_sentinel path
    | cons c0 cl' =>
      cases dl with
      | nil =>
        rw [csl_nil_right_run] at hfwd
        rw [csl_nil_left_run] at hrev
        obtain rfl := Option.some.inj hfwd
        obtain rfl := Option.some.inj hrev
        exact diffFlipRel_sentinel_rev path
      | cons d0 dl' =>
        cases fuel with
        | zero => exact absurd hsym (by simp [symLF])
        | succ f =>
        have hsym2 : (match uniqueKey c0, uniqueKey d0 with
          | some uk, some uk' =>
              (uk == uk') && symBuildF f (buildStateDict (c0 :: cl') uk)
                (buildStateDict (d0 :: dl') uk)
          | _, _ => false) = true := hsym
        cases huk : uniqueKey c0 with
        | none =>
          rw [huk] at hsym2
          cases huk' : uniqueKey d0 <;> rw [huk'] at hsym2 <;> simp at hsym2
        | some uk =>
          cases huk' : uniqueKey d0 with
          | none =>
            rw [huk, huk'] at hsym2
            simp at hsym2
          | some uk' =>
            rw [huk, huk'] at hsym2
            have hsym3 : ((uk == uk') && symBuildF f (buildStateDict (c0 :: cl') uk)
              (buildStateDict (d0 :: dl') uk)) = true := hsym2
            rw [Bool.and_eq_true] at hsym3
            obtain rfl := eq_of_beq hsym3.1
            have hfwd3 : (match buildStateDict (c0 :: cl') uk,
                buildStateDict (d0 :: dl') uk with
              | some cs, some ds =>
                  (runCslPairs cs ds path).map
                    (fun dp => Diff.app ⟨removedRecs cs ds path,
                      addedRecs ds cs path, []⟩ dp)
              | _, _ => none) = some dA := by
              rw [csl_decomp, huk] at hfwd
              exact hfwd
            have hrev3 : (match buildStateDict (d0 :: dl') uk,
                buildStateDict (c0 :: cl') uk with
              | some cs, some ds =>
                  (runCslPairs cs ds path).map
                    (fun dp => Diff.app ⟨removedRecs cs ds path,
                      addedRecs ds cs path, []⟩ dp)
              | _, _ => none) = some dB := by
              rw [csl_decomp, huk'] at hrev
              exact hrev
            cases hbc : buildStateDict (c0 :: cl') uk with
            | none =>
              rw [hbc] at hfwd3
              cases hbd0 : buildStateDict (d0 :: dl') uk <;> rw [hbd0] at hfwd3 <;>
                exact Option.noConfusion hfwd3
            | some cs =>
              cases hbd : buildStateDict (d0 :: dl') uk with
              | none =>
                rw [hbc, hbd] at hfwd3
                exact Option.noConfusion hfwd3
              | some ds =>
                rw [hbc, hbd] at hfwd3
                rw [hbd, hbc] at hrev3
                have hfwd2 : (runCslPairs cs ds path).map
                    (fun dp => Diff.app ⟨removedRecs cs ds path,
                      addedRecs ds cs path, []⟩ dp) = some dA := hfwd3
                have hrev2 : (runCslPairs ds cs path).map
                    (fun dp => Diff.app ⟨removedRecs ds cs path,
                      addedRecs cs ds path, []⟩ dp) = some dB := hrev3
                rw [Option.map_eq_some'] at hfwd2 hrev2
                obtain ⟨pA, hpA, hdAeq⟩ := hfwd2
                obtain ⟨pB, hpB, hdBeq⟩ := hrev2
                have hbsB : symBuildF f (some cs) (some ds) = true := by
                  have h6 := hsym3.2
                  rw [hbc, hbd] at h6
                  exact h6
                cases f with
                | zero => exact absurd hbsB (by simp [symBuildF])
                | succ f2 =>
                have hsymP : symPairsF f2 cs ds = true := hbsB
                have hboundc := buildStateDictAux_bound (c0 :: cl') uk [] cs hbc
                have hboundd := buildStateDictAux_bound (d0 :: dl') uk [] ds hbd
                simp [entriesSizes] at hboundc hboundd
                have hszc := sizeElems_pos (c0 :: cl')
                have hszd := sizeElems_pos (d0 :: dl')
                have hrelP := symPairs_rel (fun m hm => (ih m hm).1) cs ds
                  (entriesSizes cs + entriesSizes ds) f2 path pA pB
                  (Nat.le_refl _) (by omega)
                  (buildStateDict_keysDistinct hbc) (buildStateDict_keysDistinct hbd)
                  (buildStateDict_keysHashable hbc) (buildStateDict_keysHashable hbd)
                  (buildStateDict_wf hbc hwfcl) (buildStateDict_wf hbd hwfdl)
                  hsymP hpA hpB
                rw [← hdAeq, ← hdBeq]
                exact diffFlipRel_app (diffFlipRel_recs cs ds path) hrelP

/-- C3 (amended): diffing A against B and B against A swaps the removed and
added roles and swaps old/new values of changed records — as an equality of
multisets of records after exchanging old/new values and the two sentinel
messages — provided both trees are well-formed and the symmetry conditions
`symEF` hold: a key present on only one side never carries a mapping value
(a one-sided mapping decomposes into per-leaf Added records in one direction
but stays a whole-subtree Removed record in the other), matched sequences
pick the same identity key with identically rendered matched identity
values, and the conditions recurse through matched mappings and sequences.
The original unconditional claim is refuted by `C3_counterexample`. -/
theorem C3_amended_symmetry (fuel : Nat) (A B : List (String × Value))
    (path : String) (dA dB : Diff)
    (hndA : nodupKeys A = true) (hndB : nodupKeys B = true)
    (hwfA : wfE A = true) (hwfB : wfE B = true)
    (hsym : symEF fuel A B = true)
    (hfwd : compare_state_dicts A B path = some dA)
    (hrev : compare_state_dicts B A path = some dB) :
    msetR dB.removed = Multiset.map flipItem (msetR dA.added) ∧
    msetR dB.added = Multiset.map flipItem (msetR dA.removed) ∧
    msetR dB.changed = Multiset.map flipItem (msetR dA.changed) :=
  (symRel (sizeEnt A + sizeEnt B)).1 fuel A B path dA dB (Nat.le_refl _)
    hndA hndB hwfA hwfB hsym hfwd hrev

/-- Witness for C3 (amended) at concrete inputs
`A = {a: 1, b: 2}`, `B = {a: 2, c: "x"}`. -/
theorem C3_amended_symmetry_witness :
    msetR [⟨"c", some (Value.str "x"), none, none⟩] =
      Multiset.map flipItem (msetR [⟨"c", none, some (Value.str "x"), none⟩]) ∧
    msetR [⟨"b", none, some (Value.int 2), none⟩] =
      Multiset.map flipItem (msetR [⟨"b", some (Value.int 2), none, none⟩]) ∧
    msetR [⟨"a", some (Value.int 2), some (Value.int 1), none⟩] =
      Multiset.map flipItem (msetR [⟨"a", some (Value.int 1), some (Value.int 2), none⟩]) :=
  C3_amended_symmetry 3 [("a", Value.int 1), ("b", Value.int 2)]
    [("a", Value.int 2), ("c", Value.str "x")] ""
    ⟨[⟨"b", some (Value.int 2), none, none⟩], [⟨"c", none, some (Value.str "x"), none⟩],
      [⟨"a", some (Value.int 1), some (Value.int 2), none⟩]⟩
    ⟨[⟨"c", some (Value.str "x"), none, none⟩], [⟨"b", none, some (Value.int 2), none⟩],
      [⟨"a", some (Value.int 2), some (Value.int 1), none⟩]⟩
    rfl rfl rfl rfl rfl rfl rfl
